import Mathlib

/-!
Verification of the regex engine in `src/script.js` (parser, Thompson NFA
compiler, iterative subset simulator, recursive backtracking checker).

The JavaScript source is embedded shallowly:
* strings are `List Char`; both the pattern and the input are processed at
  single-character granularity, matching the reference character model;
* the mutable state graph is an arena `List NFAState` with integer ids, as the
  spec itself recommends; JS object mutation becomes arena update; JS `Set`
  objects become duplicate-free `List Nat` values grown in insertion order;
* JS `Infinity` quantifier bounds become `Option Nat` (`none` = unbounded);
* thrown `Error` values become `Except ParseError`; `reportError` builds the
  same position/snippet data the source interpolates into the thrown message,
  with the §7 taxonomy kind of each call site recorded alongside;
* unbounded loops (parser descent, closure worklists, the backtracking
  checker) take an explicit fuel argument so that every definition stays
  structurally recursive and kernel-computable; fuel sufficiency is proved,
  never assumed, where a claim depends on it.
-/

namespace RegexEngine

/-! ## Parse errors (`reportError`, spec §7 taxonomy) -/

/-- Error kinds, following the spec §7 taxonomy.  Each `reportError` call site
in the source carries a distinct message; the kind tags that call site.
`FuelExhausted` is an artifact of the fueled embedding and is proved
unreachable wherever a claim depends on it. -/
inductive ErrKind where
  | UnexpectedCharacter
  | UnterminatedGroup
  | UnterminatedCharClass
  | EmptyCharClass
  | InvalidRange
  | UnterminatedQuantifier
  | EmptyQuantifier
  | MalformedQuantifier
  | InvalidQuantifierRange
  | EmptyAlternationOperand
  | TrailingInput
  | FuelExhausted
  deriving DecidableEq, Repr

/-- The snippet built by `reportError`:
`...${regex.substring(max(0,pos-10), pos)}[HERE]${regex.substring(pos, min(len,pos+10))}...` -/
def mkSnippet (full : List Char) (pos : Nat) : List Char :=
  "...".data ++ ((full.take pos).drop (pos - 10)) ++ "[HERE]".data
    ++ ((full.take (pos + 10)).drop pos) ++ "...".data

/-- The structured parse error: kind, human-readable message, offending
position, context snippet (the data `reportError` interpolates into the
thrown `Error`). -/
structure ParseError where
  kind : ErrKind
  msg : String
  pos : Nat
  snippet : List Char
  deriving DecidableEq, Repr

/-- `reportError(message, ctx, errorPos)` from the source. -/
def reportError (kind : ErrKind) (msg : String) (full : List Char) (pos : Nat) : ParseError :=
  { kind := kind, msg := msg, pos := pos, snippet := mkSnippet full pos }

/-- The message text of the thrown `Error`. -/
def ParseError.thrownMessage (e : ParseError) : String :=
  "Regex Parse Error: " ++ e.msg ++ " at position " ++ toString e.pos
    ++ ". Regex snippet: " ++ String.mk e.snippet

/-! ## Tokens (the AST) -/

/-- AST tokens; constructor names mirror the source `TokenType` enum.
`REPEAT` stores `min : Nat` and `max : Option Nat` with `none` standing for
the source's `Infinity`. -/
inductive Token where
  | GROUP (ts : List Token)
  | BRACKET (cs : List Char)
  | OR (left right : List Token)
  | REPEAT (min : Nat) (max : Option Nat) (inner : Token)
  | LITERAL (c : Char)

/-- `parseInt(ds, 10)` on the all-digit strings the quantifier scanner
accumulates. -/
def numVal (ds : List Char) : Nat :=
  ds.foldl (fun a c => 10 * a + (c.toNat - 48)) 0

/-- The character range loop of the bracket case:
`for (i = prev.charCodeAt(0); i <= next.charCodeAt(0); i++) push(fromCharCode(i))`. -/
def rangeChars (lo hi : Char) : List Char :=
  (List.range (hi.toNat + 1 - lo.toNat)).map (fun i => Char.ofNat (lo.toNat + i))

/-- `[...new Set(literals)]`: deduplication keeping first occurrences. -/
def dedupFirstAux (seen : List Char) : List Char → List Char
  | [] => []
  | c :: rest =>
    if c ∈ seen then dedupFirstAux seen rest
    else c :: dedupFirstAux (seen ++ [c]) rest

/-- `[...new Set(literals)]`. -/
def dedupFirst (l : List Char) : List Char := dedupFirstAux [] l

/-! ## The parser (recursive descent, source lines 399-622)

Each function takes the full pattern (`ctx.regex`, used only for error
snippets), the remaining input and the current position (`ctx.pos`).  The
mutually recursive descent takes fuel; the quantifier scan loop recurses
structurally on the remaining input, the character-class loop (which may
consume three characters at a time) takes its own fuel, one unit per
consumed character. -/

/-- The quantifier scanning loop inside `parseFactor` (`while regex[pos] != '}'`).
Returns the accumulated `sMin`, `sMax`, the `commaFound` flag, the remaining
input and the position at loop exit. -/
def quantScan (full : List Char) : List Char → Nat → List Char → List Char → Bool → Bool →
    Except ParseError (List Char × List Char × Bool × List Char × Nat)
  | [], pos, sMin, sMax, _, commaFound => .ok (sMin, sMax, commaFound, [], pos)
  | qc :: rest, pos, sMin, sMax, inMin, commaFound =>
    if qc = '}' then .ok (sMin, sMax, commaFound, qc :: rest, pos)
    else if qc = ',' then
      if commaFound then
        .error (reportError .MalformedQuantifier "Multiple commas in quantifier" full pos)
      else quantScan full rest (pos + 1) sMin sMax false true
    else if qc.isDigit then
      if inMin then quantScan full rest (pos + 1) (sMin ++ [qc]) sMax inMin commaFound
      else quantScan full rest (pos + 1) sMin (sMax ++ [qc]) inMin commaFound
    else .error (reportError .MalformedQuantifier "Non-digit in quantifier" full pos)

/-- The character-class scanning loop inside `parseAtom`
(`while pos < len && regex[pos] != ']'`).  The three-character lookahead
`pos+2 < len && regex[pos+1] == '-' && regex[pos+2] != ']'` becomes a match
on the first three remaining characters. -/
def bracketScan (full : List Char) : Nat → List Char → Nat → List Char →
    Except ParseError (List Char × List Char × Nat)
  | 0, _, pos, _ => .error (reportError .FuelExhausted "out of fuel" full pos)
  | _ + 1, [], pos, lits => .ok (lits, [], pos)
  | fuel + 1, ch :: rest, pos, lits =>
    if ch = ']' then .ok (lits, ch :: rest, pos)
    else
      match rest with
      | c2 :: c3 :: rest2 =>
        if c2 = '-' ∧ c3 ≠ ']' then
          if ch.toNat > c3.toNat then
            .error (reportError .InvalidRange
              (s!"Invalid range {ch}-{c3} in character class") full pos)
          else bracketScan full fuel rest2 (pos + 3) (lits ++ rangeChars ch c3)
        else bracketScan full fuel rest (pos + 1) (lits ++ [ch])
      | _ => bracketScan full fuel rest (pos + 1) (lits ++ [ch])

/-- One call frame of the mutually recursive parser functions
(`parseExpression`, its alternation loop, `parseTerm`, its factor loop,
`parseFactor`, `parseAtom`).  The mutual recursion is packaged as a single
fueled dispatcher `parseStep` so that the definition is structurally
recursive on the fuel and therefore computable by the kernel; the named
wrappers below restore the source signatures. -/
inductive PCall where
  | expr (rem : List Char) (pos : Nat) (stop : List Char)
  | exprLoop (leftNode : List Token) (rem : List Char) (pos : Nat) (stop : List Char)
  | term (rem : List Char) (pos : Nat) (stop : List Char)
  | termLoop (acc : List Token) (rem : List Char) (pos : Nat) (stop : List Char)
  | factor (rem : List Char) (pos : Nat) (stop : List Char)
  | atom (rem : List Char) (pos : Nat) (stop : List Char)

/-- The position of a parser call frame (used only for the fuel-exhaustion
artifact error). -/
def PCall.callPos : PCall → Nat
  | .expr _ p _ => p
  | .exprLoop _ _ p _ => p
  | .term _ p _ => p
  | .termLoop _ _ p _ => p
  | .factor _ p _ => p
  | .atom _ p _ => p

/-- The parser dispatcher.  `parseFactor`/`parseAtom` results (`Token` or
`null` in the source) are encoded as a token list of length at most one.
Each case is the body of the corresponding source function. -/
def parseStep (full : List Char) : Nat → PCall → Except ParseError (List Token × List Char × Nat)
  | 0, call => .error (reportError .FuelExhausted "out of fuel" full call.callPos)
  -- `parseExpression(ctx, stopChars)`: parse one term, then the alternation loop.
  | fuel + 1, .expr rem pos stop => do
    let (leftNode, rem1, pos1) ← parseStep full fuel (.term rem pos stop)
    parseStep full fuel (.exprLoop leftNode rem1 pos1 stop)
  -- The `while` loop of `parseExpression`: as long as the current character
  -- is `'|'` (and not a stop character), consume it and parse the right term.
  | fuel + 1, .exprLoop leftNode rem pos stop =>
    (match rem with
    | [] => .ok (leftNode, [], pos)
    | c :: rest =>
      if c ∈ stop then .ok (leftNode, c :: rest, pos)
      else if c = '|' then
        if leftNode.isEmpty then
          .error (reportError .EmptyAlternationOperand
            "Alternation operator | missing left operand" full pos)
        else
          match rest with
          | [] => .error (reportError .EmptyAlternationOperand
              "Alternation operator | missing right operand" full (pos + 1))
          | c2 :: _ =>
            if c2 ∈ stop ∨ c2 = '|' then
              .error (reportError .EmptyAlternationOperand
                "Alternation operator | missing right operand" full (pos + 1))
            else do
              let (rightNode, rem2, pos2) ← parseStep full fuel (.term rest (pos + 1) stop)
              if rightNode.isEmpty then
                .error (reportError .EmptyAlternationOperand
                  "Alternation operator | has empty right operand" full pos2)
              else parseStep full fuel (.exprLoop [Token.OR leftNode rightNode] rem2 pos2 stop)
      else .ok (leftNode, c :: rest, pos))
  -- `parseTerm(ctx, stopChars)`.
  | fuel + 1, .term rem pos stop => parseStep full fuel (.termLoop [] rem pos stop)
  -- The `while` loop of `parseTerm`: collect factors until a stop character,
  -- `'|'`, end of input, or a null factor.
  | fuel + 1, .termLoop acc rem pos stop =>
    (match rem with
    | [] => .ok (acc, [], pos)
    | c :: rest =>
      if c ∈ stop then .ok (acc, c :: rest, pos)
      else if c = '|' then .ok (acc, c :: rest, pos)
      else do
        let (factor, rem1, pos1) ← parseStep full fuel (.factor (c :: rest) pos stop)
        match factor with
        | tok :: _ => parseStep full fuel (.termLoop (acc ++ [tok]) rem1 pos1 stop)
        | [] => .ok (acc, rem1, pos1))
  -- `parseFactor(ctx, stopChars)`: an atom followed by an optional quantifier.
  | fuel + 1, .factor rem pos stop => do
    let (atomRes, rem1, pos1) ← parseStep full fuel (.atom rem pos stop)
    match atomRes with
    | [] => .ok ([], rem1, pos1)
    | atomToken :: _ =>
      match rem1 with
      | [] => .ok ([atomToken], [], pos1)
      | c :: rest =>
        if c = '*' then .ok ([.REPEAT 0 none atomToken], rest, pos1 + 1)
        else if c = '+' then .ok ([.REPEAT 1 none atomToken], rest, pos1 + 1)
        else if c = '?' then .ok ([.REPEAT 0 (some 1) atomToken], rest, pos1 + 1)
        else if c = '{' then do
          let quantStartPos := pos1
          let (sMin, sMax, commaFound, rem2, pos2) ← quantScan full rest (pos1 + 1) [] [] true false
          match rem2 with
          | [] => .error (reportError .UnterminatedQuantifier
              "Unterminated quantifier" full quantStartPos)
          | cc :: rest2 =>
            if cc ≠ '}' then
              .error (reportError .UnterminatedQuantifier
                "Unterminated quantifier" full quantStartPos)
            else
              if sMin = [] ∧ commaFound = false then
                .error (reportError .EmptyQuantifier "Empty quantifier" full quantStartPos)
              else if sMin = [] ∧ commaFound = true ∧ sMax = [] then
                .error (reportError .EmptyQuantifier "Empty quantifier \x7b,\x7d" full quantStartPos)
              else
                let minv := if sMin ≠ [] then numVal sMin else 0
                let maxv : Option Nat :=
                  if commaFound then (if sMax ≠ [] then some (numVal sMax) else none)
                  else some minv
                if sMin ≠ [] ∧ sMax ≠ [] ∧ numVal sMax < minv then
                  .error (reportError .InvalidQuantifierRange
                    "Invalid quantifier range: min > max" full quantStartPos)
                else .ok ([.REPEAT minv maxv atomToken], rest2, pos2 + 1)
        else .ok ([atomToken], c :: rest, pos1)
  -- `parseAtom(ctx, stopChars)`: literal, group or character class.
  | fuel + 1, .atom rem pos stop =>
    (match rem with
    | [] => .ok ([], [], pos)
    | c :: rest =>
      if c ∈ stop then .ok ([], c :: rest, pos)
      else if c = '(' then do
        let groupStartPos := pos
        let (groupTokens, rem2, pos2) ← parseStep full fuel (.expr rest (pos + 1) [')'])
        match rem2 with
        | [] => .error (reportError .UnterminatedGroup "Unterminated group" full groupStartPos)
        | cc :: rest2 =>
          if cc = ')' then .ok ([.GROUP groupTokens], rest2, pos2 + 1)
          else .error (reportError .UnterminatedGroup "Unterminated group" full groupStartPos)
      else if c = '[' then do
        let bracketStartPos := pos
        let (lits, rem2, pos2) ← bracketScan full (rest.length + 1) rest (pos + 1) []
        match rem2 with
        | [] => .error (reportError .UnterminatedCharClass
            "Unterminated character class" full bracketStartPos)
        | cc :: rest2 =>
          if cc = ']' then
            if lits = [] then
              .error (reportError .EmptyCharClass
                "Empty character class [] or [^]" full bracketStartPos)
            else .ok ([.BRACKET (dedupFirst lits)], rest2, pos2 + 1)
          else .error (reportError .UnterminatedCharClass
            "Unterminated character class" full bracketStartPos)
      else if c = '|' ∨ c = ')' ∨ c = '*' ∨ c = '+' ∨ c = '?' ∨ c = '{' then
        .error (reportError .UnexpectedCharacter (s!"Unexpected character {c}") full pos)
      else .ok ([.LITERAL c], rest, pos + 1))

/-- `parseExpression(ctx, stopChars)`. -/
def parseExpression (full : List Char) (fuel : Nat) (rem : List Char) (pos : Nat)
    (stop : List Char) : Except ParseError (List Token × List Char × Nat) :=
  parseStep full fuel (.expr rem pos stop)

/-- `parseTerm(ctx, stopChars)`. -/
def parseTerm (full : List Char) (fuel : Nat) (rem : List Char) (pos : Nat)
    (stop : List Char) : Except ParseError (List Token × List Char × Nat) :=
  parseStep full fuel (.term rem pos stop)

/-- `parseFactor(ctx, stopChars)`; `null` is `none`. -/
def parseFactor (full : List Char) (fuel : Nat) (rem : List Char) (pos : Nat)
    (stop : List Char) : Except ParseError (Option Token × List Char × Nat) :=
  (parseStep full fuel (.factor rem pos stop)).map (fun r => (r.1.head?, r.2))

/-- `parseAtom(ctx, stopChars)`; `null` is `none`. -/
def parseAtom (full : List Char) (fuel : Nat) (rem : List Char) (pos : Nat)
    (stop : List Char) : Except ParseError (Option Token × List Char × Nat) :=
  (parseStep full fuel (.atom rem pos stop)).map (fun r => (r.1.head?, r.2))

/-- Fuel used by `parse`; proved sufficient where claims need it. -/
def parseFuel (p : List Char) : Nat := 4 * p.length + 16

/-- `parse(regexStr)`: parse the full expression with no stop characters and
demand end of input (else `TrailingInput`). -/
def parse (p : List Char) : Except ParseError (List Token) := do
  let (tokens, rem, pos) ← parseExpression p (parseFuel p) p 0 []
  match rem with
  | [] => .ok tokens
  | _ :: _ => .error (reportError .TrailingInput
      "Unexpected characters at end of expression" p pos)

/-! ## The NFA arena (source lines 626-790)

JS `NFAState` objects linked by reference become an arena `List NFAState`
with integer ids; `createState` appends, the two `add*Transition` helpers
update in place. -/

/-- One NFA state, as in the source. -/
structure NFAState where
  isStart : Bool
  isTerminal : Bool
  transitions : List (Char × List Nat)
  epsilonTransitions : List Nat

/-- A fresh state: `createState()` with both flags false. -/
def freshState : NFAState := ⟨false, false, [], []⟩

abbrev Arena := List NFAState

/-- `createState()`: allocate a fresh state, return the new arena and its id. -/
def createState (A : Arena) : Arena × Nat :=
  (A ++ [freshState], A.length)

/-- Dereference a state id (out-of-range ids yield an inert state). -/
def getState (A : Arena) (i : Nat) : NFAState := A.getD i freshState

/-- `state.epsilonTransitions`. -/
def epsOf (A : Arena) (i : Nat) : List Nat := (getState A i).epsilonTransitions

/-- `state.transitions[char]`, the empty list when the key is absent. -/
def transLookup (A : Arena) (i : Nat) (c : Char) : List Nat :=
  match (getState A i).transitions.lookup c with
  | some l => l
  | none => []

/-- `addEpsilonTransition(fromState, toState)` (dedups by identity). -/
def addEpsilonTransition (A : Arena) (fromS toS : Nat) : Arena :=
  let st := getState A fromS
  if toS ∈ st.epsilonTransitions then A
  else A.set fromS { st with epsilonTransitions := st.epsilonTransitions ++ [toS] }

/-- The association-list update behind `addTransition`. -/
def addTransitionList (l : List (Char × List Nat)) (c : Char) (toS : Nat) :
    List (Char × List Nat) :=
  match l.lookup c with
  | none => l ++ [(c, [toS])]
  | some ts =>
    if toS ∈ ts then l
    else l.map (fun kv => if kv.1 = c then (kv.1, ts ++ [toS]) else kv)

/-- `addTransition(fromState, char, toState)`. -/
def addTransition (A : Arena) (fromS : Nat) (c : Char) (toS : Nat) : Arena :=
  let st := getState A fromS
  A.set fromS { st with transitions := addTransitionList st.transitions c toS }

/-! ## The compiler (`tokenToNfa`, `tokensToNfa`, `buildNfa`)

Fueled so that the counted `REPEAT` chains stay structurally recursive;
fuel stabilization is proved in the claim C2 theorem. -/

/-- One call frame of the mutually recursive compiler functions.  As with the
parser, the mutual recursion is packaged as a single fueled dispatcher
`compileStep` so that the definition is structurally recursive on the fuel;
the named wrappers below restore the source signatures. -/
inductive CCall where
  | tok (t : Token) (A : Arena)
  | toks (ts : List Token) (A : Arena)
  | chain (ts : List Token) (A : Arena) (s e : Nat)
  | rep (inner : Token) (k : Nat) (A : Arena) (chainEnd : Nat)
  | repOpt (inner : Token) (k : Nat) (A : Arena) (chainEnd : Nat)

/-- The compiler dispatcher.  The two chain helpers return `(A, chainEnd)`;
this is encoded as `(A, chainEnd, chainEnd)` in the common result type. -/
def compileStep : Nat → CCall → Option (Arena × Nat × Nat)
  | 0, _ => none
  -- `tokenToNfa(token)`: compile one token to a fragment with entry/exit ids.
  | fuel + 1, .tok token A0 =>
    let (A1, start) := createState A0
    let (A2, endS) := createState A1
    (match token with
    | .LITERAL c => some (addTransition A2 start c endS, start, endS)
    | .OR leftTokens rightTokens => do
      let (A3, leftStart, leftEnd) ← compileStep fuel (.toks leftTokens A2)
      let (A4, rightStart, rightEnd) ← compileStep fuel (.toks rightTokens A3)
      let A5 := addEpsilonTransition A4 start leftStart
      let A6 := addEpsilonTransition A5 start rightStart
      let A7 := addEpsilonTransition A6 leftEnd endS
      let A8 := addEpsilonTransition A7 rightEnd endS
      some (A8, start, endS)
    | .BRACKET cs =>
      some (cs.foldl (fun A c => addTransition A start c endS) A2, start, endS)
    | .GROUP ts =>
      if ts.isEmpty then some (addEpsilonTransition A2 start endS, start, endS)
      else do
        let (A3, gs, ge) ← compileStep fuel (.toks ts A2)
        let A4 := addEpsilonTransition A3 start gs
        let A5 := addEpsilonTransition A4 ge endS
        some (A5, start, endS)
    | .REPEAT minv maxv inner =>
      if minv = 0 ∧ maxv = some 0 then
        some (addEpsilonTransition A2 start endS, start, endS)
      else if minv = 0 ∧ maxv = none then do
        let (A3, itemStart, itemEnd) ← compileStep fuel (.tok inner A2)
        let A4 := addEpsilonTransition A3 start itemStart
        let A5 := addEpsilonTransition A4 start endS
        let A6 := addEpsilonTransition A5 itemEnd itemStart
        let A7 := addEpsilonTransition A6 itemEnd endS
        some (A7, start, endS)
      else if minv = 1 ∧ maxv = none then do
        let (A3, itemStart, itemEnd) ← compileStep fuel (.tok inner A2)
        let A4 := addEpsilonTransition A3 start itemStart
        let A5 := addEpsilonTransition A4 itemEnd itemStart
        let A6 := addEpsilonTransition A5 itemEnd endS
        some (A6, start, endS)
      else if minv = 0 ∧ maxv = some 1 then do
        let (A3, itemStart, itemEnd) ← compileStep fuel (.tok inner A2)
        let A4 := addEpsilonTransition A3 start itemStart
        let A5 := addEpsilonTransition A4 start endS
        let A6 := addEpsilonTransition A5 itemEnd endS
        some (A6, start, endS)
      else do
        let (A3, chainEnd, _) ← compileStep fuel (.rep inner minv A2 start)
        match maxv with
        | none => do
          let (A4, itemStart, itemEnd) ← compileStep fuel (.tok inner A3)
          let A5 := addEpsilonTransition A4 chainEnd itemStart
          let A6 := addEpsilonTransition A5 itemEnd itemStart
          let A7 := addEpsilonTransition A6 itemEnd endS
          let A8 := addEpsilonTransition A7 chainEnd endS
          some (A8, start, endS)
        | some maxn => do
          let (A4, chainEnd2, _) ← compileStep fuel (.repOpt inner (maxn - minv) A3 chainEnd)
          some (addEpsilonTransition A4 chainEnd2 endS, start, endS))
  -- The `for (i = 0; i < min; i++)` chain of the `REPEAT` case.
  | _ + 1, .rep _ 0 A chainEnd => some (A, chainEnd, chainEnd)
  | fuel + 1, .rep inner (k + 1) A chainEnd => do
    let (A1, itemStart, itemEnd) ← compileStep fuel (.tok inner A)
    let A2 := addEpsilonTransition A1 chainEnd itemStart
    compileStep fuel (.rep inner k A2 itemEnd)
  -- The `for (i = min; i < max; i++)` chain of the bounded `REPEAT` case.
  | _ + 1, .repOpt _ 0 A chainEnd => some (A, chainEnd, chainEnd)
  | fuel + 1, .repOpt inner (k + 1) A chainEnd => do
    let (A1, itemStart, itemEnd) ← compileStep fuel (.tok inner A)
    let A2 := addEpsilonTransition A1 chainEnd itemStart
    let (A3, nextChainPoint) := createState A2
    let A4 := addEpsilonTransition A3 chainEnd nextChainPoint
    let A5 := addEpsilonTransition A4 itemEnd nextChainPoint
    compileStep fuel (.repOpt inner k A5 nextChainPoint)
  -- `tokensToNfa(tokens)`: concatenate the fragments of a token list.
  | _ + 1, .toks [] A0 =>
    let (A1, s) := createState A0
    let (A2, e) := createState A1
    some (addEpsilonTransition A2 s e, s, e)
  | fuel + 1, .toks (t :: ts) A => do
    let (A1, s, e) ← compileStep fuel (.tok t A)
    compileStep fuel (.chain ts A1 s e)
  -- The `for (i = 1; i < tokens.length; i++)` chain of `tokensToNfa`.
  | _ + 1, .chain [] A s e => some (A, s, e)
  | fuel + 1, .chain (t :: ts) A s e => do
    let (A1, ns, ne) ← compileStep fuel (.tok t A)
    let A2 := addEpsilonTransition A1 e ns
    compileStep fuel (.chain ts A2 s ne)

/-- `tokenToNfa(token)`. -/
def tokenToNfa (fuel : Nat) (t : Token) (A : Arena) : Option (Arena × Nat × Nat) :=
  compileStep fuel (.tok t A)

/-- `tokensToNfa(tokens)`. -/
def tokensToNfa (fuel : Nat) (ts : List Token) (A : Arena) : Option (Arena × Nat × Nat) :=
  compileStep fuel (.toks ts A)

/-- `nfaStart.isStart = true`. -/
def setStartFlag (A : Arena) (i : Nat) : Arena :=
  A.set i { getState A i with isStart := true }

/-- `nfaEnd.isTerminal = true`. -/
def setTerminalFlag (A : Arena) (i : Nat) : Arena :=
  A.set i { getState A i with isTerminal := true }

/-- `buildNfa(ctx)`: compile the top-level token list (into an empty arena)
and mark the outer entry/exit states. -/
def buildNfa (fuel : Nat) (tokens : List Token) : Option (Arena × Nat) := do
  let (A, s, e) ← tokensToNfa fuel tokens []
  some (setTerminalFlag (setStartFlag A s) e, s)

mutual

/-- Size of a token (counted quantifier bounds included), used to supply
compilation fuel. -/
def tokenSize : Token → Nat
  | .GROUP ts => 1 + tokenListSize ts
  | .BRACKET cs => 1 + cs.length
  | .OR l r => 1 + tokenListSize l + tokenListSize r
  | .REPEAT minv maxv inner =>
    1 + minv + (match maxv with | some n => n + 1 | none => 1) + tokenSize inner
  | .LITERAL _ => 1

def tokenListSize : List Token → Nat
  | [] => 0
  | t :: ts => 1 + tokenSize t + tokenListSize ts

end

/-- Fuel used by `match` for compilation; claim C2 proves that compilation
stabilizes once the fuel is large enough. -/
def compileFuel (tokens : List Token) : Nat :=
  (tokenListSize tokens + 2) * (tokenListSize tokens + 2)

/-! ## The iterative simulator (`simulateNfaIterative`, source lines 850-884) -/

/-- Total number of epsilon edges in the arena; bounds the closure worklist. -/
def totalEps (A : Arena) : Nat :=
  (A.map (fun st => st.epsilonTransitions.length)).sum

/-- `set.add(x)` on a JS `Set` modeled as a duplicate-free list. -/
def addUnique (acc : List Nat) (x : Nat) : List Nat :=
  if x ∈ acc then acc else acc ++ [x]

/-- The `epsilonClosure` worklist: pop a state, push its unseen epsilon
successors.  Fueled; `epsilonClosure` supplies sufficient fuel (proved in
claim C7). -/
def closureGo (A : Arena) : Nat → List Nat → List Nat → List Nat
  | 0, _, closure => closure
  | _ + 1, [], closure => closure
  | fuel + 1, s :: stack, closure =>
    let news := ((epsOf A s).filter (fun t => t ∉ closure)).dedup
    closureGo A fuel (news ++ stack) (closure ++ news)

/-- `epsilonClosure(states)` from `simulateNfaIterative`. -/
def epsilonClosure (A : Arena) (states : List Nat) : List Nat :=
  closureGo A (states.length + totalEps A + 1) states states

/-- One input character step: the union (`nextPossibleStates`) of
`state.transitions[char]` over the current state set. -/
def stepChar (A : Arena) (S : List Nat) (c : Char) : List Nat :=
  S.foldl (fun acc s => (transLookup A s c).foldl addUnique acc) []

/-- The main loop of `simulateNfaIterative`: consume the input character by
character; reject early on an empty next set; accept iff a terminal state
remains. -/
def simGo (A : Arena) : List Nat → List Char → Bool
  | S, [] => decide (∃ s ∈ S, (getState A s).isTerminal = true)
  | S, c :: cs =>
    let next := stepChar A S c
    if next = [] then false
    else simGo A (epsilonClosure A next) cs

/-- `simulateNfaIterative(startState, input)`. -/
def simulateNfaIterative (A : Arena) (startState : Nat) (input : List Char) : Bool :=
  simGo A (epsilonClosure A [startState]) input

/-- `match(regex, input)`: parse, build, simulate; `false` on parse error. -/
def matchRun (regex input : List Char) : Bool :=
  match parse regex with
  | .error _ => false
  | .ok tokens =>
    match buildNfa (compileFuel tokens) tokens with
    | none => false
    | some (A, startState) => simulateNfaIterative A startState input

/-! ## The recursive backtracking checker (`check`, source lines 792-847) -/

def startOfText : Char := '^'

def endOfText : Char := '$'

/-- `getChar(input, pos)`; `pos` is a `Nat`, so the `pos < 0` branch
returning `startOfText` is unreachable. -/
def getCharAt (input : List Char) (pos : Nat) : Char :=
  if input.length ≤ pos then endOfText else input.getD pos default

/-- The breadth-first terminal search `check` runs at end of input
(queue `q`, `visitedForTerminalCheck`). -/
def terminalBfsGo (A : Arena) : Nat → List Nat → List Nat → Bool
  | 0, _, _ => false
  | _ + 1, [], _ => false
  | fuel + 1, s :: q, visited =>
    if (getState A s).isTerminal then true
    else
      let news := ((epsOf A s).filter (fun t => t ∉ visited)).dedup
      terminalBfsGo A fuel (q ++ news) (visited ++ news)

/-- `isTerminalViaEpsilon`: `state.isTerminal` or a terminal state reachable
through epsilon edges. -/
def isTerminalViaEpsilon (A : Arena) (s : Nat) : Bool :=
  if (getState A s).isTerminal then true
  else terminalBfsGo A (1 + totalEps A) [s] [s]

/-- One call frame of `check` and its loops: the function itself, its epsilon
branch loop (threading the shared visited set), the tail after the epsilon
phase, and the character transition loop.  Packaged as a single fueled
dispatcher `checkStep`, as with the parser and compiler. -/
inductive KCall where
  | go (state pos : Nat) (visited : List Nat)
  | seqEps (ts : List Nat) (pos : Nat) (visited : List Nat)
  | exitPhase (state pos : Nat) (visited : List Nat)
  | chars (ts : List Nat) (pos : Nat)

/-- The visited set of a checker call frame (for the fuel-exhaustion
artifact return). -/
def KCall.vis : KCall → List Nat
  | .go _ _ v => v
  | .seqEps _ _ v => v
  | .exitPhase _ _ v => v
  | .chars _ _ => []

/-- The checker dispatcher.  Each case is a piece of the source `check`:
`.go` is the function entry (epsilon phase with the shared visited set),
`.seqEps` the `for (nextState of epsilonTransitions)` loop, `.exitPhase`
the end-of-text / character-transition tail, `.chars` the
`for (nextState of transitions[char])` loop (each child gets a fresh
visited set, so mutations there are invisible to the caller). -/
def checkStep (A : Arena) (input : List Char) : Nat → KCall → Bool × List Nat
  | 0, call => (false, call.vis)
  | fuel + 1, .go state pos visited =>
    if epsOf A state ≠ [] then
      if state ∈ visited then (false, visited)
      else
        let r := checkStep A input fuel (.seqEps (epsOf A state) pos (visited ++ [state]))
        if r.1 then r
        else checkStep A input fuel (.exitPhase state pos r.2)
    else checkStep A input fuel (.exitPhase state pos visited)
  | _ + 1, .seqEps [] _ visited => (false, visited)
  | fuel + 1, .seqEps (t :: ts) pos visited =>
    let r := checkStep A input fuel (.go t pos visited)
    if r.1 then r
    else checkStep A input fuel (.seqEps ts pos r.2)
  | fuel + 1, .exitPhase state pos visited =>
    let c := getCharAt input pos
    if c = endOfText then (isTerminalViaEpsilon A state, visited)
    else ((checkStep A input fuel (.chars (transLookup A state c) pos)).1, visited)
  | _ + 1, .chars [] _ => (false, [])
  | fuel + 1, .chars (t :: ts) pos =>
    if (checkStep A input fuel (.go t (pos + 1) [])).1 then (true, [])
    else checkStep A input fuel (.chars ts pos)

/-- `check(state, input, pos, visitedEpsilonStates)`.  Returns the boolean
result together with the visited set as mutated (the JS `Set` is shared by
reference across sibling epsilon branches). -/
def checkGo (A : Arena) (input : List Char) (fuel : Nat) (state pos : Nat)
    (visited : List Nat) : Bool × List Nat :=
  checkStep A input fuel (.go state pos visited)

/-- Total number of character-transition targets in the arena; bounds the
character branch loops of `check`. -/
def totalTrans (A : Arena) : Nat :=
  (A.map (fun st => (st.transitions.map (fun kv => kv.2.length)).sum)).sum

/-- Fuel used by `checkRun`; one recursion level of `check` never nests
dispatcher calls deeper than this (proved for the claim C10 theorem). -/
def checkFuel (A : Arena) (input : List Char) : Nat :=
  (input.length + 1) * (2 * A.length + totalEps A + totalTrans A + 4) + 4

/-- `check(startState, input, 0)` with the default empty visited set. -/
def checkRun (A : Arena) (startState : Nat) (input : List Char) : Bool :=
  (checkGo A input (checkFuel A input) startState 0 []).1

/-! ## Path semantics

`Reach A s w t`: the automaton can move from state `s` to state `t`
consuming exactly the word `w`, character edges consuming one character and
epsilon edges none.  `Accepts` adds that the final state is terminal: this is
the full-string anchored acceptance of claim C1. -/

/-- Reachability through epsilon edges only. -/
inductive EpsReach (A : Arena) : Nat → Nat → Prop where
  | refl (s : Nat) : EpsReach A s s
  | step {s t u : Nat} : t ∈ epsOf A s → EpsReach A t u → EpsReach A s u

/-- Reachability consuming exactly a given word. -/
inductive Reach (A : Arena) : Nat → List Char → Nat → Prop where
  | refl (s : Nat) : Reach A s [] s
  | eps {s t u : Nat} {w : List Char} : t ∈ epsOf A s → Reach A t w u → Reach A s w u
  | char {s t u : Nat} {c : Char} {w : List Char} :
      t ∈ transLookup A s c → Reach A t w u → Reach A s (c :: w) u

/-- Full-string anchored acceptance from a state. -/
def Accepts (A : Arena) (s : Nat) (w : List Char) : Prop :=
  ∃ t, Reach A s w t ∧ (getState A t).isTerminal = true

/-! ## The epsilon-closure worklist (claim C7) -/

/-- All epsilon edge targets appearing in the arena. -/
def allEps (A : Arena) : List Nat := (A.map (fun st => st.epsilonTransitions)).flatten

/-- A state is a "good exit" at a position if the tail of `check` would
succeed there: at end of input, a terminal state is epsilon-reachable; else
some transition on the current character accepts the remaining input. -/
def goodExit (A : Arena) (input : List Char) (pos : Nat) (x : Nat) : Prop :=
  if input.length ≤ pos then ∃ t, EpsReach A x t ∧ (getState A t).isTerminal = true
  else ∃ y ∈ transLookup A x (input.getD pos default), Accepts A y (input.drop (pos + 1))

/-- The fuel weight of the unmarked states: marking a state pays for its
`check` frame and for stepping through its epsilon list. -/
def markWeight (A : Arena) (V : List Nat) : Nat :=
  ∑ z ∈ Finset.range A.length \ V.toFinset, (2 + (epsOf A z).length)

/-! ### The depth-first epsilon search of `check` -/

/-- The invariant of the shared visited set: every fully explored ("black")
state is not a good exit, and each of its epsilon successors is either
visited or a dead end (no epsilon edges and not a good exit).  `G` collects
the states currently on the recursion stack ("gray"), excluded from the
obligation. -/
def DfsInv (A : Arena) (input : List Char) (pos : Nat) (W : List Nat) (G : Set Nat) : Prop :=
  ∀ z ∈ W, z ∉ G →
    ¬ goodExit A input pos z ∧
    ∀ t ∈ epsOf A z, t ∈ W ∨ (epsOf A t = [] ∧ ¬ goodExit A input pos t)

/-! ## Parse errors are well-formed (claim C9)

Every error the parser produces is built by `reportError` from the full
pattern and a position inside it; we prove the position is bounded by the
pattern length and the snippet is exactly the one `reportError` computes. -/

/-- A parse error that points into `full`: bounded position, snippet derived
from that position. -/
def ErrWF (full : List Char) (e : ParseError) : Prop :=
  e.pos ≤ full.length ∧ e.snippet = mkSnippet full e.pos

/-- Result predicate for the well-formedness lemmas: `ok` results keep the
position aligned with the remaining input, errors point into the pattern. -/
def ScanWF (full : List Char) :
    Except ParseError (List Char × List Char × Bool × List Char × Nat) → Prop
  | .ok (_, _, _, rem', pos') => pos' + rem'.length = full.length
  | .error e => ErrWF full e

/-- As `ScanWF`, for the character-class scanner. -/
def BScanWF (full : List Char) :
    Except ParseError (List Char × List Char × Nat) → Prop
  | .ok (_, rem', pos') => pos' + rem'.length = full.length
  | .error e => ErrWF full e

/-- The remaining input of a parser call frame. -/
def PCall.rem : PCall → List Char
  | .expr r _ _ => r
  | .exprLoop _ r _ _ => r
  | .term r _ _ => r
  | .termLoop _ r _ _ => r
  | .factor r _ _ => r
  | .atom r _ _ => r

/-- As `ScanWF`, for the parser dispatcher. -/
def PResWF (full : List Char) : Except ParseError (List Token × List Char × Nat) → Prop
  | .ok (_, rem', pos') => pos' + rem'.length = full.length
  | .error e => ErrWF full e

/-! ## Quantifier bounds (claim C3)

Symbolic evaluation of `parseFactor` on an ordinary literal atom followed by
each counted-quantifier form. -/

/-- A pattern character with no special meaning to `parseAtom` /
`parseFactor`. -/
def notSpecial (c : Char) : Prop :=
  c ≠ '(' ∧ c ≠ ')' ∧ c ≠ '[' ∧ c ≠ '|' ∧ c ≠ '*' ∧ c ≠ '+' ∧ c ≠ '?' ∧ c ≠ '{'

/-! ## Character classes (claim C4) -/

/-- The character-class scan as the spec words it: a three-character window
`X - Y` with `Y ≠ ']'` expands to the inclusive code-point range and advances
by three; any other character contributes itself and advances by one.  `none`
is the rejected descending range. -/
def classSpec : List Char → Option (List Char)
  | [] => some []
  | x :: y :: z :: rest =>
    if y = '-' ∧ z ≠ ']' then
      if x.toNat > z.toNat then none
      else (classSpec rest).map (fun L => rangeChars x z ++ L)
    else (classSpec (y :: z :: rest)).map (fun L => x :: L)
  | x :: rest => (classSpec rest).map (fun L => x :: L)

def c5T1 : List Token := [.OR [.GROUP [.OR [.LITERAL 'a'] [.LITERAL 'b']]] [.LITERAL 'c']]

def c5T2 : List Token := [.OR [.LITERAL 'a'] [.GROUP [.OR [.LITERAL 'b'] [.LITERAL 'c']]]]

def c5T3 : List Token := [.OR [.OR [.LITERAL 'c'] [.LITERAL 'b']] [.LITERAL 'a']]

/-- The compiled NFA of `(a|b)|c`. -/
def a5A1 : Arena := [
  ⟨true, false, [], [2, 10]⟩, ⟨false, true, [], []⟩, ⟨false, false, [], [4]⟩,
  ⟨false, false, [], [1]⟩, ⟨false, false, [], [6, 8]⟩, ⟨false, false, [], [3]⟩,
  ⟨false, false, [('a', [7])], []⟩, ⟨false, false, [], [5]⟩,
  ⟨false, false, [('b', [9])], []⟩, ⟨false, false, [], [5]⟩,
  ⟨false, false, [('c', [11])], []⟩, ⟨false, false, [], [1]⟩]

/-- The compiled NFA of `a|(b|c)`. -/
def a5A2 : Arena := [
  ⟨true, false, [], [2, 4]⟩, ⟨false, true, [], []⟩,
  ⟨false, false, [('a', [3])], []⟩, ⟨false, false, [], [1]⟩,
  ⟨false, false, [], [6]⟩, ⟨false, false, [], [1]⟩,
  ⟨false, false, [], [8, 10]⟩, ⟨false, false, [], [5]⟩,
  ⟨false, false, [('b', [9])], []⟩, ⟨false, false, [], [7]⟩,
  ⟨false, false, [('c', [11])], []⟩, ⟨false, false, [], [7]⟩]

/-- The compiled NFA of `c|b|a`. -/
def a5A3 : Arena := [
  ⟨true, false, [], [2, 8]⟩, ⟨false, true, [], []⟩,
  ⟨false, false, [], [4, 6]⟩, ⟨false, false, [], [1]⟩,
  ⟨false, false, [('c', [5])], []⟩, ⟨false, false, [], [3]⟩,
  ⟨false, false, [('b', [7])], []⟩, ⟨false, false, [], [3]⟩,
  ⟨false, false, [('a', [9])], []⟩, ⟨false, false, [], [1]⟩]

def c6T1 : List Token := [.REPEAT 0 none (.GROUP [.REPEAT 0 none (.LITERAL 'a')])]

def c6T2 : List Token := [.REPEAT 0 none (.LITERAL 'a')]

/-- The compiled NFA of `(a*)*`. -/
def a6A1 : Arena := [
  ⟨true, false, [], [2, 1]⟩, ⟨false, true, [], []⟩,
  ⟨false, false, [], [4]⟩, ⟨false, false, [], [2, 1]⟩,
  ⟨false, false, [], [6, 5]⟩, ⟨false, false, [], [3]⟩,
  ⟨false, false, [('a', [7])], []⟩, ⟨false, false, [], [6, 5]⟩]

/-- The compiled NFA of `a*`. -/
def a6A2 : Arena := [
  ⟨true, false, [], [2, 1]⟩, ⟨false, true, [], []⟩,
  ⟨false, false, [('a', [3])], []⟩, ⟨false, false, [], [2, 1]⟩]

/-- The two boolean flags of every state (present or virtual), unchanged. -/
def FlagsEq (A A' : Arena) : Prop :=
  ∀ i, (getState A' i).isStart = (getState A i).isStart ∧
       (getState A' i).isTerminal = (getState A i).isTerminal

/-- Fuel measure of a compiler frame: an upper bound on the depth of the call
tree below it. -/
def cMeasure : CCall → Nat
  | .tok t _ => 2 * tokenSize t
  | .toks ts _ => 2 * tokenListSize ts + 1
  | .chain ts _ _ _ => 2 * tokenListSize ts + 1
  | .rep inner k _ _ => 2 * tokenSize inner + k + 1
  | .repOpt inner k _ _ => 2 * tokenSize inner + k + 1

/-! ## The checker/simulator divergence input (claim C10) -/

/-- The compiled NFA of the pattern `a`. -/
def c10Arena : Arena :=
  [⟨true, false, [('a', [1])], []⟩, ⟨false, true, [], []⟩]

/-! ## Lemmas about the path semantics -/

theorem EpsReach.trans {A : Arena} {s t u : Nat} (h1 : EpsReach A s t)
    (h2 : EpsReach A t u) : EpsReach A s u := by
  induction h1 with
  | refl _ => exact h2
  | step hm _ ih => exact .step hm (ih h2)

theorem EpsReach.snoc {A : Arena} {s t u : Nat} (h : EpsReach A s t)
    (hm : u ∈ epsOf A t) : EpsReach A s u :=
  h.trans (.step hm (.refl u))

theorem EpsReach.toReach {A : Arena} {s t u : Nat} {w : List Char}
    (h : EpsReach A s t) (hr : Reach A t w u) : Reach A s w u := by
  induction h with
  | refl _ => exact hr
  | step hm _ ih => exact .eps hm (ih hr)

theorem reach_nil {A : Arena} {s t : Nat} (h : Reach A s [] t) : EpsReach A s t := by
  generalize hw : ([] : List Char) = w at h
  induction h with
  | refl s => exact .refl s
  | eps hm _ ih => exact .step hm (ih hw)
  | char _ _ _ => simp at hw

theorem reach_nil_iff {A : Arena} {s t : Nat} : Reach A s [] t ↔ EpsReach A s t := by
  constructor
  · exact reach_nil
  · intro h
    exact h.toReach (.refl t)

theorem reach_cons {A : Arena} {s u : Nat} {c : Char} {w : List Char}
    (h : Reach A s (c :: w) u) :
    ∃ x y, EpsReach A s x ∧ y ∈ transLookup A x c ∧ Reach A y w u := by
  generalize hw : c :: w = w0 at h
  induction h with
  | refl s => simp at hw
  | eps hm _ ih =>
    obtain ⟨x, y, hx, hy, hr⟩ := ih hw
    exact ⟨x, y, .step hm hx, hy, hr⟩
  | char hm hr _ =>
    injection hw with h1 h2
    subst h1
    subst h2
    exact ⟨_, _, .refl _, hm, hr⟩

theorem reach_cons_iff {A : Arena} {s u : Nat} {c : Char} {w : List Char} :
    Reach A s (c :: w) u ↔
      ∃ x y, EpsReach A s x ∧ y ∈ transLookup A x c ∧ Reach A y w u := by
  constructor
  · exact reach_cons
  · rintro ⟨x, y, hx, hy, hr⟩
    exact hx.toReach (.char hy hr)

theorem totalEps_eq_length_allEps (A : Arena) : totalEps A = (allEps A).length := by
  simp only [totalEps, allEps, List.length_flatten, List.map_map]
  rfl

theorem epsOf_subset_allEps {A : Arena} {s t : Nat} (h : t ∈ epsOf A s) :
    t ∈ allEps A := by
  unfold epsOf getState at h
  rcases Nat.lt_or_ge s A.length with hs | hs
  · rw [List.getD_eq_getElem _ _ hs] at h
    exact List.mem_flatten.mpr ⟨A[s].epsilonTransitions,
      List.mem_map.mpr ⟨A[s], List.getElem_mem _, rfl⟩, h⟩
  · rw [List.getD_eq_default _ _ hs] at h
    simp [freshState] at h

/-- A member of a closed list containing `s` collects everything
epsilon-reachable from `s`. -/
theorem mem_of_epsReach_of_closed {A : Arena} {R : List Nat}
    (hclosed : ∀ x ∈ R, ∀ t ∈ epsOf A x, t ∈ R) {s x : Nat}
    (hs : s ∈ R) (h : EpsReach A s x) : x ∈ R := by
  induction h with
  | refl _ => exact hs
  | step hm _ ih => exact ih (hclosed _ hs _ hm)

/-- Master lemma for the `epsilonClosure` worklist: with the stated loop
invariants and enough fuel the result contains the accumulator, is closed
under epsilon edges, and is contained in every closed superset. -/
theorem closureGo_spec (A : Arena) :
    ∀ (fuel : Nat) (stack closure : List Nat),
      (∀ x ∈ stack, x ∈ closure) →
      (∀ x ∈ closure, x ∈ stack ∨ ∀ t ∈ epsOf A x, t ∈ closure) →
      stack.length + ((allEps A).toFinset \ closure.toFinset).card ≤ fuel →
      (∀ x ∈ closure, x ∈ closureGo A fuel stack closure) ∧
      (∀ x ∈ closureGo A fuel stack closure, ∀ t ∈ epsOf A x,
        t ∈ closureGo A fuel stack closure) ∧
      (∀ T : Set Nat, (∀ x ∈ closure, x ∈ T) →
        (∀ x ∈ T, ∀ t ∈ epsOf A x, t ∈ T) →
        ∀ x ∈ closureGo A fuel stack closure, x ∈ T) := by
  intro fuel
  induction fuel with
  | zero =>
    intro stack closure h1 h2 hfuel
    have hstack : stack = [] := List.length_eq_zero.mp (by omega)
    subst hstack
    refine ⟨fun x hx => hx, ?_, fun T hT _ x hx => hT x hx⟩
    intro x hx t ht
    rcases h2 x hx with h | h
    · simp at h
    · exact h t ht
  | succ fuel ih =>
    intro stack closure h1 h2 hfuel
    match stack with
    | [] =>
      refine ⟨fun x hx => hx, ?_, fun T hT _ x hx => hT x hx⟩
      intro x hx t ht
      rcases h2 x hx with h | h
      · simp at h
      · exact h t ht
    | s :: rest =>
      have hs : s ∈ closure := h1 s (by simp)
      set news := ((epsOf A s).filter (fun t => t ∉ closure)).dedup with hnews_def
      have hnews_mem : ∀ t, t ∈ news ↔ t ∈ epsOf A s ∧ t ∉ closure := by
        intro t
        simp [hnews_def, List.mem_dedup, List.mem_filter]
      have hstep : closureGo A (fuel + 1) (s :: rest) closure
          = closureGo A fuel (news ++ rest) (closure ++ news) := rfl
      have h1' : ∀ x ∈ news ++ rest, x ∈ closure ++ news := by
        intro x hx
        rcases List.mem_append.mp hx with hx | hx
        · exact List.mem_append.mpr (Or.inr hx)
        · exact List.mem_append.mpr (Or.inl (h1 x (by simp [hx])))
      have h2' : ∀ x ∈ closure ++ news,
          x ∈ news ++ rest ∨ ∀ t ∈ epsOf A x, t ∈ closure ++ news := by
        intro x hx
        rcases List.mem_append.mp hx with hx | hx
        · rcases h2 x hx with hx' | hx'
          · rcases List.mem_cons.mp hx' with rfl | hx'
            · right
              intro t ht
              by_cases htc : t ∈ closure
              · exact List.mem_append.mpr (Or.inl htc)
              · exact List.mem_append.mpr (Or.inr ((hnews_mem t).mpr ⟨ht, htc⟩))
            · exact Or.inl (List.mem_append.mpr (Or.inr hx'))
          · exact Or.inr fun t ht => List.mem_append.mpr (Or.inl (hx' t ht))
        · exact Or.inl (List.mem_append.mpr (Or.inl hx))
      have hfuel' : (news ++ rest).length
          + ((allEps A).toFinset \ (closure ++ news).toFinset).card ≤ fuel := by
        have hnodup : news.Nodup := List.nodup_dedup _
        have hsub : news.toFinset ⊆ (allEps A).toFinset \ closure.toFinset := by
          intro t ht
          rw [List.mem_toFinset] at ht
          rcases (hnews_mem t).mp ht with ⟨ht1, ht2⟩
          refine Finset.mem_sdiff.mpr ⟨?_, ?_⟩
          · exact List.mem_toFinset.mpr (epsOf_subset_allEps ht1)
          · simpa using ht2
        have hcard_news : news.toFinset.card = news.length :=
          List.toFinset_card_of_nodup hnodup
        have hdiff : (allEps A).toFinset \ (closure ++ news).toFinset
            = ((allEps A).toFinset \ closure.toFinset) \ news.toFinset := by
          rw [List.toFinset_append]
          exact sdiff_sdiff_left.symm
        have hcard_diff : (((allEps A).toFinset \ closure.toFinset) \ news.toFinset).card
            = ((allEps A).toFinset \ closure.toFinset).card - news.toFinset.card :=
          Finset.card_sdiff hsub
        have hle : news.toFinset.card ≤ ((allEps A).toFinset \ closure.toFinset).card :=
          Finset.card_le_card hsub
        rw [hdiff, hcard_diff]
        simp only [List.length_append, List.length_cons] at hfuel ⊢
        omega
      obtain ⟨ha, hb, hc⟩ := ih (news ++ rest) (closure ++ news) h1' h2' hfuel'
      rw [hstep]
      refine ⟨?_, hb, ?_⟩
      · intro x hx
        exact ha x (List.mem_append.mpr (Or.inl hx))
      · intro T hT hTclosed x hx
        refine hc T ?_ hTclosed x hx
        intro y hy
        rcases List.mem_append.mp hy with hy | hy
        · exact hT y hy
        · rcases (hnews_mem y).mp hy with ⟨hy1, _⟩
          exact hTclosed s (hT s hs) y hy1

/-- Basic facts about `epsilonClosure`: it contains its seeds, it is closed
under epsilon edges, and it is contained in every closed superset. -/
theorem epsilonClosure_spec (A : Arena) (S : List Nat) :
    (∀ s ∈ S, s ∈ epsilonClosure A S) ∧
    (∀ x ∈ epsilonClosure A S, ∀ t ∈ epsOf A x, t ∈ epsilonClosure A S) ∧
    (∀ T : Set Nat, (∀ s ∈ S, s ∈ T) →
      (∀ x ∈ T, ∀ t ∈ epsOf A x, t ∈ T) →
      ∀ x ∈ epsilonClosure A S, x ∈ T) := by
  have hfuel : S.length + ((allEps A).toFinset \ S.toFinset).card
      ≤ S.length + totalEps A + 1 := by
    have h1 : ((allEps A).toFinset \ S.toFinset).card ≤ (allEps A).toFinset.card :=
      Finset.card_le_card (Finset.sdiff_subset)
    have h2 : (allEps A).toFinset.card ≤ (allEps A).length := (allEps A).toFinset_card_le
    rw [totalEps_eq_length_allEps]
    omega
  exact closureGo_spec A (S.length + totalEps A + 1) S S (fun x hx => hx)
    (fun x hx => Or.inl hx) hfuel

theorem mem_epsilonClosure {A : Arena} {S : List Nat} {x : Nat} :
    x ∈ epsilonClosure A S ↔ ∃ s ∈ S, EpsReach A s x := by
  obtain ⟨ha, hb, hc⟩ := epsilonClosure_spec A S
  constructor
  · intro hx
    exact hc {y | ∃ s ∈ S, EpsReach A s y}
      (fun s hs => ⟨s, hs, .refl s⟩)
      (fun y ⟨s, hs, hy⟩ t ht => ⟨s, hs, hy.snoc ht⟩) x hx
  · rintro ⟨s, hs, h⟩
    exact mem_of_epsReach_of_closed hb (ha s hs) h

/-- `closureGo` returns when its worklist empties, independently of leftover
fuel: two sufficiently large fuels give the same closure. -/
theorem closureGo_fuel_eq (A : Arena) :
    ∀ (fuel1 fuel2 : Nat) (stack closure : List Nat),
      (∀ x ∈ stack, x ∈ closure) →
      stack.length + ((allEps A).toFinset \ closure.toFinset).card ≤ fuel1 →
      stack.length + ((allEps A).toFinset \ closure.toFinset).card ≤ fuel2 →
      closureGo A fuel1 stack closure = closureGo A fuel2 stack closure := by
  intro fuel1
  induction fuel1 with
  | zero =>
    intro fuel2 stack closure _ hf1 _
    have hstack : stack = [] := List.length_eq_zero.mp (by omega)
    subst hstack
    cases fuel2 <;> rfl
  | succ fuel ih =>
    intro fuel2 stack closure h1 hf1 hf2
    match stack with
    | [] => cases fuel2 <;> rfl
    | s :: rest =>
      have hs : s ∈ closure := h1 s (by simp)
      match fuel2 with
      | 0 =>
        exfalso
        simp only [List.length_cons] at hf2
        omega
      | fuel2 + 1 =>
        show closureGo A fuel _ _ = closureGo A fuel2 _ _
        set news := ((epsOf A s).filter (fun t => t ∉ closure)).dedup with hnews_def
        have hnews_mem : ∀ t, t ∈ news ↔ t ∈ epsOf A s ∧ t ∉ closure := by
          intro t
          simp [hnews_def, List.mem_dedup, List.mem_filter]
        have h1' : ∀ x ∈ news ++ rest, x ∈ closure ++ news := by
          intro x hx
          rcases List.mem_append.mp hx with hx | hx
          · exact List.mem_append.mpr (Or.inr hx)
          · exact List.mem_append.mpr (Or.inl (h1 x (by simp [hx])))
        have hfuel' : (news ++ rest).length
            + ((allEps A).toFinset \ (closure ++ news).toFinset).card + 1
            ≤ rest.length + ((allEps A).toFinset \ closure.toFinset).card + 1 := by
          have hnodup : news.Nodup := List.nodup_dedup _
          have hsub : news.toFinset ⊆ (allEps A).toFinset \ closure.toFinset := by
            intro t ht
            rw [List.mem_toFinset] at ht
            rcases (hnews_mem t).mp ht with ⟨ht1, ht2⟩
            refine Finset.mem_sdiff.mpr ⟨?_, ?_⟩
            · exact List.mem_toFinset.mpr (epsOf_subset_allEps ht1)
            · simpa using ht2
          have hcard_news : news.toFinset.card = news.length :=
            List.toFinset_card_of_nodup hnodup
          have hdiff : (allEps A).toFinset \ (closure ++ news).toFinset
              = ((allEps A).toFinset \ closure.toFinset) \ news.toFinset := by
            rw [List.toFinset_append]
            exact sdiff_sdiff_left.symm
          have hcard_diff : (((allEps A).toFinset \ closure.toFinset) \ news.toFinset).card
              = ((allEps A).toFinset \ closure.toFinset).card - news.toFinset.card :=
            Finset.card_sdiff hsub
          have hle : news.toFinset.card ≤ ((allEps A).toFinset \ closure.toFinset).card :=
            Finset.card_le_card hsub
          rw [hdiff, hcard_diff]
          simp only [List.length_append]
          omega
        apply ih fuel2 (news ++ rest) (closure ++ news) h1'
        · simp only [List.length_cons] at hf1
          omega
        · simp only [List.length_cons] at hf2
          omega

/-! ## Correctness of the iterative simulator (claim C1) -/

theorem mem_addUnique {acc : List Nat} {y x : Nat} :
    x ∈ addUnique acc y ↔ x ∈ acc ∨ x = y := by
  unfold addUnique
  split
  · rename_i h
    constructor
    · exact Or.inl
    · rintro (hx | rfl)
      · exact hx
      · exact h
  · simp

theorem mem_foldl_addUnique {l acc : List Nat} {x : Nat} :
    x ∈ l.foldl addUnique acc ↔ x ∈ acc ∨ x ∈ l := by
  induction l generalizing acc with
  | nil => simp
  | cons y ys ih =>
    rw [List.foldl_cons, ih, mem_addUnique]
    simp only [List.mem_cons]
    tauto

theorem mem_stepChar {A : Arena} {S : List Nat} {c : Char} {x : Nat} :
    x ∈ stepChar A S c ↔ ∃ s ∈ S, x ∈ transLookup A s c := by
  have key : ∀ (S acc : List Nat),
      x ∈ S.foldl (fun acc s => (transLookup A s c).foldl addUnique acc) acc ↔
        x ∈ acc ∨ ∃ s ∈ S, x ∈ transLookup A s c := by
    intro S
    induction S with
    | nil => simp
    | cons s ss ih =>
      intro acc
      rw [List.foldl_cons, ih, mem_foldl_addUnique]
      simp only [List.mem_cons]
      constructor
      · rintro ((h | h) | ⟨y, hy, hx⟩)
        · exact Or.inl h
        · exact Or.inr ⟨s, Or.inl rfl, h⟩
        · exact Or.inr ⟨y, Or.inr hy, hx⟩
      · rintro (h | ⟨y, (rfl | hy), hx⟩)
        · exact Or.inl (Or.inl h)
        · exact Or.inl (Or.inr hx)
        · exact Or.inr ⟨y, hy, hx⟩
  rw [stepChar, key]
  simp

/-- Loop invariant of `simulateNfaIterative`: started from an epsilon-closed
state set, the loop accepts the remaining word iff some member of the set
accepts it in the path semantics. -/
theorem simGo_correct (A : Arena) :
    ∀ (w : List Char) (S : List Nat),
      (∀ x ∈ S, ∀ t ∈ epsOf A x, t ∈ S) →
      (simGo A S w = true ↔ ∃ s ∈ S, Accepts A s w) := by
  intro w
  induction w with
  | nil =>
    intro S hclosed
    simp only [simGo, decide_eq_true_eq]
    constructor
    · rintro ⟨s, hs, ht⟩
      exact ⟨s, hs, s, .refl s, ht⟩
    · rintro ⟨s, hs, t, hr, ht⟩
      exact ⟨t, mem_of_epsReach_of_closed hclosed hs (reach_nil hr), ht⟩
  | cons c cs ih =>
    intro S hclosed
    by_cases hnext : stepChar A S c = []
    · have hfalse : simGo A S (c :: cs) = false := by
        simp only [simGo, hnext]
        rfl
      rw [hfalse]
      simp only [Bool.false_eq_true, false_iff]
      rintro ⟨s, hs, t, hr, ht⟩
      obtain ⟨x, y, hx, hy, hr'⟩ := reach_cons hr
      have hxS : x ∈ S := mem_of_epsReach_of_closed hclosed hs hx
      have hyN : y ∈ stepChar A S c := mem_stepChar.mpr ⟨x, hxS, hy⟩
      rw [hnext] at hyN
      cases hyN
    · have hstep : simGo A S (c :: cs)
          = simGo A (epsilonClosure A (stepChar A S c)) cs := by
        simp [simGo, hnext]
      rw [hstep, ih _ (epsilonClosure_spec A (stepChar A S c)).2.1]
      constructor
      · rintro ⟨s, hs, t, hr, ht⟩
        obtain ⟨y, hy, hys⟩ := mem_epsilonClosure.mp hs
        obtain ⟨x, hxS, hyx⟩ := mem_stepChar.mp hy
        exact ⟨x, hxS, t, .char hyx (hys.toReach hr), ht⟩
      · rintro ⟨s, hs, t, hr, ht⟩
        obtain ⟨x, y, hx, hy, hr'⟩ := reach_cons hr
        have hxS : x ∈ S := mem_of_epsReach_of_closed hclosed hs hx
        have hyN : y ∈ stepChar A S c := mem_stepChar.mpr ⟨x, hxS, hy⟩
        have hyC : y ∈ epsilonClosure A (stepChar A S c) :=
          (epsilonClosure_spec A _).1 y hyN
        exact ⟨y, hyC, t, hr', ht⟩

/-- Correctness of `simulateNfaIterative` against the path semantics, for an
arbitrary arena. -/
theorem simulateNfaIterative_correct (A : Arena) (start : Nat) (w : List Char) :
    simulateNfaIterative A start w = true ↔ Accepts A start w := by
  unfold simulateNfaIterative
  rw [simGo_correct A w _ (epsilonClosure_spec A [start]).2.1]
  constructor
  · rintro ⟨s, hs, t, hr, ht⟩
    obtain ⟨y, hy, hys⟩ := mem_epsilonClosure.mp hs
    simp only [List.mem_singleton] at hy
    subst hy
    exact ⟨t, hys.toReach hr, ht⟩
  · rintro ⟨t, hr, ht⟩
    exact ⟨start, (epsilonClosure_spec A [start]).1 start (by simp), t, hr, ht⟩

/-! ## Correctness of the backtracking checker (claim C10)

The recursive `check` is analyzed against the same path semantics.  The
proof has three layers: the breadth-first terminal search at end of input,
the depth-first epsilon search with its shared visited set within one input
position, and an outer induction on the remaining input. -/

theorem terminalBfsGo_spec (A : Arena) :
    ∀ (fuel : Nat) (q visited : List Nat),
      (∀ x ∈ q, x ∈ visited) →
      (∀ x ∈ visited, x ∈ q ∨
        ((getState A x).isTerminal = false ∧ ∀ t ∈ epsOf A x, t ∈ visited)) →
      q.length + ((allEps A).toFinset \ visited.toFinset).card ≤ fuel →
      (terminalBfsGo A fuel q visited = true ↔
        ∃ t, (∃ x ∈ visited, EpsReach A x t) ∧ (getState A t).isTerminal = true) := by
  intro fuel
  induction fuel with
  | zero =>
    intro q visited h1 h2 hfuel
    have hq : q = [] := List.length_eq_zero.mp (by omega)
    subst hq
    simp only [terminalBfsGo, Bool.false_eq_true, false_iff]
    rintro ⟨t, ⟨x, hx, hreach⟩, ht⟩
    have hclosed : ∀ z ∈ visited, ∀ u ∈ epsOf A z, u ∈ visited := by
      intro z hz u hu
      rcases h2 z hz with h | h
      · simp at h
      · exact h.2 u hu
    have : t ∈ visited := mem_of_epsReach_of_closed hclosed hx hreach
    rcases h2 t this with h | h
    · simp at h
    · rw [ht] at h
      exact absurd h.1 (by simp)
  | succ fuel ih =>
    intro q visited h1 h2 hfuel
    match q with
    | [] =>
      simp only [terminalBfsGo, Bool.false_eq_true, false_iff]
      rintro ⟨t, ⟨x, hx, hreach⟩, ht⟩
      have hclosed : ∀ z ∈ visited, ∀ u ∈ epsOf A z, u ∈ visited := by
        intro z hz u hu
        rcases h2 z hz with h | h
        · simp at h
        · exact h.2 u hu
      have : t ∈ visited := mem_of_epsReach_of_closed hclosed hx hreach
      rcases h2 t this with h | h
      · simp at h
      · rw [ht] at h
        exact absurd h.1 (by simp)
    | s :: rest =>
      have hs : s ∈ visited := h1 s (by simp)
      by_cases hterm : (getState A s).isTerminal = true
      · have : terminalBfsGo A (fuel + 1) (s :: rest) visited = true := by
          simp [terminalBfsGo, hterm]
        rw [this]
        simp only [true_iff]
        exact ⟨s, ⟨s, hs, .refl s⟩, hterm⟩
      · have hterm' : (getState A s).isTerminal = false := by
          simpa using hterm
        set news := ((epsOf A s).filter (fun t => t ∉ visited)).dedup with hnews_def
        have hnews_mem : ∀ t, t ∈ news ↔ t ∈ epsOf A s ∧ t ∉ visited := by
          intro t
          simp [hnews_def, List.mem_dedup, List.mem_filter]
        have hunfold : terminalBfsGo A (fuel + 1) (s :: rest) visited
            = if (getState A s).isTerminal = true then true
              else terminalBfsGo A fuel
                (rest ++ ((epsOf A s).filter (fun t => t ∉ visited)).dedup)
                (visited ++ ((epsOf A s).filter (fun t => t ∉ visited)).dedup) := rfl
        have hstep : terminalBfsGo A (fuel + 1) (s :: rest) visited
            = terminalBfsGo A fuel (rest ++ news) (visited ++ news) := by
          rw [hunfold, hterm']
          simp [hnews_def]
        rw [hstep]
        have h1' : ∀ x ∈ rest ++ news, x ∈ visited ++ news := by
          intro x hx
          rcases List.mem_append.mp hx with hx | hx
          · exact List.mem_append.mpr (Or.inl (h1 x (by simp [hx])))
          · exact List.mem_append.mpr (Or.inr hx)
        have h2' : ∀ x ∈ visited ++ news, x ∈ rest ++ news ∨
            ((getState A x).isTerminal = false ∧ ∀ t ∈ epsOf A x, t ∈ visited ++ news) := by
          intro x hx
          rcases List.mem_append.mp hx with hx | hx
          · rcases h2 x hx with hx' | hx'
            · rcases List.mem_cons.mp hx' with rfl | hx'
              · right
                refine ⟨hterm', ?_⟩
                intro t ht
                by_cases htc : t ∈ visited
                · exact List.mem_append.mpr (Or.inl htc)
                · exact List.mem_append.mpr (Or.inr ((hnews_mem t).mpr ⟨ht, htc⟩))
              · exact Or.inl (List.mem_append.mpr (Or.inl hx'))
            · exact Or.inr ⟨hx'.1, fun t ht => List.mem_append.mpr (Or.inl (hx'.2 t ht))⟩
          · exact Or.inl (List.mem_append.mpr (Or.inr hx))
        have hfuel' : (rest ++ news).length
            + ((allEps A).toFinset \ (visited ++ news).toFinset).card ≤ fuel := by
          have hnodup : news.Nodup := List.nodup_dedup _
          have hsub : news.toFinset ⊆ (allEps A).toFinset \ visited.toFinset := by
            intro t ht
            rw [List.mem_toFinset] at ht
            rcases (hnews_mem t).mp ht with ⟨ht1, ht2⟩
            refine Finset.mem_sdiff.mpr ⟨?_, ?_⟩
            · exact List.mem_toFinset.mpr (epsOf_subset_allEps ht1)
            · simpa using ht2
          have hcard_news : news.toFinset.card = news.length :=
            List.toFinset_card_of_nodup hnodup
          have hdiff : (allEps A).toFinset \ (visited ++ news).toFinset
              = ((allEps A).toFinset \ visited.toFinset) \ news.toFinset := by
            rw [List.toFinset_append]
            exact sdiff_sdiff_left.symm
          have hcard_diff : (((allEps A).toFinset \ visited.toFinset) \ news.toFinset).card
              = ((allEps A).toFinset \ visited.toFinset).card - news.toFinset.card :=
            Finset.card_sdiff hsub
          have hle : news.toFinset.card ≤ ((allEps A).toFinset \ visited.toFinset).card :=
            Finset.card_le_card hsub
          rw [hdiff, hcard_diff]
          simp only [List.length_append, List.length_cons] at hfuel ⊢
          omega
        rw [ih (rest ++ news) (visited ++ news) h1' h2' hfuel']
        constructor
        · rintro ⟨t, ⟨x, hx, hreach⟩, ht⟩
          rcases List.mem_append.mp hx with hx | hx
          · exact ⟨t, ⟨x, hx, hreach⟩, ht⟩
          · rcases (hnews_mem x).mp hx with ⟨hx1, _⟩
            exact ⟨t, ⟨s, hs, (EpsReach.step hx1 (.refl x)).trans hreach⟩, ht⟩
        · rintro ⟨t, ⟨x, hx, hreach⟩, ht⟩
          exact ⟨t, ⟨x, List.mem_append.mpr (Or.inl hx), hreach⟩, ht⟩

theorem isTerminalViaEpsilon_spec (A : Arena) (s : Nat) :
    isTerminalViaEpsilon A s = true ↔
      ∃ t, EpsReach A s t ∧ (getState A t).isTerminal = true := by
  unfold isTerminalViaEpsilon
  by_cases hterm : (getState A s).isTerminal = true
  · simp only [hterm, if_true, true_iff]
    exact ⟨s, .refl s, hterm⟩
  · rw [if_neg hterm]
    have hfuel : ([s] : List Nat).length
        + ((allEps A).toFinset \ ([s] : List Nat).toFinset).card ≤ 1 + totalEps A := by
      have h1 : ((allEps A).toFinset \ ([s] : List Nat).toFinset).card
          ≤ (allEps A).toFinset.card := Finset.card_le_card (Finset.sdiff_subset)
      have h2 : (allEps A).toFinset.card ≤ (allEps A).length := (allEps A).toFinset_card_le
      rw [totalEps_eq_length_allEps]
      simp only [List.length_singleton]
      omega
    rw [terminalBfsGo_spec A (1 + totalEps A) [s] [s] (fun x hx => hx)
      (fun x hx => Or.inl hx) hfuel]
    constructor
    · rintro ⟨t, ⟨x, hx, hreach⟩, ht⟩
      simp only [List.mem_singleton] at hx
      subst hx
      exact ⟨t, hreach, ht⟩
    · rintro ⟨t, hreach, ht⟩
      exact ⟨t, ⟨s, by simp, hreach⟩, ht⟩

theorem accepts_eps_step {A : Arena} {s t : Nat} {w : List Char}
    (hm : t ∈ epsOf A s) (h : Accepts A t w) : Accepts A s w := by
  obtain ⟨u, hr, hu⟩ := h
  exact ⟨u, .eps hm hr, hu⟩

/-- Acceptance of the remaining input decomposes into an epsilon walk to a
good exit. -/
theorem accepts_iff_goodExit {A : Arena} {input : List Char} {pos : Nat} {s : Nat} :
    Accepts A s (input.drop pos) ↔ ∃ x, EpsReach A s x ∧ goodExit A input pos x := by
  by_cases hpos : input.length ≤ pos
  · rw [List.drop_eq_nil_of_le hpos]
    unfold goodExit
    simp only [if_pos hpos]
    constructor
    · rintro ⟨t, hr, ht⟩
      exact ⟨s, .refl s, t, reach_nil hr, ht⟩
    · rintro ⟨x, hx, t, hr, ht⟩
      exact ⟨t, reach_nil_iff.mpr (hx.trans hr), ht⟩
  · push_neg at hpos
    have hdrop : input.drop pos = input[pos] :: input.drop (pos + 1) :=
      List.drop_eq_getElem_cons hpos
    have hget : input.getD pos default = input[pos] := List.getD_eq_getElem _ _ hpos
    unfold goodExit
    simp only [if_neg (show ¬ input.length ≤ pos by omega)]
    rw [hdrop]
    constructor
    · rintro ⟨t, hr, ht⟩
      obtain ⟨x, y, hx, hy, hr'⟩ := reach_cons hr
      exact ⟨x, hx, y, by rw [hget]; exact hy, t, hr', ht⟩
    · rintro ⟨x, hx, y, hy, t, hr, ht⟩
      rw [hget] at hy
      exact ⟨t, hx.toReach (.char hy hr), ht⟩

theorem getCharAt_of_lt {input : List Char} {pos : Nat} (h : pos < input.length) :
    getCharAt input pos = input[pos] := by
  unfold getCharAt
  rw [if_neg (by omega), List.getD_eq_getElem _ _ h]

theorem getCharAt_eq_endOfText_iff {input : List Char} {pos : Nat}
    (hd : endOfText ∉ input) : getCharAt input pos = endOfText ↔ input.length ≤ pos := by
  constructor
  · intro h
    by_contra hlt
    push_neg at hlt
    rw [getCharAt_of_lt hlt] at h
    exact hd (h ▸ List.getElem_mem hlt)
  · intro h
    unfold getCharAt
    rw [if_pos h]

/-! ### Fuel accounting for the checker -/

theorem le_sum_of_mem_natList {l : List Nat} {a : Nat} (h : a ∈ l) : a ≤ l.sum := by
  induction l with
  | nil => simp at h
  | cons b bs ih =>
    rcases List.mem_cons.mp h with rfl | h
    · simp
    · have := ih h
      simp only [List.sum_cons]
      omega

theorem lookup_mem_assoc {l : List (Char × List Nat)} {c : Char} {v : List Nat}
    (h : l.lookup c = some v) : (c, v) ∈ l := by
  induction l with
  | nil => simp [List.lookup] at h
  | cons kv rest ih =>
    obtain ⟨k, v'⟩ := kv
    simp only [List.lookup] at h
    split at h
    · rename_i heq
      injection h with h
      subst h
      have : c = k := eq_of_beq heq
      subst this
      exact List.mem_cons_self _ _
    · exact List.mem_cons_of_mem _ (ih h)

theorem transLookup_length_le {A : Arena} {s : Nat} {c : Char} :
    (transLookup A s c).length ≤ totalTrans A := by
  have hcase : transLookup A s c = [] ∨ (c, transLookup A s c) ∈ (getState A s).transitions := by
    unfold transLookup
    rcases hl : (getState A s).transitions.lookup c with _ | l
    · exact Or.inl rfl
    · exact Or.inr (lookup_mem_assoc hl)
  rcases hcase with h | hmem
  · simp [h]
  · have h1 : (transLookup A s c).length
        ≤ ((getState A s).transitions.map (fun kv => kv.2.length)).sum :=
      le_sum_of_mem_natList (List.mem_map.mpr ⟨(c, transLookup A s c), hmem, rfl⟩)
    rcases Nat.lt_or_ge s A.length with hs | hs
    · have hst : getState A s = A[s] := List.getD_eq_getElem _ _ hs
      have h2 : ((getState A s).transitions.map (fun kv => kv.2.length)).sum
          ≤ totalTrans A := by
        rw [hst]
        exact le_sum_of_mem_natList (List.mem_map.mpr ⟨A[s], List.getElem_mem _, rfl⟩)
      omega
    · have hfresh : getState A s = freshState := List.getD_eq_default _ _ hs
      rw [hfresh] at h1
      simp only [freshState, List.map_nil, List.sum_nil, Nat.le_zero] at h1
      omega

theorem markWeight_mono {A : Arena} {V V' : List Nat} (h : ∀ x ∈ V, x ∈ V') :
    markWeight A V' ≤ markWeight A V := by
  apply Finset.sum_le_sum_of_subset
  apply Finset.sdiff_subset_sdiff (le_refl _)
  intro x hx
  exact List.mem_toFinset.mpr (h x (List.mem_toFinset.mp hx))

theorem epsOf_ne_nil_lt {A : Arena} {s : Nat} (h : epsOf A s ≠ []) : s < A.length := by
  by_contra hs
  push_neg at hs
  have : getState A s = freshState := List.getD_eq_default _ _ hs
  unfold epsOf at h
  rw [this] at h
  simp [freshState] at h

theorem markWeight_mark {A : Arena} {V : List Nat} {s : Nat}
    (hlt : s < A.length) (hnin : s ∉ V) :
    markWeight A V = markWeight A (V ++ [s]) + (2 + (epsOf A s).length) := by
  unfold markWeight
  have hsmem : s ∈ Finset.range A.length \ V.toFinset := by
    simp [Finset.mem_sdiff, Finset.mem_range, hlt, hnin]
  have hset : Finset.range A.length \ (V ++ [s]).toFinset
      = (Finset.range A.length \ V.toFinset).erase s := by
    rw [List.toFinset_append]
    simp only [List.toFinset_cons, List.toFinset_nil, insert_emptyc_eq]
    rw [Finset.sdiff_union_distrib]
    ext x
    simp only [Finset.mem_inter, Finset.mem_sdiff, Finset.mem_singleton, Finset.mem_erase,
      Finset.mem_range]
    tauto
  rw [hset]
  rw [← Finset.sum_erase_add _ _ hsmem]

/-- `checkStep` only grows the visited set of its frame. -/
theorem checkStep_vis_mono (A : Arena) (input : List Char) :
    ∀ (fuel : Nat) (k : KCall), ∀ x ∈ k.vis, x ∈ (checkStep A input fuel k).2 := by
  intro fuel
  induction fuel with
  | zero =>
    intro k x hx
    exact hx
  | succ fuel ih =>
    intro k x hx
    match k with
    | .go s pos V =>
      simp only [KCall.vis] at hx
      show x ∈ (checkStep A input (fuel + 1) (.go s pos V)).2
      simp only [checkStep]
      split
      · split
        · exact hx
        · split
          · exact ih (.seqEps (epsOf A s) pos (V ++ [s])) x
              (by simp only [KCall.vis]; exact List.mem_append.mpr (Or.inl hx))
          · exact ih (.exitPhase s pos _) x
              (ih (.seqEps (epsOf A s) pos (V ++ [s])) x
                (by simp only [KCall.vis]; exact List.mem_append.mpr (Or.inl hx)))
      · exact ih (.exitPhase s pos V) x hx
    | .seqEps ts pos V =>
      simp only [KCall.vis] at hx
      match ts with
      | [] => exact hx
      | t :: ts =>
        show x ∈ (checkStep A input (fuel + 1) (.seqEps (t :: ts) pos V)).2
        simp only [checkStep]
        split
        · exact ih (.go t pos V) x hx
        · exact ih (.seqEps ts pos _) x (ih (.go t pos V) x hx)
    | .exitPhase s pos V =>
      simp only [KCall.vis] at hx
      show x ∈ (checkStep A input (fuel + 1) (.exitPhase s pos V)).2
      simp only [checkStep]
      split <;> exact hx
    | .chars ts pos =>
      simp only [KCall.vis] at hx
      simp at hx

/-! ### Unfolding equations for the checker dispatcher -/

theorem checkStep_go_unfold (A : Arena) (input : List Char) (fuel s pos : Nat)
    (V : List Nat) :
    checkStep A input (fuel + 1) (.go s pos V) =
      if epsOf A s ≠ [] then
        if s ∈ V then (false, V)
        else
          if (checkStep A input fuel (.seqEps (epsOf A s) pos (V ++ [s]))).1 then
            checkStep A input fuel (.seqEps (epsOf A s) pos (V ++ [s]))
          else checkStep A input fuel (.exitPhase s pos
            (checkStep A input fuel (.seqEps (epsOf A s) pos (V ++ [s]))).2)
      else checkStep A input fuel (.exitPhase s pos V) := rfl

theorem checkStep_seq_cons_unfold (A : Arena) (input : List Char) (fuel t pos : Nat)
    (ts V : List Nat) :
    checkStep A input (fuel + 1) (.seqEps (t :: ts) pos V) =
      if (checkStep A input fuel (.go t pos V)).1 then
        checkStep A input fuel (.go t pos V)
      else checkStep A input fuel (.seqEps ts pos (checkStep A input fuel (.go t pos V)).2) := rfl

theorem checkStep_exit_unfold (A : Arena) (input : List Char) (fuel s pos : Nat)
    (V : List Nat) :
    checkStep A input (fuel + 1) (.exitPhase s pos V) =
      if getCharAt input pos = endOfText then (isTerminalViaEpsilon A s, V)
      else ((checkStep A input fuel
        (.chars (transLookup A s (getCharAt input pos)) pos)).1, V) := rfl

theorem checkStep_chars_cons_unfold (A : Arena) (input : List Char) (fuel t pos : Nat)
    (ts : List Nat) :
    checkStep A input (fuel + 1) (.chars (t :: ts) pos) =
      if (checkStep A input fuel (.go t (pos + 1) [])).1 then (true, [])
      else checkStep A input fuel (.chars ts pos) := rfl

/-- The combined specification of the four checker frames at one input
position, proved by strong induction on the fuel.  `OIH` is the outer
induction hypothesis: correctness of `check` from the next position on. -/
theorem checkStep_frames (A : Arena) (input : List Char) (hd : endOfText ∉ input)
    (pos : Nat)
    (OIH : pos < input.length → ∀ (s fuel : Nat),
      (input.length - (pos + 1)) * (markWeight A [] + totalTrans A + 4)
        + markWeight A [] + totalTrans A + 3 ≤ fuel →
      ((checkStep A input fuel (.go s (pos + 1) [])).1 = true ↔
        Accepts A s (input.drop (pos + 1)))) :
    ∀ fuel : Nat,
      (∀ (s : Nat) (V : List Nat) (G : Set Nat),
        (input.length - pos) * (markWeight A [] + totalTrans A + 4)
          + markWeight A V + totalTrans A + 3 ≤ fuel →
        DfsInv A input pos V G →
        ((checkStep A input fuel (.go s pos V)).1 = true →
            Accepts A s (input.drop pos)) ∧
        ((checkStep A input fuel (.go s pos V)).1 = false →
          DfsInv A input pos (checkStep A input fuel (.go s pos V)).2 G ∧
          (s ∈ (checkStep A input fuel (.go s pos V)).2 ∨
            (epsOf A s = [] ∧ ¬ goodExit A input pos s)))) ∧
      (∀ (ts V : List Nat) (G : Set Nat),
        (input.length - pos) * (markWeight A [] + totalTrans A + 4)
          + markWeight A V + ts.length + totalTrans A + 3 ≤ fuel →
        DfsInv A input pos V G →
        ((checkStep A input fuel (.seqEps ts pos V)).1 = true →
            ∃ t ∈ ts, Accepts A t (input.drop pos)) ∧
        ((checkStep A input fuel (.seqEps ts pos V)).1 = false →
          DfsInv A input pos (checkStep A input fuel (.seqEps ts pos V)).2 G ∧
          ∀ t ∈ ts, t ∈ (checkStep A input fuel (.seqEps ts pos V)).2 ∨
            (epsOf A t = [] ∧ ¬ goodExit A input pos t))) ∧
      (∀ (s : Nat) (V : List Nat),
        (input.length - pos) * (markWeight A [] + totalTrans A + 4)
          + totalTrans A + 2 ≤ fuel →
        (((checkStep A input fuel (.exitPhase s pos V)).1 = true ↔
            goodExit A input pos s) ∧
          (checkStep A input fuel (.exitPhase s pos V)).2 = V)) ∧
      (∀ ts : List Nat,
        pos < input.length →
        (input.length - pos) * (markWeight A [] + totalTrans A + 4)
          + ts.length + 1 ≤ fuel →
        ((checkStep A input fuel (.chars ts pos)).1 = true ↔
          ∃ t ∈ ts, Accepts A t (input.drop (pos + 1)))) := by
  intro fuel
  induction fuel using Nat.strong_induction_on with
  | _ fuel IH =>
    match fuel with
    | 0 =>
      refine ⟨?_, ?_, ?_, ?_⟩
      · intro s V G hfuel _
        omega
      · intro ts V G hfuel _
        omega
      · intro s V hfuel
        omega
      · intro ts _ hfuel
        omega
    | fuel + 1 =>
      obtain ⟨IHgo, IHseq, IHexit, IHchars⟩ := IH fuel (Nat.lt_succ_self fuel)
      have LCpos : (0:Nat) < markWeight A [] + totalTrans A + 4 := by omega
      refine ⟨?_, ?_, ?_, ?_⟩
      -- the `.go` frame: the entry of `check`
      · intro s V G hfuel hinv
        rw [checkStep_go_unfold]
        by_cases heps : epsOf A s ≠ []
        · rw [if_pos heps]
          by_cases hmem : s ∈ V
          · rw [if_pos hmem]
            exact ⟨by simp, fun _ => ⟨hinv, Or.inl hmem⟩⟩
          · rw [if_neg hmem]
            have hlt : s < A.length := epsOf_ne_nil_lt heps
            have hmark : markWeight A V
                = markWeight A (V ++ [s]) + (2 + (epsOf A s).length) :=
              markWeight_mark hlt hmem
            have hinv' : DfsInv A input pos (V ++ [s]) (G ∪ {s}) := by
              intro z hz hzG
              simp only [Set.mem_union, Set.mem_singleton_iff, not_or] at hzG
              rcases List.mem_append.mp hz with hzV | hzs
              · obtain ⟨h1, h2⟩ := hinv z hzV hzG.1
                exact ⟨h1, fun t ht =>
                  (h2 t ht).imp (fun h => List.mem_append.mpr (Or.inl h)) id⟩
              · simp only [List.mem_singleton] at hzs
                exact absurd hzs hzG.2
            have hseqb : (input.length - pos) * (markWeight A [] + totalTrans A + 4)
                + markWeight A (V ++ [s]) + (epsOf A s).length + totalTrans A + 3
                ≤ fuel := by omega
            obtain ⟨hseqT, hseqF⟩ :=
              IHseq (epsOf A s) (V ++ [s]) (G ∪ {s}) hseqb hinv'
            by_cases hrb : (checkStep A input fuel
                (.seqEps (epsOf A s) pos (V ++ [s]))).1 = true
            · rw [if_pos hrb]
              refine ⟨fun _ => ?_, fun h => ?_⟩
              · obtain ⟨t, ht, hacc⟩ := hseqT hrb
                exact accepts_eps_step ht hacc
              · rw [hrb] at h
                cases h
            · have hrb' : (checkStep A input fuel
                  (.seqEps (epsOf A s) pos (V ++ [s]))).1 = false := by
                simpa using hrb
              rw [if_neg hrb]
              obtain ⟨hinv₁, hsucc⟩ := hseqF hrb'
              have hexitb : (input.length - pos) * (markWeight A [] + totalTrans A + 4)
                  + totalTrans A + 2 ≤ fuel := by omega
              obtain ⟨hexit_iff, hexit_vis⟩ := IHexit s
                (checkStep A input fuel (.seqEps (epsOf A s) pos (V ++ [s]))).2 hexitb
              have hsV' : s ∈ (checkStep A input fuel
                  (.seqEps (epsOf A s) pos (V ++ [s]))).2 :=
                checkStep_vis_mono A input fuel
                  (.seqEps (epsOf A s) pos (V ++ [s])) s (by simp [KCall.vis])
              by_cases hgood : goodExit A input pos s
              · have htrue : (checkStep A input fuel (.exitPhase s pos
                    (checkStep A input fuel (.seqEps (epsOf A s) pos (V ++ [s]))).2)).1
                    = true := hexit_iff.mpr hgood
                refine ⟨fun _ => ?_, fun h => ?_⟩
                · exact accepts_iff_goodExit.mpr ⟨s, .refl s, hgood⟩
                · rw [htrue] at h
                  cases h
              · have hfalse2 : (checkStep A input fuel (.exitPhase s pos
                    (checkStep A input fuel (.seqEps (epsOf A s) pos (V ++ [s]))).2)).1
                    = false := by
                  rcases Bool.eq_false_or_eq_true (checkStep A input fuel (.exitPhase s pos
                    (checkStep A input fuel
                      (.seqEps (epsOf A s) pos (V ++ [s]))).2)).1 with h | h
                  · exact absurd (hexit_iff.mp h) hgood
                  · exact h
                refine ⟨fun h => ?_, fun _ => ?_⟩
                · rw [hfalse2] at h
                  cases h
                · rw [hexit_vis]
                  refine ⟨?_, Or.inl hsV'⟩
                  intro z hz hzG
                  by_cases hzs : z = s
                  · subst hzs
                    exact ⟨hgood, fun t ht => hsucc t ht⟩
                  · exact hinv₁ z hz (by
                      simp only [Set.mem_union, Set.mem_singleton_iff, not_or]
                      exact ⟨hzG, hzs⟩)
        · rw [if_neg heps]
          push_neg at heps
          have hexitb : (input.length - pos) * (markWeight A [] + totalTrans A + 4)
              + totalTrans A + 2 ≤ fuel := by omega
          obtain ⟨hexit_iff, hexit_vis⟩ := IHexit s V hexitb
          refine ⟨fun h => ?_, fun h => ?_⟩
          · exact accepts_iff_goodExit.mpr ⟨s, .refl s, hexit_iff.mp h⟩
          · rw [hexit_vis]
            refine ⟨hinv, Or.inr ⟨heps, fun hgood => ?_⟩⟩
            rw [hexit_iff.mpr hgood] at h
            cases h
      -- the `.seqEps` frame: the epsilon branch loop
      · intro ts V G hfuel hinv
        match ts with
        | [] =>
          refine ⟨fun h => ?_, fun _ => ⟨hinv, by simp⟩⟩
          cases h
        | t :: ts' =>
          rw [checkStep_seq_cons_unfold]
          have hgob : (input.length - pos) * (markWeight A [] + totalTrans A + 4)
              + markWeight A V + totalTrans A + 3 ≤ fuel := by
            simp only [List.length_cons] at hfuel
            omega
          obtain ⟨hgoT, hgoF⟩ := IHgo t V G hgob hinv
          by_cases hrb : (checkStep A input fuel (.go t pos V)).1 = true
          · rw [if_pos hrb]
            refine ⟨fun _ => ⟨t, by simp, hgoT hrb⟩, fun h => ?_⟩
            rw [hrb] at h
            cases h
          · have hrb' : (checkStep A input fuel (.go t pos V)).1 = false := by
              simpa using hrb
            rw [if_neg hrb]
            obtain ⟨hinv₂, hts⟩ := hgoF hrb'
            have hmono : ∀ x ∈ V, x ∈ (checkStep A input fuel (.go t pos V)).2 :=
              fun x hx => checkStep_vis_mono A input fuel (.go t pos V) x hx
            have hmw : markWeight A (checkStep A input fuel (.go t pos V)).2
                ≤ markWeight A V := markWeight_mono hmono
            have hseqb' : (input.length - pos) * (markWeight A [] + totalTrans A + 4)
                + markWeight A (checkStep A input fuel (.go t pos V)).2
                + ts'.length + totalTrans A + 3 ≤ fuel := by
              simp only [List.length_cons] at hfuel
              omega
            obtain ⟨hseqT', hseqF'⟩ := IHseq ts'
              (checkStep A input fuel (.go t pos V)).2 G hseqb' hinv₂
            refine ⟨fun h => ?_, fun h => ?_⟩
            · obtain ⟨u, hu, hacc⟩ := hseqT' h
              exact ⟨u, by simp [hu], hacc⟩
            · obtain ⟨hinv₃, hts'⟩ := hseqF' h
              refine ⟨hinv₃, ?_⟩
              intro u hu
              rcases List.mem_cons.mp hu with rfl | hu'
              · rcases hts with hin | hdead
                · exact Or.inl (checkStep_vis_mono A input fuel
                    (.seqEps ts' pos (checkStep A input fuel (.go u pos V)).2) u hin)
                · exact Or.inr hdead
              · exact hts' u hu'
      -- the `.exitPhase` frame: end-of-text terminal search or character branch
      · intro s V hfuel
        rw [checkStep_exit_unfold]
        by_cases hend : getCharAt input pos = endOfText
        · rw [if_pos hend]
          have hpos : input.length ≤ pos := (getCharAt_eq_endOfText_iff hd).mp hend
          refine ⟨?_, rfl⟩
          show isTerminalViaEpsilon A s = true ↔ _
          rw [isTerminalViaEpsilon_spec]
          unfold goodExit
          rw [if_pos hpos]
        · rw [if_neg hend]
          have hpos : pos < input.length := by
            by_contra h
            push_neg at h
            exact hend ((getCharAt_eq_endOfText_iff hd).mpr h)
          have hget : getCharAt input pos = input[pos] := getCharAt_of_lt hpos
          have hlen : (transLookup A s (getCharAt input pos)).length ≤ totalTrans A :=
            transLookup_length_le
          have hcb : (input.length - pos) * (markWeight A [] + totalTrans A + 4)
              + (transLookup A s (getCharAt input pos)).length + 1 ≤ fuel := by omega
          have hchars := IHchars (transLookup A s (getCharAt input pos)) hpos hcb
          refine ⟨?_, rfl⟩
          show (checkStep A input fuel
            (.chars (transLookup A s (getCharAt input pos)) pos)).1 = true ↔ _
          rw [hchars]
          unfold goodExit
          rw [if_neg (by omega), hget, List.getD_eq_getElem _ _ hpos]
      -- the `.chars` frame: the character transition loop
      · intro ts hpos hfuel
        match ts with
        | [] =>
          simp only [checkStep]
          refine ⟨fun h => ?_, fun h => ?_⟩
          · cases h
          · obtain ⟨t, ht, _⟩ := h
            simp at ht
        | t :: ts' =>
          rw [checkStep_chars_cons_unfold]
          have hR : (input.length - pos) * (markWeight A [] + totalTrans A + 4)
              = (input.length - (pos + 1)) * (markWeight A [] + totalTrans A + 4)
                + (markWeight A [] + totalTrans A + 4) := by
            have h1 : input.length - pos = (input.length - (pos + 1)) + 1 := by omega
            rw [h1, Nat.add_mul, one_mul]
          have hgob : (input.length - (pos + 1)) * (markWeight A [] + totalTrans A + 4)
              + markWeight A [] + totalTrans A + 3 ≤ fuel := by
            simp only [List.length_cons] at hfuel
            omega
          have hgo := OIH hpos t fuel hgob
          by_cases hb : (checkStep A input fuel (.go t (pos + 1) [])).1 = true
          · rw [if_pos hb]
            exact ⟨fun _ => ⟨t, by simp, hgo.mp hb⟩, fun _ => rfl⟩
          · have hb' : (checkStep A input fuel (.go t (pos + 1) [])).1 = false := by
              simpa using hb
            rw [if_neg hb]
            have hcb' : (input.length - pos) * (markWeight A [] + totalTrans A + 4)
                + ts'.length + 1 ≤ fuel := by
              simp only [List.length_cons] at hfuel
              omega
            rw [IHchars ts' hpos hcb']
            refine ⟨fun h => ?_, fun h => ?_⟩
            · obtain ⟨u, hu, hacc⟩ := h
              exact ⟨u, by simp [hu], hacc⟩
            · obtain ⟨u, hu, hacc⟩ := h
              rcases List.mem_cons.mp hu with rfl | hu'
              · exact absurd (hgo.mpr hacc) hb
              · exact ⟨u, hu', hacc⟩

/-- With an empty gray set, the invariant propagates along any epsilon walk
from a handled root: no reachable state is a good exit. -/
theorem noGood_walk {A : Arena} {input : List Char} {pos : Nat} {W : List Nat}
    (hinv : DfsInv A input pos W ∅) {s x : Nat} (hx : EpsReach A s x) :
    (s ∈ W ∨ (epsOf A s = [] ∧ ¬ goodExit A input pos s)) →
    ¬ goodExit A input pos x := by
  induction hx with
  | refl s =>
    rintro (hW | ⟨_, hng⟩)
    · exact (hinv s hW (Set.not_mem_empty s)).1
    · exact hng
  | step hm _ ih =>
    rintro (hW | ⟨hdead, _⟩)
    · obtain ⟨_, hsucc⟩ := hinv _ hW (Set.not_mem_empty _)
      exact ih (hsucc _ hm)
    · rw [hdead] at hm
      cases hm

theorem map_sum_eq_range_sum (A : Arena) (f : NFAState → Nat) :
    (A.map f).sum = ∑ i ∈ Finset.range A.length, f (getState A i) := by
  induction A with
  | nil => simp
  | cons a as ih =>
    rw [List.map_cons, List.sum_cons, ih, List.length_cons, Finset.sum_range_succ']
    have h0 : getState (a :: as) 0 = a := rfl
    have hsucc : ∀ i, getState (a :: as) (i + 1) = getState as i := fun i => rfl
    simp only [h0, hsucc]
    omega

theorem markWeight_nil (A : Arena) : markWeight A [] = 2 * A.length + totalEps A := by
  unfold markWeight
  simp only [List.toFinset_nil, Finset.sdiff_empty]
  rw [Finset.sum_add_distrib, Finset.sum_const, Finset.card_range]
  have : totalEps A = ∑ i ∈ Finset.range A.length, (epsOf A i).length := by
    unfold totalEps
    exact map_sum_eq_range_sum A (fun st => st.epsilonTransitions.length)
  rw [this]
  simp [Nat.mul_comm]

/-- Correctness of `check` from any position, for inputs that do not contain
the `endOfText` sentinel character. -/
theorem checkStep_go_correct (A : Arena) (input : List Char) (hd : endOfText ∉ input) :
    ∀ (n pos : Nat), input.length - pos ≤ n →
      ∀ (s fuel : Nat),
        (input.length - pos) * (markWeight A [] + totalTrans A + 4)
          + markWeight A [] + totalTrans A + 3 ≤ fuel →
        ((checkStep A input fuel (.go s pos [])).1 = true ↔
          Accepts A s (input.drop pos)) := by
  intro n
  induction n with
  | zero =>
    intro pos hpos s fuel hfuel
    have hOIH : pos < input.length → ∀ (s fuel : Nat),
        (input.length - (pos + 1)) * (markWeight A [] + totalTrans A + 4)
          + markWeight A [] + totalTrans A + 3 ≤ fuel →
        ((checkStep A input fuel (.go s (pos + 1) [])).1 = true ↔
          Accepts A s (input.drop (pos + 1))) := by
      intro hlt
      omega
    obtain ⟨IHgo, _, _, _⟩ := checkStep_frames A input hd pos hOIH fuel
    have hinv0 : DfsInv A input pos [] ∅ := by
      intro z hz
      simp at hz
    obtain ⟨hT, hF⟩ := IHgo s [] ∅ hfuel hinv0
    rcases Bool.eq_false_or_eq_true (checkStep A input fuel (.go s pos [])).1 with hb | hb
    · rw [hb]
      simp only [true_iff]
      exact hT hb
    · rw [hb]
      simp only [Bool.false_eq_true, false_iff]
      obtain ⟨hinv', hroot⟩ := hF hb
      intro hacc
      obtain ⟨x, hx, hgood⟩ := accepts_iff_goodExit.mp hacc
      have hroot' : s ∈ (checkStep A input fuel (.go s pos [])).2 ∨
          (epsOf A s = [] ∧ ¬ goodExit A input pos s) := hroot
      exact noGood_walk hinv' hx hroot' hgood
  | succ n ihn =>
    intro pos hpos s fuel hfuel
    have hOIH : pos < input.length → ∀ (s fuel : Nat),
        (input.length - (pos + 1)) * (markWeight A [] + totalTrans A + 4)
          + markWeight A [] + totalTrans A + 3 ≤ fuel →
        ((checkStep A input fuel (.go s (pos + 1) [])).1 = true ↔
          Accepts A s (input.drop (pos + 1))) := by
      intro hlt s' fuel' hfuel'
      exact ihn (pos + 1) (by omega) s' fuel' hfuel'
    obtain ⟨IHgo, _, _, _⟩ := checkStep_frames A input hd pos hOIH fuel
    have hinv0 : DfsInv A input pos [] ∅ := by
      intro z hz
      simp at hz
    obtain ⟨hT, hF⟩ := IHgo s [] ∅ hfuel hinv0
    rcases Bool.eq_false_or_eq_true (checkStep A input fuel (.go s pos [])).1 with hb | hb
    · rw [hb]
      simp only [true_iff]
      exact hT hb
    · rw [hb]
      simp only [Bool.false_eq_true, false_iff]
      obtain ⟨hinv', hroot⟩ := hF hb
      intro hacc
      obtain ⟨x, hx, hgood⟩ := accepts_iff_goodExit.mp hacc
      exact noGood_walk hinv' hx hroot hgood

/-- Correctness of `check(startState, input, 0)` on inputs without the
`endOfText` sentinel, for an arbitrary arena. -/
theorem checkRun_correct (A : Arena) (s : Nat) (w : List Char)
    (hd : endOfText ∉ w) : checkRun A s w = true ↔ Accepts A s w := by
  unfold checkRun checkGo
  have hbound : (w.length - 0) * (markWeight A [] + totalTrans A + 4)
      + markWeight A [] + totalTrans A + 3 ≤ checkFuel A w := by
    unfold checkFuel
    rw [markWeight_nil]
    have h1 : w.length - 0 = w.length := by omega
    rw [h1]
    have h2 : (w.length + 1) * (2 * A.length + totalEps A + totalTrans A + 4)
        = w.length * (2 * A.length + totalEps A + totalTrans A + 4)
          + (2 * A.length + totalEps A + totalTrans A + 4) := by ring
    omega
  rw [checkStep_go_correct A w hd (w.length - 0) 0 (le_refl _) s (checkFuel A w) hbound]
  rw [List.drop_zero]

theorem errWF_report {full : List Char} {k : ErrKind} {m : String} {pos : Nat}
    (h : pos ≤ full.length) : ErrWF full (reportError k m full pos) :=
  ⟨h, rfl⟩

theorem quantScan_wf (full : List Char) :
    ∀ (rem : List Char) (pos : Nat) (sMin sMax : List Char) (inMin commaFound : Bool),
      pos + rem.length = full.length →
      ScanWF full (quantScan full rem pos sMin sMax inMin commaFound) := by
  intro rem
  induction rem with
  | nil =>
    intro pos sMin sMax inMin commaFound halign
    simpa [quantScan, ScanWF] using halign
  | cons qc rest ih =>
    intro pos sMin sMax inMin commaFound halign
    simp only [List.length_cons] at halign
    simp only [quantScan]
    split_ifs with h1 h2 h3 h4 h5
    · simpa [ScanWF] using halign
    · exact errWF_report (by omega)
    · exact ih (pos + 1) sMin sMax false true (by omega)
    · exact ih (pos + 1) (sMin ++ [qc]) sMax inMin commaFound (by omega)
    · exact ih (pos + 1) sMin (sMax ++ [qc]) inMin commaFound (by omega)
    · exact errWF_report (by omega)

theorem bracketScan_wf (full : List Char) :
    ∀ (fuel : Nat) (rem : List Char) (pos : Nat) (lits : List Char),
      pos + rem.length = full.length →
      BScanWF full (bracketScan full fuel rem pos lits) := by
  intro fuel
  induction fuel with
  | zero =>
    intro rem pos lits halign
    refine errWF_report ?_
    omega
  | succ fuel ih =>
    intro rem pos lits halign
    match rem with
    | [] => simpa [bracketScan, BScanWF] using halign
    | ch :: rest =>
      simp only [List.length_cons] at halign
      simp only [bracketScan]
      split_ifs with h1
      · simpa [BScanWF] using halign
      · match rest with
        | c2 :: c3 :: rest2 =>
          simp only [List.length_cons] at halign
          dsimp only
          split_ifs with h2 h3
          · exact errWF_report (by omega)
          · exact ih rest2 (pos + 3) (lits ++ rangeChars ch c3) (by omega)
          · exact ih (c2 :: c3 :: rest2) (pos + 1) (lits ++ [ch])
              (by simp only [List.length_cons]; omega)
        | [] =>
          refine ih [] (pos + 1) (lits ++ [ch]) ?_
          simp only [List.length_nil] at halign ⊢
          omega
        | [c2] =>
          refine ih [c2] (pos + 1) (lits ++ [ch]) ?_
          simp only [List.length_cons, List.length_nil] at halign ⊢
          omega

theorem ebind_ok {ε α β : Type} (a : α) (f : α → Except ε β) :
    (Except.ok a : Except ε α) >>= f = f a := rfl

theorem ebind_err {ε α β : Type} (e : ε) (f : α → Except ε β) :
    (Except.error e : Except ε α) >>= f = .error e := rfl

set_option maxHeartbeats 2000000 in
/-- Every parser result keeps the position aligned with the remaining input,
and every parse error points into the pattern with the `reportError`
snippet. -/
theorem parseStep_wf (full : List Char) :
    ∀ (fuel : Nat) (k : PCall), k.callPos + k.rem.length = full.length →
      PResWF full (parseStep full fuel k) := by
  intro fuel
  induction fuel with
  | zero =>
    intro k halign
    exact errWF_report (by omega)
  | succ fuel ih =>
    intro k halign
    match k with
    | .expr rem pos stop =>
      simp only [PCall.callPos, PCall.rem] at halign
      have hterm := ih (.term rem pos stop) halign
      simp only [parseStep]
      rcases hres : parseStep full fuel (.term rem pos stop) with e | ⟨l, rem1, pos1⟩
      · rw [hres] at hterm
        rw [ebind_err]
        exact hterm
      · rw [hres] at hterm
        rw [ebind_ok]
        exact ih (.exprLoop l rem1 pos1 stop) hterm
    | .exprLoop leftNode rem pos stop =>
      simp only [PCall.callPos, PCall.rem] at halign
      simp only [parseStep]
      match rem with
      | [] => simpa [PResWF] using halign
      | c :: rest =>
        simp only [List.length_cons] at halign
        dsimp only
        split_ifs with h1 h2 h3
        · simp only [PResWF, List.length_cons]
          omega
        · exact errWF_report (by omega)
        · match rest with
          | [] => exact errWF_report (by omega)
          | c2 :: rest2 =>
            simp only [List.length_cons] at halign
            dsimp only
            split_ifs with h4
            · exact errWF_report (by omega)
            · have hterm := ih (.term (c2 :: rest2) (pos + 1) stop)
                (by simp only [PCall.callPos, PCall.rem, List.length_cons]; omega)
              rcases hres : parseStep full fuel (.term (c2 :: rest2) (pos + 1) stop)
                with e | ⟨rn, rem3, pos3⟩
              · rw [hres] at hterm
                rw [ebind_err]
                exact hterm
              · rw [hres] at hterm
                rw [ebind_ok]
                dsimp only
                simp only [PResWF] at hterm
                split_ifs with h5
                · exact errWF_report (by omega)
                · exact ih (.exprLoop [Token.OR leftNode rn] rem3 pos3 stop) hterm
        · simp only [PResWF, List.length_cons]
          omega
    | .term rem pos stop =>
      simp only [PCall.callPos, PCall.rem] at halign
      simp only [parseStep]
      exact ih (.termLoop [] rem pos stop) halign
    | .termLoop acc rem pos stop =>
      simp only [PCall.callPos, PCall.rem] at halign
      simp only [parseStep]
      match rem with
      | [] => simpa [PResWF] using halign
      | c :: rest =>
        simp only [List.length_cons] at halign
        dsimp only
        split_ifs with h1 h2
        · simp only [PResWF, List.length_cons]
          omega
        · simp only [PResWF, List.length_cons]
          omega
        · have hfac := ih (.factor (c :: rest) pos stop)
            (by simp only [PCall.callPos, PCall.rem, List.length_cons]; omega)
          rcases hres : parseStep full fuel (.factor (c :: rest) pos stop)
            with e | ⟨fts, rem1, pos1⟩
          · rw [hres] at hfac
            rw [ebind_err]
            exact hfac
          · rw [hres] at hfac
            rw [ebind_ok]
            dsimp only
            simp only [PResWF] at hfac
            match fts with
            | tok :: _ =>
              dsimp only
              exact ih (.termLoop (acc ++ [tok]) rem1 pos1 stop) hfac
            | [] => simpa [PResWF] using hfac
    | .factor rem pos stop =>
      simp only [PCall.callPos, PCall.rem] at halign
      simp only [parseStep]
      have hatom := ih (.atom rem pos stop) halign
      rcases hres : parseStep full fuel (.atom rem pos stop) with e | ⟨ats, rem1, pos1⟩
      · rw [hres] at hatom
        rw [ebind_err]
        exact hatom
      · rw [hres] at hatom
        rw [ebind_ok]
        dsimp only
        simp only [PResWF] at hatom
        match ats with
        | [] => simpa [PResWF] using hatom
        | atomToken :: rest0 =>
          dsimp only
          match rem1 with
          | [] => simpa [PResWF] using hatom
          | c :: rest =>
            simp only [List.length_cons] at hatom
            dsimp only
            split_ifs with h1 h2 h3 h4
            · simp only [PResWF, List.length_cons]
              omega
            · simp only [PResWF, List.length_cons]
              omega
            · simp only [PResWF, List.length_cons]
              omega
            · have hq := quantScan_wf full rest (pos1 + 1) [] [] true false (by omega)
              rcases hqres : quantScan full rest (pos1 + 1) [] [] true false
                with e | ⟨sMin, sMax, commaFound, rem2, pos2⟩
              · rw [hqres] at hq
                rw [ebind_err]
                exact hq
              · rw [hqres] at hq
                rw [ebind_ok]
                dsimp only
                simp only [ScanWF] at hq
                match rem2 with
                | [] => exact errWF_report (by omega)
                | cc :: rest2 =>
                  simp only [List.length_cons] at hq
                  dsimp only
                  split_ifs <;>
                    first
                      | exact errWF_report (by omega)
                      | (simp only [PResWF]; omega)
            · simp only [PResWF, List.length_cons]
              omega
    | .atom rem pos stop =>
      simp only [PCall.callPos, PCall.rem] at halign
      simp only [parseStep]
      match rem with
      | [] => simpa [PResWF] using halign
      | c :: rest =>
        simp only [List.length_cons] at halign
        dsimp only
        split_ifs with h1 h2 h3 h4
        · simp only [PResWF, List.length_cons]
          omega
        · -- group
          have hexpr := ih (.expr rest (pos + 1) [')'])
            (by simp only [PCall.callPos, PCall.rem]; omega)
          rcases hres : parseStep full fuel (.expr rest (pos + 1) [')'])
            with e | ⟨gts, rem2, pos2⟩
          · rw [hres] at hexpr
            rw [ebind_err]
            exact hexpr
          · rw [hres] at hexpr
            rw [ebind_ok]
            dsimp only
            simp only [PResWF] at hexpr
            match rem2 with
            | [] => exact errWF_report (by omega)
            | cc :: rest2 =>
              simp only [List.length_cons] at hexpr
              dsimp only
              split_ifs with h5
              · simp only [PResWF]
                omega
              · exact errWF_report (by omega)
        · -- character class
          have hbr := bracketScan_wf full (rest.length + 1) rest (pos + 1) [] (by omega)
          rcases hres : bracketScan full (rest.length + 1) rest (pos + 1) []
            with e | ⟨lits, rem2, pos2⟩
          · rw [hres] at hbr
            rw [ebind_err]
            exact hbr
          · rw [hres] at hbr
            rw [ebind_ok]
            dsimp only
            simp only [BScanWF] at hbr
            match rem2 with
            | [] => exact errWF_report (by omega)
            | cc :: rest2 =>
              simp only [List.length_cons] at hbr
              dsimp only
              split_ifs with h5 h6
              · exact errWF_report (by omega)
              · simp only [PResWF]
                omega
              · exact errWF_report (by omega)
        · exact errWF_report (by omega)
        · simp only [PResWF, List.length_cons]
          omega

/-- Well-formedness of errors surfaced by `parse`. -/
theorem parse_error_wf {p : List Char} {e : ParseError} (h : parse p = .error e) :
    ErrWF p e := by
  unfold parse at h
  simp only [parseExpression] at h
  have hwf := parseStep_wf p (parseFuel p) (.expr p 0 [])
    (by simp [PCall.callPos, PCall.rem])
  rcases hres : parseStep p (parseFuel p) (.expr p 0 []) with e' | ⟨ts, rem, pos⟩
  · rw [hres] at hwf h
    rw [ebind_err] at h
    injection h with h
    subst h
    exact hwf
  · rw [hres] at hwf h
    rw [ebind_ok] at h
    simp only [PResWF] at hwf
    match rem, h with
    | [], h => simp at h
    | _ :: _, h =>
      injection h with h
      subst h
      refine errWF_report ?_
      simp only [List.length_cons] at hwf
      dsimp only
      omega

theorem isDigit_ne_rbrace {d : Char} (h : d.isDigit = true) : d ≠ '}' := by
  intro he
  subst he
  exact absurd h (by decide)

theorem isDigit_ne_comma {d : Char} (h : d.isDigit = true) : d ≠ ',' := by
  intro he
  subst he
  exact absurd h (by decide)

/-- `parseAtom` on an ordinary literal character. -/
theorem atom_literal (full : List Char) (fuel : Nat) (c : Char) (rest : List Char)
    (pos : Nat) (stop : List Char) (hns : notSpecial c) (hstop : c ∉ stop) :
    parseStep full (fuel + 1) (.atom (c :: rest) pos stop) =
      .ok ([.LITERAL c], rest, pos + 1) := by
  obtain ⟨h1, h2, h3, h4, h5, h6, h7, h8⟩ := hns
  simp only [parseStep]
  rw [if_neg hstop, if_neg h1, if_neg h3,
    if_neg (show ¬(c = '|' ∨ c = ')' ∨ c = '*' ∨ c = '+' ∨ c = '?' ∨ c = '\x7b') by
      simp [h4, h2, h5, h6, h7, h8])]

/-- The quantifier scan consumes a digit block into `sMin`. -/
theorem quantScan_min_digits (full : List Char) :
    ∀ (ds : List Char) (tail : List Char) (pos : Nat) (sMin : List Char),
      (∀ d ∈ ds, d.isDigit) →
      quantScan full (ds ++ tail) pos sMin [] true false =
        quantScan full tail (pos + ds.length) (sMin ++ ds) [] true false
  | [], tail, pos, sMin, _ => by simp
  | d :: ds, tail, pos, sMin, h => by
    have hd : d.isDigit = true := h d (by simp)
    simp only [List.cons_append, quantScan]
    rw [if_neg (isDigit_ne_rbrace hd), if_neg (isDigit_ne_comma hd), if_pos hd]
    simp only [List.append_eq, if_true]
    rw [quantScan_min_digits full ds tail (pos + 1) (sMin ++ [d])
      (fun x hx => h x (by simp [hx]))]
    have hpos : pos + 1 + ds.length = pos + (d :: ds).length := by
      simp only [List.length_cons]
      omega
    rw [hpos]
    simp

/-- The quantifier scan consumes a digit block into `sMax` (after the comma). -/
theorem quantScan_max_digits (full : List Char) :
    ∀ (ds : List Char) (tail : List Char) (pos : Nat) (sMin sMax : List Char),
      (∀ d ∈ ds, d.isDigit) →
      quantScan full (ds ++ tail) pos sMin sMax false true =
        quantScan full tail (pos + ds.length) sMin (sMax ++ ds) false true
  | [], tail, pos, sMin, sMax, _ => by simp
  | d :: ds, tail, pos, sMin, sMax, h => by
    have hd : d.isDigit = true := h d (by simp)
    simp only [List.cons_append, quantScan]
    rw [if_neg (isDigit_ne_rbrace hd), if_neg (isDigit_ne_comma hd), if_pos hd]
    simp only [List.append_eq, Bool.false_eq_true, if_false]
    rw [quantScan_max_digits full ds tail (pos + 1) sMin (sMax ++ [d])
      (fun x hx => h x (by simp [hx]))]
    have hpos : pos + 1 + ds.length = pos + (d :: ds).length := by
      simp only [List.length_cons]
      omega
    rw [hpos]
    simp

/-- One-step unfolding of the `parseFactor` frame (kept as a lemma so that the
inner `parseAtom` call is not unfolded along with it). -/
theorem parseStep_factor_unfold (full : List Char) (fuel : Nat) (rem : List Char)
    (pos : Nat) (stop : List Char) :
    parseStep full (fuel + 1) (.factor rem pos stop) = (do
      let (atomRes, rem1, pos1) ← parseStep full fuel (.atom rem pos stop)
      match atomRes with
      | [] => .ok ([], rem1, pos1)
      | atomToken :: _ =>
        match rem1 with
        | [] => .ok ([atomToken], [], pos1)
        | c :: rest =>
          if c = '*' then .ok ([.REPEAT 0 none atomToken], rest, pos1 + 1)
          else if c = '+' then .ok ([.REPEAT 1 none atomToken], rest, pos1 + 1)
          else if c = '?' then .ok ([.REPEAT 0 (some 1) atomToken], rest, pos1 + 1)
          else if c = '\x7b' then do
            let quantStartPos := pos1
            let (sMin, sMax, commaFound, rem2, pos2) ← quantScan full rest (pos1 + 1) [] [] true false
            match rem2 with
            | [] => .error (reportError .UnterminatedQuantifier
                "Unterminated quantifier" full quantStartPos)
            | cc :: rest2 =>
              if cc ≠ '\x7d' then
                .error (reportError .UnterminatedQuantifier
                  "Unterminated quantifier" full quantStartPos)
              else
                if sMin = [] ∧ commaFound = false then
                  .error (reportError .EmptyQuantifier "Empty quantifier" full quantStartPos)
                else if sMin = [] ∧ commaFound = true ∧ sMax = [] then
                  .error (reportError .EmptyQuantifier "Empty quantifier \x7b,\x7d" full quantStartPos)
                else
                  let minv := if sMin ≠ [] then numVal sMin else 0
                  let maxv : Option Nat :=
                    if commaFound then (if sMax ≠ [] then some (numVal sMax) else none)
                    else some minv
                  if sMin ≠ [] ∧ sMax ≠ [] ∧ numVal sMax < minv then
                    .error (reportError .InvalidQuantifierRange
                      "Invalid quantifier range: min > max" full quantStartPos)
                  else .ok ([.REPEAT minv maxv atomToken], rest2, pos2 + 1)
          else .ok ([atomToken], c :: rest, pos1)) := rfl

/-- `parseFactor` on `c{ds}`: an exact counted quantifier. -/
theorem factor_brace_exact (full : List Char) (fuel : Nat) (c : Char) (ds rest : List Char)
    (pos : Nat) (stop : List Char) (hns : notSpecial c) (hstop : c ∉ stop)
    (hne : ds ≠ []) (hds : ∀ d ∈ ds, d.isDigit) :
    parseStep full (fuel + 2) (.factor (c :: '\x7b' :: (ds ++ '\x7d' :: rest)) pos stop) =
      .ok ([.REPEAT (numVal ds) (some (numVal ds)) (.LITERAL c)], rest,
        pos + 1 + 1 + ds.length + 1) := by
  rw [show fuel + 2 = (fuel + 1) + 1 from rfl, parseStep_factor_unfold]
  rw [atom_literal full fuel c _ pos stop hns hstop]
  rw [ebind_ok]
  dsimp only
  rw [if_neg (by decide), if_neg (by decide), if_neg (by decide), if_pos rfl]
  rw [quantScan_min_digits full ds _ _ [] hds]
  simp only [quantScan, if_pos rfl, if_true, List.nil_append]
  rw [ebind_ok]
  dsimp only
  rw [if_neg (by simp), if_neg (by simp [hne]), if_neg (by simp [hne]), if_pos hne,
    if_neg (by simp)]
  simp

/-- `parseFactor` on `c{ds,}`: a lower-bounded quantifier. -/
theorem factor_brace_min (full : List Char) (fuel : Nat) (c : Char) (ds rest : List Char)
    (pos : Nat) (stop : List Char) (hns : notSpecial c) (hstop : c ∉ stop)
    (hne : ds ≠ []) (hds : ∀ d ∈ ds, d.isDigit) :
    parseStep full (fuel + 2)
      (.factor (c :: '\x7b' :: (ds ++ ',' :: '\x7d' :: rest)) pos stop) =
      .ok ([.REPEAT (numVal ds) none (.LITERAL c)], rest,
        pos + 1 + 1 + ds.length + 1 + 1) := by
  rw [show fuel + 2 = (fuel + 1) + 1 from rfl, parseStep_factor_unfold]
  rw [atom_literal full fuel c _ pos stop hns hstop]
  rw [ebind_ok]
  dsimp only
  rw [if_neg (by decide), if_neg (by decide), if_neg (by decide), if_pos rfl]
  rw [quantScan_min_digits full ds _ _ [] hds]
  simp only [quantScan, if_pos rfl, if_true, List.nil_append, if_neg (by decide : ¬(',' = '\x7d')),
    Bool.false_eq_true, if_false]
  rw [ebind_ok]
  dsimp only
  rw [if_neg (by simp), if_neg (by simp [hne]), if_neg (by simp [hne]), if_pos hne,
    if_neg (by simp)]
  simp

/-- `parseFactor` on `c{ds1,ds2}` with `numVal ds1 ≤ numVal ds2`. -/
theorem factor_brace_min_max (full : List Char) (fuel : Nat) (c : Char)
    (ds1 ds2 rest : List Char) (pos : Nat) (stop : List Char)
    (hns : notSpecial c) (hstop : c ∉ stop)
    (hne1 : ds1 ≠ []) (hds1 : ∀ d ∈ ds1, d.isDigit)
    (hne2 : ds2 ≠ []) (hds2 : ∀ d ∈ ds2, d.isDigit)
    (hle : numVal ds1 ≤ numVal ds2) :
    parseStep full (fuel + 2)
      (.factor (c :: '\x7b' :: (ds1 ++ ',' :: (ds2 ++ '\x7d' :: rest))) pos stop) =
      .ok ([.REPEAT (numVal ds1) (some (numVal ds2)) (.LITERAL c)], rest,
        pos + 1 + 1 + ds1.length + 1 + ds2.length + 1) := by
  rw [show fuel + 2 = (fuel + 1) + 1 from rfl, parseStep_factor_unfold]
  rw [atom_literal full fuel c _ pos stop hns hstop]
  rw [ebind_ok]
  dsimp only
  rw [if_neg (by decide), if_neg (by decide), if_neg (by decide), if_pos rfl]
  rw [quantScan_min_digits full ds1 _ _ [] hds1]
  simp only [quantScan, if_pos rfl, if_true, List.nil_append, if_neg (by decide : ¬(',' = '\x7d')),
    Bool.false_eq_true, if_false]
  rw [quantScan_max_digits full ds2 _ _ ds1 [] hds2]
  simp only [quantScan, if_pos rfl, if_true, List.nil_append]
  rw [ebind_ok]
  dsimp only
  rw [if_neg (by simp), if_neg (by simp [hne1]), if_neg (by simp [hne1]), if_pos hne1,
    if_pos hne2, if_neg (by simp; omega)]
  simp

/-- `parseFactor` on `c{,ds}`: an upper-bound-only quantifier. -/
theorem factor_brace_max (full : List Char) (fuel : Nat) (c : Char) (ds rest : List Char)
    (pos : Nat) (stop : List Char) (hns : notSpecial c) (hstop : c ∉ stop)
    (hne : ds ≠ []) (hds : ∀ d ∈ ds, d.isDigit) :
    parseStep full (fuel + 2)
      (.factor (c :: '\x7b' :: ',' :: (ds ++ '\x7d' :: rest)) pos stop) =
      .ok ([.REPEAT 0 (some (numVal ds)) (.LITERAL c)], rest,
        pos + 1 + 1 + 1 + ds.length + 1) := by
  rw [show fuel + 2 = (fuel + 1) + 1 from rfl, parseStep_factor_unfold]
  rw [atom_literal full fuel c _ pos stop hns hstop]
  rw [ebind_ok]
  dsimp only
  rw [if_neg (by decide), if_neg (by decide), if_neg (by decide), if_pos rfl]
  simp only [quantScan, if_pos rfl, if_true, List.nil_append, if_neg (by decide : ¬(',' = '\x7d')),
    Bool.false_eq_true, if_false]
  rw [quantScan_max_digits full ds _ _ [] [] hds]
  simp only [quantScan, if_pos rfl, if_true, List.nil_append]
  rw [ebind_ok]
  dsimp only
  rw [if_neg (by simp), if_neg (by simp), if_neg (by simp [hne])]
  simp [hne]

/-- `parseFactor` on `c{ds1,ds3}` with `numVal ds3 < numVal ds1`: the invalid
range error. -/
theorem factor_brace_invalid_range (full : List Char) (fuel : Nat) (c : Char)
    (ds1 ds3 rest : List Char) (pos : Nat) (stop : List Char)
    (hns : notSpecial c) (hstop : c ∉ stop)
    (hne1 : ds1 ≠ []) (hds1 : ∀ d ∈ ds1, d.isDigit)
    (hne3 : ds3 ≠ []) (hds3 : ∀ d ∈ ds3, d.isDigit)
    (hlt : numVal ds3 < numVal ds1) :
    parseStep full (fuel + 2)
      (.factor (c :: '\x7b' :: (ds1 ++ ',' :: (ds3 ++ '\x7d' :: rest))) pos stop) =
      .error (reportError .InvalidQuantifierRange
        "Invalid quantifier range: min > max" full (pos + 1)) := by
  rw [show fuel + 2 = (fuel + 1) + 1 from rfl, parseStep_factor_unfold]
  rw [atom_literal full fuel c _ pos stop hns hstop]
  rw [ebind_ok]
  dsimp only
  rw [if_neg (by decide), if_neg (by decide), if_neg (by decide), if_pos rfl]
  rw [quantScan_min_digits full ds1 _ _ [] hds1]
  simp only [quantScan, if_pos rfl, if_true, List.nil_append, if_neg (by decide : ¬(',' = '\x7d')),
    Bool.false_eq_true, if_false]
  rw [quantScan_max_digits full ds3 _ _ ds1 [] hds3]
  simp only [quantScan, if_pos rfl, if_true, List.nil_append]
  rw [ebind_ok]
  dsimp only
  rw [if_neg (by simp), if_neg (by simp [hne1]), if_neg (by simp [hne1]), if_pos hne1,
    if_pos ⟨hne1, hne3, hlt⟩]

/-! ## Empty alternation operands (claim C8)

Unfold lemmas for the remaining parser frames (stated by `rfl` so that inner
calls keep a bare fuel variable and are not unfolded along), then symbolic
evaluation of `parse` on each empty-operand pattern shape. -/

/-- One-step unfolding of the `parseExpression` frame. -/
theorem parseStep_expr_unfold (full : List Char) (fuel : Nat) (rem : List Char)
    (pos : Nat) (stop : List Char) :
    parseStep full (fuel + 1) (.expr rem pos stop) = (do
      let (leftNode, rem1, pos1) ← parseStep full fuel (.term rem pos stop)
      parseStep full fuel (.exprLoop leftNode rem1 pos1 stop)) := rfl

/-- One-step unfolding of the `parseTerm` frame. -/
theorem parseStep_term_unfold (full : List Char) (fuel : Nat) (rem : List Char)
    (pos : Nat) (stop : List Char) :
    parseStep full (fuel + 1) (.term rem pos stop) =
      parseStep full fuel (.termLoop [] rem pos stop) := rfl

/-- One-step unfolding of the factor loop of `parseTerm`. -/
theorem parseStep_termLoop_unfold (full : List Char) (fuel : Nat) (acc : List Token)
    (rem : List Char) (pos : Nat) (stop : List Char) :
    parseStep full (fuel + 1) (.termLoop acc rem pos stop) =
      (match rem with
      | [] => .ok (acc, [], pos)
      | c :: rest =>
        if c ∈ stop then .ok (acc, c :: rest, pos)
        else if c = '|' then .ok (acc, c :: rest, pos)
        else do
          let (factor, rem1, pos1) ← parseStep full fuel (.factor (c :: rest) pos stop)
          match factor with
          | tok :: _ => parseStep full fuel (.termLoop (acc ++ [tok]) rem1 pos1 stop)
          | [] => .ok (acc, rem1, pos1)) := rfl

/-- One-step unfolding of the alternation loop of `parseExpression`. -/
theorem parseStep_exprLoop_unfold (full : List Char) (fuel : Nat)
    (leftNode : List Token) (rem : List Char) (pos : Nat) (stop : List Char) :
    parseStep full (fuel + 1) (.exprLoop leftNode rem pos stop) =
      (match rem with
      | [] => .ok (leftNode, [], pos)
      | c :: rest =>
        if c ∈ stop then .ok (leftNode, c :: rest, pos)
        else if c = '|' then
          if leftNode.isEmpty then
            .error (reportError .EmptyAlternationOperand
              "Alternation operator | missing left operand" full pos)
          else
            match rest with
            | [] => .error (reportError .EmptyAlternationOperand
                "Alternation operator | missing right operand" full (pos + 1))
            | c2 :: _ =>
              if c2 ∈ stop ∨ c2 = '|' then
                .error (reportError .EmptyAlternationOperand
                  "Alternation operator | missing right operand" full (pos + 1))
              else do
                let (rightNode, rem2, pos2) ← parseStep full fuel (.term rest (pos + 1) stop)
                if rightNode.isEmpty then
                  .error (reportError .EmptyAlternationOperand
                    "Alternation operator | has empty right operand" full pos2)
                else parseStep full fuel (.exprLoop [Token.OR leftNode rightNode] rem2 pos2 stop)
        else .ok (leftNode, c :: rest, pos)) := rfl

/-- The factor loop stops at a stop character or at an alternation bar. -/
theorem termLoop_stop (full : List Char) (fuel : Nat) (acc : List Token) (c : Char)
    (rest : List Char) (pos : Nat) (stop : List Char) (h : c ∈ stop ∨ c = '|') :
    parseStep full (fuel + 1) (.termLoop acc (c :: rest) pos stop) =
      .ok (acc, c :: rest, pos) := by
  rw [parseStep_termLoop_unfold]
  dsimp only
  rcases h with h | h
  · rw [if_pos h]
  · by_cases hs : c ∈ stop
    · rw [if_pos hs]
    · rw [if_neg hs, if_pos h]

/-- `parseTerm` on input starting with a stop character or a bar. -/
theorem term_stop (full : List Char) (fuel : Nat) (c : Char) (rest : List Char)
    (pos : Nat) (stop : List Char) (h : c ∈ stop ∨ c = '|') :
    parseStep full (fuel + 2) (.term (c :: rest) pos stop) =
      .ok ([], c :: rest, pos) := by
  rw [show fuel + 2 = (fuel + 1) + 1 from rfl, parseStep_term_unfold]
  exact termLoop_stop full fuel [] c rest pos stop h

/-- `parseFactor` on an ordinary literal not followed by a quantifier. -/
theorem factor_literal_plain (full : List Char) (fuel : Nat) (a c0 : Char)
    (rest : List Char) (pos : Nat) (stop : List Char) (hns : notSpecial a)
    (hstop : a ∉ stop)
    (hq : c0 ≠ '*' ∧ c0 ≠ '+' ∧ c0 ≠ '?' ∧ c0 ≠ '\x7b') :
    parseStep full (fuel + 2) (.factor (a :: c0 :: rest) pos stop) =
      .ok ([.LITERAL a], c0 :: rest, pos + 1) := by
  rw [show fuel + 2 = (fuel + 1) + 1 from rfl, parseStep_factor_unfold]
  rw [atom_literal full fuel a _ pos stop hns hstop, ebind_ok]
  dsimp only
  rw [if_neg hq.1, if_neg hq.2.1, if_neg hq.2.2.1, if_neg hq.2.2.2]

/-- The factor loop collects an ordinary literal and stops at a following
stop character or bar. -/
theorem termLoop_literal_then (full : List Char) (fuel : Nat) (acc : List Token)
    (a c0 : Char) (rest : List Char) (pos : Nat) (stop : List Char)
    (hns : notSpecial a) (hstop : a ∉ stop) (hc0 : c0 ∈ stop ∨ c0 = '|')
    (hq : c0 ≠ '*' ∧ c0 ≠ '+' ∧ c0 ≠ '?' ∧ c0 ≠ '\x7b') :
    parseStep full (fuel + 3) (.termLoop acc (a :: c0 :: rest) pos stop) =
      .ok (acc ++ [.LITERAL a], c0 :: rest, pos + 1) := by
  rw [show fuel + 3 = (fuel + 2) + 1 from rfl, parseStep_termLoop_unfold]
  dsimp only
  rw [if_neg hstop, if_neg hns.2.2.2.1]
  rw [factor_literal_plain full fuel a c0 rest pos stop hns hstop hq, ebind_ok]
  dsimp only
  exact termLoop_stop full (fuel + 1) (acc ++ [.LITERAL a]) c0 rest (pos + 1) stop hc0

/-- `parseTerm` on an ordinary literal followed by a stop character or bar. -/
theorem term_literal_then (full : List Char) (fuel : Nat) (a c0 : Char)
    (rest : List Char) (pos : Nat) (stop : List Char)
    (hns : notSpecial a) (hstop : a ∉ stop) (hc0 : c0 ∈ stop ∨ c0 = '|')
    (hq : c0 ≠ '*' ∧ c0 ≠ '+' ∧ c0 ≠ '?' ∧ c0 ≠ '\x7b') :
    parseStep full (fuel + 4) (.term (a :: c0 :: rest) pos stop) =
      .ok ([.LITERAL a], c0 :: rest, pos + 1) := by
  rw [show fuel + 4 = (fuel + 3) + 1 from rfl, parseStep_term_unfold]
  rw [termLoop_literal_then full fuel [] a c0 rest pos stop hns hstop hc0 hq]
  simp

/-- The alternation loop rejects a bar with no left operand. -/
theorem exprLoop_bar_empty_left (full : List Char) (fuel : Nat) (rest : List Char)
    (pos : Nat) (stop : List Char) (hstop : '|' ∉ stop) :
    parseStep full (fuel + 1) (.exprLoop [] ('|' :: rest) pos stop) =
      .error (reportError .EmptyAlternationOperand
        "Alternation operator | missing left operand" full pos) := by
  rw [parseStep_exprLoop_unfold]
  dsimp only
  rw [if_neg hstop, if_pos rfl, if_pos (show ([] : List Token).isEmpty = true from rfl)]

/-- The alternation loop rejects a trailing bar. -/
theorem exprLoop_bar_no_right (full : List Char) (fuel : Nat) (t : Token)
    (ts : List Token) (pos : Nat) (stop : List Char) (hstop : '|' ∉ stop) :
    parseStep full (fuel + 1) (.exprLoop (t :: ts) ['|'] pos stop) =
      .error (reportError .EmptyAlternationOperand
        "Alternation operator | missing right operand" full (pos + 1)) := by
  rw [parseStep_exprLoop_unfold]
  dsimp only
  rw [if_neg hstop, if_pos rfl, if_neg (by simp)]

/-- The alternation loop rejects a bar followed by a stop character or a
second bar. -/
theorem exprLoop_bar_bad_right (full : List Char) (fuel : Nat) (t : Token)
    (ts : List Token) (c2 : Char) (rest : List Char) (pos : Nat) (stop : List Char)
    (hstop : '|' ∉ stop) (hc2 : c2 ∈ stop ∨ c2 = '|') :
    parseStep full (fuel + 1) (.exprLoop (t :: ts) ('|' :: c2 :: rest) pos stop) =
      .error (reportError .EmptyAlternationOperand
        "Alternation operator | missing right operand" full (pos + 1)) := by
  rw [parseStep_exprLoop_unfold]
  dsimp only
  rw [if_neg hstop, if_pos rfl, if_neg (by simp), if_pos hc2]

/-- `parseExpression` on input whose first character is a bar. -/
theorem expr_leading_bar (full : List Char) (fuel : Nat) (rest : List Char)
    (pos : Nat) (stop : List Char) (hstop : '|' ∉ stop) :
    parseStep full (fuel + 3) (.expr ('|' :: rest) pos stop) =
      .error (reportError .EmptyAlternationOperand
        "Alternation operator | missing left operand" full pos) := by
  rw [show fuel + 3 = (fuel + 2) + 1 from rfl, parseStep_expr_unfold]
  rw [term_stop full fuel '|' rest pos stop (Or.inr rfl), ebind_ok]
  dsimp only
  rw [show fuel + 2 = (fuel + 1) + 1 from rfl]
  exact exprLoop_bar_empty_left full fuel rest pos stop hstop

/-- `parseExpression` on a literal followed by a trailing bar. -/
theorem expr_trailing_bar (full : List Char) (fuel : Nat) (a : Char)
    (pos : Nat) (stop : List Char) (hns : notSpecial a) (hastop : a ∉ stop)
    (hstop : '|' ∉ stop) :
    parseStep full (fuel + 5) (.expr [a, '|'] pos stop) =
      .error (reportError .EmptyAlternationOperand
        "Alternation operator | missing right operand" full (pos + 1 + 1)) := by
  rw [show fuel + 5 = (fuel + 4) + 1 from rfl, parseStep_expr_unfold]
  rw [term_literal_then full fuel a '|' [] pos stop hns hastop (Or.inr rfl)
    (by refine ⟨?_, ?_, ?_, ?_⟩ <;> decide), ebind_ok]
  dsimp only
  rw [show fuel + 4 = (fuel + 3) + 1 from rfl]
  exact exprLoop_bar_no_right full (fuel + 3) _ _ (pos + 1) stop hstop

/-- `parseExpression` on a literal followed by a bar whose right side starts
with a stop character or a second bar. -/
theorem expr_bar_bad_right (full : List Char) (fuel : Nat) (a c2 : Char)
    (rest : List Char) (pos : Nat) (stop : List Char) (hns : notSpecial a)
    (hastop : a ∉ stop) (hstop : '|' ∉ stop) (hc2 : c2 ∈ stop ∨ c2 = '|') :
    parseStep full (fuel + 5) (.expr (a :: '|' :: c2 :: rest) pos stop) =
      .error (reportError .EmptyAlternationOperand
        "Alternation operator | missing right operand" full (pos + 1 + 1)) := by
  rw [show fuel + 5 = (fuel + 4) + 1 from rfl, parseStep_expr_unfold]
  rw [term_literal_then full fuel a '|' (c2 :: rest) pos stop hns hastop (Or.inr rfl)
    (by refine ⟨?_, ?_, ?_, ?_⟩ <;> decide), ebind_ok]
  dsimp only
  rw [show fuel + 4 = (fuel + 3) + 1 from rfl]
  exact exprLoop_bar_bad_right full (fuel + 3) _ _ c2 rest (pos + 1) stop hstop hc2

/-- An atom error propagates through `parseFactor`. -/
theorem factor_err {full : List Char} {fuel : Nat} {rem : List Char} {pos : Nat}
    {stop : List Char} {e : ParseError}
    (h : parseStep full fuel (.atom rem pos stop) = .error e) :
    parseStep full (fuel + 1) (.factor rem pos stop) = .error e := by
  rw [parseStep_factor_unfold, h, ebind_err]

/-- A factor error propagates through the factor loop. -/
theorem termLoop_err {full : List Char} {fuel : Nat} {acc : List Token} {c : Char}
    {rest : List Char} {pos : Nat} {stop : List Char} {e : ParseError}
    (hc : c ∉ stop) (hbar : c ≠ '|')
    (h : parseStep full fuel (.factor (c :: rest) pos stop) = .error e) :
    parseStep full (fuel + 1) (.termLoop acc (c :: rest) pos stop) = .error e := by
  rw [parseStep_termLoop_unfold]
  dsimp only
  rw [if_neg hc, if_neg hbar, h, ebind_err]

/-- A factor-loop error propagates through `parseTerm`. -/
theorem term_err {full : List Char} {fuel : Nat} {rem : List Char} {pos : Nat}
    {stop : List Char} {e : ParseError}
    (h : parseStep full fuel (.termLoop [] rem pos stop) = .error e) :
    parseStep full (fuel + 1) (.term rem pos stop) = .error e := by
  rw [parseStep_term_unfold]
  exact h

/-- A term error propagates through `parseExpression`. -/
theorem expr_err {full : List Char} {fuel : Nat} {rem : List Char} {pos : Nat}
    {stop : List Char} {e : ParseError}
    (h : parseStep full fuel (.term rem pos stop) = .error e) :
    parseStep full (fuel + 1) (.expr rem pos stop) = .error e := by
  rw [parseStep_expr_unfold, h, ebind_err]

/-- A group-body error propagates through `parseAtom`. -/
theorem atom_lparen_err {full : List Char} {fuel : Nat} {rest : List Char} {pos : Nat}
    {stop : List Char} {e : ParseError} (hstop : '(' ∉ stop)
    (h : parseStep full fuel (.expr rest (pos + 1) [')']) = .error e) :
    parseStep full (fuel + 1) (.atom ('(' :: rest) pos stop) = .error e := by
  simp only [parseStep]
  rw [if_neg hstop]
  simp only [if_true]
  rw [h, ebind_err]

/-- A leading bar fails the whole parse: `|...`. -/
theorem parse_err_leading_bar (rest : List Char) :
    parse ('|' :: rest) = .error (reportError .EmptyAlternationOperand
      "Alternation operator | missing left operand" ('|' :: rest) 0) := by
  unfold parse parseExpression
  rw [show parseFuel ('|' :: rest) = (4 * rest.length + 17) + 3 by
    simp only [parseFuel, List.length_cons]; ring]
  rw [expr_leading_bar _ _ rest 0 [] (List.not_mem_nil _), ebind_err]

/-- A trailing bar fails the whole parse: `a|`. -/
theorem parse_err_trailing_bar (a : Char) (hns : notSpecial a) :
    parse [a, '|'] = .error (reportError .EmptyAlternationOperand
      "Alternation operator | missing right operand" [a, '|'] 2) := by
  unfold parse parseExpression
  rw [show parseFuel [a, '|'] = 19 + 5 by simp [parseFuel]]
  rw [expr_trailing_bar _ 19 a 0 [] hns (List.not_mem_nil _) (List.not_mem_nil _), ebind_err]

/-- Two adjacent bars fail the whole parse: `a||...`. -/
theorem parse_err_double_bar (a : Char) (rest : List Char) (hns : notSpecial a) :
    parse (a :: '|' :: '|' :: rest) = .error (reportError .EmptyAlternationOperand
      "Alternation operator | missing right operand" (a :: '|' :: '|' :: rest) 2) := by
  unfold parse parseExpression
  rw [show parseFuel (a :: '|' :: '|' :: rest) = (4 * rest.length + 23) + 5 by
    simp only [parseFuel, List.length_cons]; ring]
  rw [expr_bar_bad_right _ _ a '|' rest 0 [] hns (List.not_mem_nil _) (List.not_mem_nil _)
    (Or.inr rfl), ebind_err]

/-- A bar right after a group opening fails the whole parse: `(|...`. -/
theorem parse_err_group_leading_bar (rest : List Char) :
    parse ('(' :: '|' :: rest) = .error (reportError .EmptyAlternationOperand
      "Alternation operator | missing left operand" ('(' :: '|' :: rest) 1) := by
  unfold parse parseExpression
  rw [show parseFuel ('(' :: '|' :: rest) = 4 * rest.length + 16 + 3 + 1 + 1 + 1 + 1 + 1 by
    simp only [parseFuel, List.length_cons]; ring]
  have h3 : parseStep ('(' :: '|' :: rest) ((4 * rest.length + 16) + 3)
      (.expr ('|' :: rest) (0 + 1) [')']) =
      .error (reportError .EmptyAlternationOperand
        "Alternation operator | missing left operand" ('(' :: '|' :: rest) 1) :=
    expr_leading_bar _ (4 * rest.length + 16) rest 1 [')'] (by decide)
  have h4 := atom_lparen_err (List.not_mem_nil _) h3
  have h5 := factor_err h4
  have h6 := @termLoop_err _ _ [] '(' _ 0 [] _ (List.not_mem_nil _) (by decide) h5
  have h7 := term_err h6
  have h8 := expr_err h7
  rw [h8, ebind_err]

/-- A bar right before a group closing fails the whole parse: `(a|)`. -/
theorem parse_err_group_trailing_bar (a : Char) (hns : notSpecial a) :
    parse ['(', a, '|', ')'] = .error (reportError .EmptyAlternationOperand
      "Alternation operator | missing right operand" ['(', a, '|', ')'] 3) := by
  unfold parse parseExpression
  rw [show parseFuel ['(', a, '|', ')'] = 22 + 5 + 1 + 1 + 1 + 1 + 1 by simp [parseFuel]]
  have h5 : parseStep ['(', a, '|', ')'] (22 + 5) (.expr [a, '|', ')'] (0 + 1) [')']) =
      .error (reportError .EmptyAlternationOperand
        "Alternation operator | missing right operand" ['(', a, '|', ')'] 3) :=
    expr_bar_bad_right _ 22 a ')' [] 1 [')'] hns
      (by simp [hns.2.1]) (by simp) (Or.inl (by simp))
  have h6 := atom_lparen_err (List.not_mem_nil _) h5
  have h7 := factor_err h6
  have h8 := @termLoop_err _ _ [] '(' _ 0 [] _ (List.not_mem_nil _) (by decide) h7
  have h9 := term_err h8
  have h10 := expr_err h9
  rw [h10, ebind_err]

theorem toNat_ofNat_valid {n : Nat} (h : n.isValidChar) : (Char.ofNat n).toNat = n := by
  simp only [Char.ofNat, dif_pos h, Char.ofNatAux, Char.toNat, UInt32.toNat]
  exact BitVec.toNat_ofNatLt _ _

/-- Membership in the expanded range, for ranges below the surrogate block
(the claim's code-point reading). -/
theorem mem_rangeChars {lo hi : Char} {c : Char} (hhi : hi.toNat < 55296) :
    c ∈ rangeChars lo hi ↔ lo.toNat ≤ c.toNat ∧ c.toNat ≤ hi.toNat := by
  unfold rangeChars
  constructor
  · rintro hc
    obtain ⟨i, hi2, rfl⟩ := List.mem_map.mp hc
    rw [List.mem_range] at hi2
    have hval : (lo.toNat + i).isValidChar := Or.inl (by omega)
    rw [toNat_ofNat_valid hval]
    omega
  · rintro ⟨h1, h2⟩
    refine List.mem_map.mpr ⟨c.toNat - lo.toNat, List.mem_range.mpr (by omega), ?_⟩
    rw [show lo.toNat + (c.toNat - lo.toNat) = c.toNat by omega]
    exact Char.ofNat_toNat c

theorem mem_dedupFirstAux {x : Char} :
    ∀ (seen l : List Char), x ∈ dedupFirstAux seen l ↔ x ∈ l ∧ x ∉ seen
  | seen, [] => by simp [dedupFirstAux]
  | seen, c :: rest => by
    by_cases hc : c ∈ seen
    · rw [dedupFirstAux, if_pos hc, mem_dedupFirstAux seen rest]
      constructor
      · rintro ⟨h1, h2⟩
        exact ⟨List.mem_cons_of_mem _ h1, h2⟩
      · rintro ⟨h1, h2⟩
        rcases List.mem_cons.mp h1 with rfl | h1
        · exact absurd hc h2
        · exact ⟨h1, h2⟩
    · rw [dedupFirstAux, if_neg hc]
      rw [List.mem_cons, mem_dedupFirstAux (seen ++ [c]) rest]
      constructor
      · rintro (rfl | ⟨h1, h2⟩)
        · exact ⟨List.mem_cons_self _ _, hc⟩
        · simp only [List.mem_append, List.mem_singleton] at h2
          push_neg at h2
          exact ⟨List.mem_cons_of_mem _ h1, h2.1⟩
      · rintro ⟨h1, h2⟩
        rcases List.mem_cons.mp h1 with rfl | h1
        · exact Or.inl rfl
        · by_cases hxc : x = c
          · exact Or.inl hxc
          · exact Or.inr ⟨h1, by simp [h2, hxc]⟩

theorem dedupFirstAux_nodup : ∀ (seen l : List Char), (dedupFirstAux seen l).Nodup
  | seen, [] => by simp [dedupFirstAux]
  | seen, c :: rest => by
    by_cases hc : c ∈ seen
    · rw [dedupFirstAux, if_pos hc]
      exact dedupFirstAux_nodup seen rest
    · rw [dedupFirstAux, if_neg hc]
      refine List.nodup_cons.mpr ⟨?_, dedupFirstAux_nodup (seen ++ [c]) rest⟩
      intro hmem
      exact absurd (by simp : c ∈ seen ++ [c]) (mem_dedupFirstAux _ _ |>.mp hmem).2

/-- `[...new Set(l)]` keeps exactly the members of `l`, each once. -/
theorem mem_dedupFirst {x : Char} {l : List Char} : x ∈ dedupFirst l ↔ x ∈ l := by
  rw [dedupFirst, mem_dedupFirstAux]
  simp

theorem dedupFirst_nodup (l : List Char) : (dedupFirst l).Nodup :=
  dedupFirstAux_nodup [] l

/-- The bracket scanning loop agrees with the spec-level scan `classSpec` on a
class body that stops exactly at the closing bracket. -/
theorem bracketScan_classSpec (full : List Char) :
    ∀ (fuel : Nat) (cs rest : List Char) (pos : Nat) (lits : List Char),
      ']' ∉ cs → cs.length < fuel →
      (∀ L, classSpec cs = some L →
        bracketScan full fuel (cs ++ ']' :: rest) pos lits =
          .ok (lits ++ L, ']' :: rest, pos + cs.length)) ∧
      (classSpec cs = none →
        ∃ m p2, bracketScan full fuel (cs ++ ']' :: rest) pos lits =
          .error (reportError .InvalidRange m full p2)) := by
  intro fuel
  induction fuel with
  | zero =>
    intro cs rest pos lits hni hlen
    omega
  | succ fuel ih =>
    intro cs rest pos lits hni hlen
    match cs with
    | [] =>
      constructor
      · intro L hL
        simp only [classSpec, Option.some.injEq] at hL
        subst hL
        simp [bracketScan]
      · intro h
        simp [classSpec] at h
    | x :: cs2 =>
      have hx : x ≠ ']' := fun he => hni (by simp [he])
      have hni2 : ']' ∉ cs2 := fun h => hni (List.mem_cons_of_mem _ h)
      match cs2 with
      | [] =>
        have hstep : bracketScan full (fuel + 1) ((x :: []) ++ ']' :: rest) pos lits =
            bracketScan full fuel ([] ++ ']' :: rest) (pos + 1) (lits ++ [x]) := by
          match rest with
          | [] => simp [bracketScan, hx]
          | r1 :: r2 => simp [bracketScan, hx]
        have hIH := ih [] rest (pos + 1) (lits ++ [x]) (by simp)
          (by simp only [List.length_cons, List.length_nil] at hlen ⊢; omega)
        constructor
        · intro L hL
          simp [classSpec] at hL
          subst hL
          rw [hstep, hIH.1 [] rfl]
          simp
        · intro h
          simp [classSpec] at h
      | y :: cs3 =>
        have hy2 : y ≠ ']' := fun he => hni (by simp [he])
        have hni3 : ']' ∉ cs3 := fun h => hni2 (List.mem_cons_of_mem _ h)
        match cs3 with
        | [] =>
          have hstep : bracketScan full (fuel + 1) ((x :: y :: []) ++ ']' :: rest) pos lits =
              bracketScan full fuel ((y :: []) ++ ']' :: rest) (pos + 1) (lits ++ [x]) := by
            simp [bracketScan, hx]
          have hIH := ih [y] rest (pos + 1) (lits ++ [x])
            (by simp only [List.mem_singleton]; exact fun h => hy2 h.symm)
            (by simp only [List.length_cons, List.length_nil] at hlen ⊢; omega)
          constructor
          · intro L hL
            simp [classSpec] at hL
            subst hL
            rw [hstep, hIH.1 [y] (by simp [classSpec])]
            simp
          · intro h
            simp [classSpec] at h
        | z :: cs4 =>
          have hz : z ≠ ']' := fun he => hni3 (by simp [he])
          have hni4 : ']' ∉ cs4 := fun h => hni3 (List.mem_cons_of_mem _ h)
          have hlen4 : cs4.length < fuel := by
            simp only [List.length_cons] at hlen
            omega
          by_cases hy : y = '-'
          · by_cases hgt : x.toNat > z.toNat
            · constructor
              · intro L hL
                rw [classSpec, if_pos ⟨hy, hz⟩, if_pos hgt] at hL
                exact absurd hL (by simp)
              · intro _
                subst hy
                refine ⟨s!"Invalid range {x}-{z} in character class", pos, ?_⟩
                simp [bracketScan, hx, hz, hgt]
            · have hIH := ih cs4 rest (pos + 3) (lits ++ rangeChars x z) hni4 hlen4
              subst hy
              have hstep : bracketScan full (fuel + 1)
                  ((x :: '-' :: z :: cs4) ++ ']' :: rest) pos lits =
                  bracketScan full fuel (cs4 ++ ']' :: rest) (pos + 3)
                    (lits ++ rangeChars x z) := by
                simp [bracketScan, hx, hz, hgt]
              constructor
              · intro L hL
                rw [classSpec, if_pos ⟨rfl, hz⟩, if_neg hgt] at hL
                obtain ⟨L2, hL2, rfl⟩ := Option.map_eq_some.mp hL
                rw [hstep, hIH.1 L2 hL2]
                simp only [Except.ok.injEq, Prod.mk.injEq, List.append_assoc,
                  List.length_cons]
                exact ⟨trivial, trivial, by omega⟩
              · intro h
                rw [classSpec, if_pos ⟨rfl, hz⟩, if_neg hgt] at h
                rw [Option.map_eq_none'] at h
                obtain ⟨m, p2, hrun⟩ := hIH.2 h
                exact ⟨m, p2, by rw [hstep, hrun]⟩
          · have hstep : bracketScan full (fuel + 1)
                ((x :: y :: z :: cs4) ++ ']' :: rest) pos lits =
                bracketScan full fuel ((y :: z :: cs4) ++ ']' :: rest) (pos + 1)
                  (lits ++ [x]) := by
              simp [bracketScan, hx, hy]
            have hIH := ih (y :: z :: cs4) rest (pos + 1) (lits ++ [x])
              (by
                simp only [List.mem_cons]
                push_neg
                exact ⟨fun h => hy2 h.symm, fun h => hz h.symm, fun h => hni4 h⟩)
              (by
                simp only [List.length_cons] at hlen ⊢
                omega)
            constructor
            · intro L hL
              rw [classSpec, if_neg (by simp [hy])] at hL
              obtain ⟨L2, hL2, rfl⟩ := Option.map_eq_some.mp hL
              rw [hstep, hIH.1 L2 hL2]
              simp only [Except.ok.injEq, Prod.mk.injEq, List.append_assoc,
                List.singleton_append, List.length_cons]
              exact ⟨trivial, trivial, by omega⟩
            · intro h
              rw [classSpec, if_neg (by simp [hy])] at h
              rw [Option.map_eq_none'] at h
              obtain ⟨m, p2, hrun⟩ := hIH.2 h
              exact ⟨m, p2, by rw [hstep, hrun]⟩

/-- `parseAtom` on a full character class `[cs]`: the accepted-class result. -/
theorem atom_bracket (full : List Char) (fuel : Nat) (cs rest : List Char) (pos : Nat)
    (stop : List Char) (L : List Char) (hstop : '[' ∉ stop) (hni : ']' ∉ cs)
    (hL : classSpec cs = some L) (hne : L ≠ []) :
    parseStep full (fuel + 1) (.atom ('[' :: (cs ++ ']' :: rest)) pos stop) =
      .ok ([.BRACKET (dedupFirst L)], rest, pos + 1 + cs.length + 1) := by
  simp only [parseStep]
  rw [if_neg hstop, if_neg (by decide : ¬('[' = '(')), if_pos (trivial : True)]
  rw [(bracketScan_classSpec full ((cs ++ ']' :: rest).length + 1) cs rest (pos + 1) []
    hni (by simp only [List.length_append, List.length_cons]; omega)).1 L hL]
  rw [ebind_ok]
  simp only [List.nil_append]
  rw [if_pos (trivial : True), if_neg hne]

/-! ## Concrete automata for the algebraic claims (C5, C6) -/

theorem simGo_nil (A : Arena) (S : List Nat) :
    simGo A S [] = decide (∃ s ∈ S, (getState A s).isTerminal = true) := rfl

theorem simGo_cons (A : Arena) (S : List Nat) (c : Char) (cs : List Char) :
    simGo A S (c :: cs) =
      (if stepChar A S c = [] then false
       else simGo A (epsilonClosure A (stepChar A S c)) cs) := rfl

theorem lookup_eq_none {l : List (Char × List Nat)} {c : Char}
    (h : ∀ kv ∈ l, kv.1 ≠ c) : l.lookup c = none := by
  induction l with
  | nil => rfl
  | cons kv rest ih =>
    have hne : (c == kv.1) = false :=
      beq_eq_false_iff_ne.mpr (fun he => h kv (by simp) he.symm)
    rw [List.lookup, hne]
    exact ih (fun kv2 h2 => h kv2 (List.mem_cons_of_mem _ h2))

/-- `state.transitions[c]` is empty when every key of every current state
avoids `c` (stated through a key list `K`). -/
theorem stepChar_nil_keys (A : Arena) (S : List Nat) (c : Char) (K : List Char)
    (hkeys : ∀ s ∈ S, ∀ kv ∈ (getState A s).transitions, kv.1 ∈ K) (hc : c ∉ K) :
    stepChar A S c = [] := by
  unfold stepChar
  have main : ∀ (T : List Nat) (acc : List Nat),
      (∀ s ∈ T, ∀ kv ∈ (getState A s).transitions, kv.1 ∈ K) →
      T.foldl (fun acc s => (transLookup A s c).foldl addUnique acc) acc = acc := by
    intro T
    induction T with
    | nil => intro acc _; rfl
    | cons s T ih =>
      intro acc hT
      have hl : transLookup A s c = [] := by
        unfold transLookup
        rw [lookup_eq_none (fun kv hkv heq => hc (by rw [← heq]; exact hT s (by simp) kv hkv))]
      rw [List.foldl_cons, hl]
      exact ih acc (fun s2 h2 => hT s2 (List.mem_cons_of_mem _ h2))
  exact main S [] hkeys

/-- `match` unfolded on a successfully parsed and compiled pattern. -/
theorem matchRun_eq_sim {p : List Char} {ts : List Token} {A : Arena} {s : Nat}
    (h1 : parse p = .ok ts) (h2 : buildNfa (compileFuel ts) ts = some (A, s))
    (input : List Char) : matchRun p input = simulateNfaIterative A s input := by
  unfold matchRun
  rw [h1]
  dsimp only
  rw [h2]

theorem parse_c5p1 : parse ['(', 'a', '|', 'b', ')', '|', 'c'] = .ok c5T1 := rfl

theorem parse_c5p2 : parse ['a', '|', '(', 'b', '|', 'c', ')'] = .ok c5T2 := rfl

theorem parse_c5p3 : parse ['c', '|', 'b', '|', 'a'] = .ok c5T3 := rfl

theorem build_c5T1 : buildNfa (compileFuel c5T1) c5T1 = some (a5A1, 0) := rfl

theorem build_c5T2 : buildNfa (compileFuel c5T2) c5T2 = some (a5A2, 0) := rfl

theorem build_c5T3 : buildNfa (compileFuel c5T3) c5T3 = some (a5A3, 0) := rfl

/-- Language of the `(a|b)|c` automaton. -/
theorem lang_or1 (x : List Char) :
    simulateNfaIterative a5A1 0 x = true ↔ (x = ['a'] ∨ x = ['b'] ∨ x = ['c']) := by
  unfold simulateNfaIterative
  rw [show epsilonClosure a5A1 [0] = [0, 2, 10, 4, 6, 8] from rfl]
  match x with
  | [] => decide
  | c :: cs =>
    by_cases hca : c = 'a'
    · subst hca
      rw [simGo_cons, show stepChar a5A1 [0, 2, 10, 4, 6, 8] 'a' = [7] from rfl,
        if_neg (by decide), show epsilonClosure a5A1 [7] = [7, 5, 3, 1] from rfl]
      match cs with
      | [] => decide
      | c2 :: cs2 =>
        rw [simGo_cons, stepChar_nil_keys a5A1 [7, 5, 3, 1] c2 [] (by decide)
          (List.not_mem_nil c2), if_pos rfl]
        simp
    · by_cases hcb : c = 'b'
      · subst hcb
        rw [simGo_cons, show stepChar a5A1 [0, 2, 10, 4, 6, 8] 'b' = [9] from rfl,
          if_neg (by decide), show epsilonClosure a5A1 [9] = [9, 5, 3, 1] from rfl]
        match cs with
        | [] => decide
        | c2 :: cs2 =>
          rw [simGo_cons, stepChar_nil_keys a5A1 [9, 5, 3, 1] c2 [] (by decide)
            (List.not_mem_nil c2), if_pos rfl]
          simp
      · by_cases hcc : c = 'c'
        · subst hcc
          rw [simGo_cons, show stepChar a5A1 [0, 2, 10, 4, 6, 8] 'c' = [11] from rfl,
            if_neg (by decide), show epsilonClosure a5A1 [11] = [11, 1] from rfl]
          match cs with
          | [] => decide
          | c2 :: cs2 =>
            rw [simGo_cons, stepChar_nil_keys a5A1 [11, 1] c2 [] (by decide)
              (List.not_mem_nil c2), if_pos rfl]
            simp
        · rw [simGo_cons, stepChar_nil_keys a5A1 [0, 2, 10, 4, 6, 8] c ['a', 'b', 'c']
            (by decide) (by simp [hca, hcb, hcc]), if_pos rfl]
          simp [hca, hcb, hcc]

/-- Language of the `a|(b|c)` automaton. -/
theorem lang_or2 (x : List Char) :
    simulateNfaIterative a5A2 0 x = true ↔ (x = ['a'] ∨ x = ['b'] ∨ x = ['c']) := by
  unfold simulateNfaIterative
  rw [show epsilonClosure a5A2 [0] = [0, 2, 4, 6, 8, 10] from rfl]
  match x with
  | [] => decide
  | c :: cs =>
    by_cases hca : c = 'a'
    · subst hca
      rw [simGo_cons, show stepChar a5A2 [0, 2, 4, 6, 8, 10] 'a' = [3] from rfl,
        if_neg (by decide), show epsilonClosure a5A2 [3] = [3, 1] from rfl]
      match cs with
      | [] => decide
      | c2 :: cs2 =>
        rw [simGo_cons, stepChar_nil_keys a5A2 [3, 1] c2 [] (by decide)
          (List.not_mem_nil c2), if_pos rfl]
        simp
    · by_cases hcb : c = 'b'
      · subst hcb
        rw [simGo_cons, show stepChar a5A2 [0, 2, 4, 6, 8, 10] 'b' = [9] from rfl,
          if_neg (by decide), show epsilonClosure a5A2 [9] = [9, 7, 5, 1] from rfl]
        match cs with
        | [] => decide
        | c2 :: cs2 =>
          rw [simGo_cons, stepChar_nil_keys a5A2 [9, 7, 5, 1] c2 [] (by decide)
            (List.not_mem_nil c2), if_pos rfl]
          simp
      · by_cases hcc : c = 'c'
        · subst hcc
          rw [simGo_cons, show stepChar a5A2 [0, 2, 4, 6, 8, 10] 'c' = [11] from rfl,
            if_neg (by decide), show epsilonClosure a5A2 [11] = [11, 7, 5, 1] from rfl]
          match cs with
          | [] => decide
          | c2 :: cs2 =>
            rw [simGo_cons, stepChar_nil_keys a5A2 [11, 7, 5, 1] c2 [] (by decide)
              (List.not_mem_nil c2), if_pos rfl]
            simp
        · rw [simGo_cons, stepChar_nil_keys a5A2 [0, 2, 4, 6, 8, 10] c ['a', 'b', 'c']
            (by decide) (by simp [hca, hcb, hcc]), if_pos rfl]
          simp [hca, hcb, hcc]

/-- Language of the `c|b|a` automaton. -/
theorem lang_or3 (x : List Char) :
    simulateNfaIterative a5A3 0 x = true ↔ (x = ['a'] ∨ x = ['b'] ∨ x = ['c']) := by
  unfold simulateNfaIterative
  rw [show epsilonClosure a5A3 [0] = [0, 2, 8, 4, 6] from rfl]
  match x with
  | [] => decide
  | c :: cs =>
    by_cases hca : c = 'a'
    · subst hca
      rw [simGo_cons, show stepChar a5A3 [0, 2, 8, 4, 6] 'a' = [9] from rfl,
        if_neg (by decide), show epsilonClosure a5A3 [9] = [9, 1] from rfl]
      match cs with
      | [] => decide
      | c2 :: cs2 =>
        rw [simGo_cons, stepChar_nil_keys a5A3 [9, 1] c2 [] (by decide)
          (List.not_mem_nil c2), if_pos rfl]
        simp
    · by_cases hcb : c = 'b'
      · subst hcb
        rw [simGo_cons, show stepChar a5A3 [0, 2, 8, 4, 6] 'b' = [7] from rfl,
          if_neg (by decide), show epsilonClosure a5A3 [7] = [7, 3, 1] from rfl]
        match cs with
        | [] => decide
        | c2 :: cs2 =>
          rw [simGo_cons, stepChar_nil_keys a5A3 [7, 3, 1] c2 [] (by decide)
            (List.not_mem_nil c2), if_pos rfl]
          simp
      · by_cases hcc : c = 'c'
        · subst hcc
          rw [simGo_cons, show stepChar a5A3 [0, 2, 8, 4, 6] 'c' = [5] from rfl,
            if_neg (by decide), show epsilonClosure a5A3 [5] = [5, 3, 1] from rfl]
          match cs with
          | [] => decide
          | c2 :: cs2 =>
            rw [simGo_cons, stepChar_nil_keys a5A3 [5, 3, 1] c2 [] (by decide)
              (List.not_mem_nil c2), if_pos rfl]
            simp
        · rw [simGo_cons, stepChar_nil_keys a5A3 [0, 2, 8, 4, 6] c ['a', 'b', 'c']
            (by decide) (by simp [hca, hcb, hcc]), if_pos rfl]
          simp [hca, hcb, hcc]

theorem parse_c6p1 : parse ['(', 'a', '*', ')', '*'] = .ok c6T1 := rfl

theorem parse_c6p2 : parse ['a', '*'] = .ok c6T2 := rfl

theorem build_c6T1 : buildNfa (compileFuel c6T1) c6T1 = some (a6A1, 0) := rfl

theorem build_c6T2 : buildNfa (compileFuel c6T2) c6T2 = some (a6A2, 0) := rfl

/-- Language of the `(a*)*` automaton. -/
theorem lang_star1 (x : List Char) :
    simulateNfaIterative a6A1 0 x = true ↔ (∀ c ∈ x, c = 'a') := by
  have aux : ∀ cs, simGo a6A1 [7, 6, 5, 3, 2, 1, 4] cs = true ↔ (∀ c ∈ cs, c = 'a') := by
    intro cs
    induction cs with
    | nil => decide
    | cons c2 cs2 ih =>
      by_cases hc : c2 = 'a'
      · subst hc
        rw [simGo_cons, show stepChar a6A1 [7, 6, 5, 3, 2, 1, 4] 'a' = [7] from rfl,
          if_neg (by decide),
          show epsilonClosure a6A1 [7] = [7, 6, 5, 3, 2, 1, 4] from rfl, ih]
        simp
      · rw [simGo_cons, stepChar_nil_keys a6A1 [7, 6, 5, 3, 2, 1, 4] c2 ['a']
          (by decide) (by simp [hc]), if_pos rfl]
        simp [hc]
  unfold simulateNfaIterative
  rw [show epsilonClosure a6A1 [0] = [0, 2, 1, 4, 6, 5, 3] from rfl]
  match x with
  | [] => decide
  | c :: cs =>
    by_cases hc : c = 'a'
    · subst hc
      rw [simGo_cons, show stepChar a6A1 [0, 2, 1, 4, 6, 5, 3] 'a' = [7] from rfl,
        if_neg (by decide),
        show epsilonClosure a6A1 [7] = [7, 6, 5, 3, 2, 1, 4] from rfl, aux cs]
      simp
    · rw [simGo_cons, stepChar_nil_keys a6A1 [0, 2, 1, 4, 6, 5, 3] c ['a']
        (by decide) (by simp [hc]), if_pos rfl]
      simp [hc]

/-- Language of the `a*` automaton. -/
theorem lang_star2 (x : List Char) :
    simulateNfaIterative a6A2 0 x = true ↔ (∀ c ∈ x, c = 'a') := by
  have aux : ∀ cs, simGo a6A2 [3, 2, 1] cs = true ↔ (∀ c ∈ cs, c = 'a') := by
    intro cs
    induction cs with
    | nil => decide
    | cons c2 cs2 ih =>
      by_cases hc : c2 = 'a'
      · subst hc
        rw [simGo_cons, show stepChar a6A2 [3, 2, 1] 'a' = [3] from rfl,
          if_neg (by decide), show epsilonClosure a6A2 [3] = [3, 2, 1] from rfl, ih]
        simp
      · rw [simGo_cons, stepChar_nil_keys a6A2 [3, 2, 1] c2 ['a']
          (by decide) (by simp [hc]), if_pos rfl]
        simp [hc]
  unfold simulateNfaIterative
  rw [show epsilonClosure a6A2 [0] = [0, 2, 1] from rfl]
  match x with
  | [] => decide
  | c :: cs =>
    by_cases hc : c = 'a'
    · subst hc
      rw [simGo_cons, show stepChar a6A2 [0, 2, 1] 'a' = [3] from rfl,
        if_neg (by decide), show epsilonClosure a6A2 [3] = [3, 2, 1] from rfl, aux cs]
      simp
    · rw [simGo_cons, stepChar_nil_keys a6A2 [0, 2, 1] c ['a']
        (by decide) (by simp [hc]), if_pos rfl]
      simp [hc]

/-! ## Compiler invariants (claim C2) -/

theorem getState_out {A : Arena} {i : Nat} (h : A.length ≤ i) : getState A i = freshState :=
  List.getD_eq_default _ _ h

theorem getState_set (A : Arena) (f : Nat) (st : NFAState) (i : Nat) :
    getState (A.set f st) i = if f = i ∧ f < A.length then st else getState A i := by
  unfold getState List.getD
  simp only [List.get?_eq_getElem?]
  rw [List.getElem?_set]
  by_cases h1 : f = i
  · subst h1
    by_cases h2 : f < A.length
    · simp [h2]
    · simp only [h2, and_false, if_false, if_true, Option.getD_none, if_pos rfl]
      rw [List.getElem?_eq_none (by omega : A.length ≤ f)]
      rfl
  · simp [h1]

theorem FlagsEq.rfl' (A : Arena) : FlagsEq A A := fun _ => ⟨rfl, rfl⟩

theorem FlagsEq.trans' {A0 A1 A2 : Arena} (h1 : FlagsEq A0 A1) (h2 : FlagsEq A1 A2) :
    FlagsEq A0 A2 := fun i =>
  ⟨(h2 i).1.trans (h1 i).1, (h2 i).2.trans (h1 i).2⟩

theorem flagsEq_set_same {A : Arena} {f : Nat} {st : NFAState}
    (h1 : st.isStart = (getState A f).isStart)
    (h2 : st.isTerminal = (getState A f).isTerminal) : FlagsEq A (A.set f st) := by
  intro i
  rw [getState_set]
  by_cases hc : f = i ∧ f < A.length
  · rw [if_pos hc, ← hc.1]
    exact ⟨h1, h2⟩
  · rw [if_neg hc]
    exact ⟨rfl, rfl⟩

theorem flagsEq_addEps (A : Arena) (f t : Nat) : FlagsEq A (addEpsilonTransition A f t) := by
  unfold addEpsilonTransition
  dsimp only
  split_ifs
  · exact FlagsEq.rfl' A
  · exact flagsEq_set_same rfl rfl

theorem flagsEq_addTrans (A : Arena) (f : Nat) (c : Char) (t : Nat) :
    FlagsEq A (addTransition A f c t) :=
  flagsEq_set_same rfl rfl

theorem flagsEq_append_fresh (A : Arena) : FlagsEq A (A ++ [freshState]) := by
  intro i
  by_cases h : i < A.length
  · unfold getState List.getD
    simp only [List.get?_eq_getElem?]
    rw [List.getElem?_append_left h]
    exact ⟨rfl, rfl⟩
  · rw [getState_out (by omega : A.length ≤ i)]
    unfold getState List.getD
    simp only [List.get?_eq_getElem?]
    by_cases h2 : i = A.length
    · subst h2
      rw [List.getElem?_append, if_neg (by omega)]
      simp [freshState]
    · have hlen : (A ++ [freshState]).length ≤ i := by
        simp only [List.length_append, List.length_singleton]
        omega
      rw [List.getElem?_eq_none hlen]
      exact ⟨rfl, rfl⟩

theorem addEps_length (A : Arena) (f t : Nat) :
    (addEpsilonTransition A f t).length = A.length := by
  unfold addEpsilonTransition
  dsimp only
  split_ifs
  · rfl
  · simp [List.length_set]

theorem addTrans_length (A : Arena) (f : Nat) (c : Char) (t : Nat) :
    (addTransition A f c t).length = A.length := by
  unfold addTransition
  simp [List.length_set]

theorem foldl_addTrans_flagsEq_length (s e : Nat) :
    ∀ (cs : List Char) (A : Arena),
      FlagsEq A (cs.foldl (fun A c => addTransition A s c e) A) ∧
      (cs.foldl (fun A c => addTransition A s c e) A).length = A.length
  | [], A => ⟨FlagsEq.rfl' A, rfl⟩
  | c :: cs, A => by
    rw [List.foldl_cons]
    obtain ⟨h1, h2⟩ := foldl_addTrans_flagsEq_length s e cs (addTransition A s c e)
    refine ⟨FlagsEq.trans' (flagsEq_addTrans A s c e) h1, ?_⟩
    rw [h2, addTrans_length]

theorem tokenSize_pos (t : Token) : 1 ≤ tokenSize t := by
  cases t <;> rw [tokenSize.eq_def] <;> dsimp only <;> omega

theorem obind {α β : Type} (a : α) (f : α → Option β) :
    ((some a : Option α) >>= f) = f a := rfl

theorem flagsEq_two_fresh (A : Arena) : FlagsEq A ((A ++ [freshState]) ++ [freshState]) :=
  FlagsEq.trans' (flagsEq_append_fresh A) (flagsEq_append_fresh _)

theorem len_two_fresh (A : Arena) :
    ((A ++ [freshState]) ++ [freshState]).length = A.length + 2 := by
  simp

/-- The compiler master invariant: with enough fuel every frame succeeds,
`tokenToNfa` fragments are the pair of states allocated at entry (one entry,
one exit), arenas only grow, and no flag is ever set during compilation. -/
theorem compileStep_spec : ∀ (fuel : Nat) (call : CCall), cMeasure call ≤ fuel →
    (match call with
    | .tok t A0 => ∃ A', compileStep fuel (.tok t A0) = some (A', A0.length, A0.length + 1) ∧
        FlagsEq A0 A' ∧ A0.length + 2 ≤ A'.length
    | .toks ts A0 => ∃ A' e, compileStep fuel (.toks ts A0) = some (A', A0.length, e) ∧
        FlagsEq A0 A' ∧ A0.length < e ∧ e < A'.length
    | .chain ts A0 s0 e0 => s0 < e0 → e0 < A0.length →
        ∃ A' e, compileStep fuel (.chain ts A0 s0 e0) = some (A', s0, e) ∧
          FlagsEq A0 A' ∧ A0.length ≤ A'.length ∧ s0 < e ∧ e < A'.length
    | .rep inner k A0 ce => ce < A0.length →
        ∃ A' ce2, compileStep fuel (.rep inner k A0 ce) = some (A', ce2, ce2) ∧
          FlagsEq A0 A' ∧ A0.length ≤ A'.length ∧ ce ≤ ce2 ∧ ce2 < A'.length
    | .repOpt inner k A0 ce => ce < A0.length →
        ∃ A' ce2, compileStep fuel (.repOpt inner k A0 ce) = some (A', ce2, ce2) ∧
          FlagsEq A0 A' ∧ A0.length ≤ A'.length ∧ ce ≤ ce2 ∧ ce2 < A'.length) := by
  intro fuel
  induction fuel with
  | zero =>
    intro call hm
    exfalso
    cases call with
    | tok t A => have := tokenSize_pos t; simp only [cMeasure] at hm; omega
    | toks ts A => simp only [cMeasure] at hm; omega
    | chain ts A s e => simp only [cMeasure] at hm; omega
    | rep inner k A ce => simp only [cMeasure] at hm; omega
    | repOpt inner k A ce => simp only [cMeasure] at hm; omega
  | succ fuel ih =>
    intro call hm
    match call with
    | .tok t A0 =>
      simp only [cMeasure] at hm
      match t with
      | .LITERAL c =>
        simp only [compileStep, createState, List.length_append, List.length_singleton]
        refine ⟨_, rfl, ?_, ?_⟩
        · exact FlagsEq.trans' (flagsEq_two_fresh A0) (flagsEq_addTrans _ _ _ _)
        · rw [addTrans_length, len_two_fresh]
      | .BRACKET cs =>
        simp only [compileStep, createState, List.length_append, List.length_singleton]
        obtain ⟨hf, hl⟩ := foldl_addTrans_flagsEq_length A0.length
          (A0.length + 1) cs ((A0 ++ [freshState]) ++ [freshState])
        refine ⟨_, rfl, ?_, ?_⟩
        · exact FlagsEq.trans' (flagsEq_two_fresh A0) hf
        · rw [hl, len_two_fresh]
      | .OR l r =>
        simp only [tokenSize] at hm
        simp only [compileStep, createState, List.length_append, List.length_singleton]
        have h1 := ih (.toks l ((A0 ++ [freshState]) ++ [freshState]))
          (by simp only [cMeasure]; omega)
        obtain ⟨A3, le, hr1, hfl1, hlt1, hlt2⟩ := h1
        rw [hr1, obind]
        have h2 := ih (.toks r A3) (by simp only [cMeasure]; omega)
        obtain ⟨A4, re, hr2, hfl2, hlt3, hlt4⟩ := h2
        rw [hr2, obind]
        refine ⟨_, rfl, ?_, ?_⟩
        · refine FlagsEq.trans' (flagsEq_two_fresh A0) (FlagsEq.trans' hfl1
            (FlagsEq.trans' hfl2 ?_))
          exact FlagsEq.trans' (flagsEq_addEps _ _ _) (FlagsEq.trans' (flagsEq_addEps _ _ _)
            (FlagsEq.trans' (flagsEq_addEps _ _ _) (flagsEq_addEps _ _ _)))
        · simp only [addEps_length]
          rw [len_two_fresh] at hlt1
          omega
      | .GROUP ts =>
        simp only [tokenSize] at hm
        simp only [compileStep, createState, List.length_append, List.length_singleton]
        by_cases hts : ts.isEmpty
        · rw [if_pos hts]
          refine ⟨_, rfl, ?_, ?_⟩
          · exact FlagsEq.trans' (flagsEq_two_fresh A0) (flagsEq_addEps _ _ _)
          · rw [addEps_length, len_two_fresh]
        · rw [if_neg hts]
          have h1 := ih (.toks ts ((A0 ++ [freshState]) ++ [freshState]))
            (by simp only [cMeasure]; omega)
          obtain ⟨A3, ge, hr1, hfl1, hlt1, hlt2⟩ := h1
          rw [hr1, obind]
          dsimp only
          refine ⟨_, rfl, ?_, ?_⟩
          · exact FlagsEq.trans' (flagsEq_two_fresh A0) (FlagsEq.trans' hfl1
              (FlagsEq.trans' (flagsEq_addEps _ _ _) (flagsEq_addEps _ _ _)))
          · rw [addEps_length, addEps_length]
            rw [len_two_fresh] at hlt1
            omega
      | .REPEAT minv maxv inner =>
        simp only [tokenSize] at hm
        have hM : 1 ≤ (match maxv with | some n => n + 1 | none => 1) := by
          cases maxv <;> simp
        simp only [compileStep, createState, List.length_append, List.length_singleton]
        by_cases h00 : minv = 0 ∧ maxv = some 0
        · rw [if_pos h00]
          refine ⟨_, rfl, ?_, ?_⟩
          · exact FlagsEq.trans' (flagsEq_two_fresh A0) (flagsEq_addEps _ _ _)
          · rw [addEps_length, len_two_fresh]
        · rw [if_neg h00]
          by_cases h0inf : minv = 0 ∧ maxv = none
          · rw [if_pos h0inf]
            have h1 := ih (.tok inner ((A0 ++ [freshState]) ++ [freshState]))
              (by simp only [cMeasure]; omega)
            obtain ⟨A3, hr1, hfl1, hlen1⟩ := h1
            rw [hr1, obind]
            refine ⟨_, rfl, ?_, ?_⟩
            · exact FlagsEq.trans' (flagsEq_two_fresh A0) (FlagsEq.trans' hfl1
                (FlagsEq.trans' (flagsEq_addEps _ _ _) (FlagsEq.trans' (flagsEq_addEps _ _ _)
                  (FlagsEq.trans' (flagsEq_addEps _ _ _) (flagsEq_addEps _ _ _)))))
            · simp only [addEps_length]
              rw [len_two_fresh] at hlen1
              omega
          · rw [if_neg h0inf]
            by_cases h1inf : minv = 1 ∧ maxv = none
            · rw [if_pos h1inf]
              have h1 := ih (.tok inner ((A0 ++ [freshState]) ++ [freshState]))
                (by simp only [cMeasure]; omega)
              obtain ⟨A3, hr1, hfl1, hlen1⟩ := h1
              rw [hr1, obind]
              refine ⟨_, rfl, ?_, ?_⟩
              · exact FlagsEq.trans' (flagsEq_two_fresh A0) (FlagsEq.trans' hfl1
                  (FlagsEq.trans' (flagsEq_addEps _ _ _) (FlagsEq.trans' (flagsEq_addEps _ _ _)
                    (flagsEq_addEps _ _ _))))
              · simp only [addEps_length]
                rw [len_two_fresh] at hlen1
                omega
            · rw [if_neg h1inf]
              by_cases h01 : minv = 0 ∧ maxv = some 1
              · rw [if_pos h01]
                have h1 := ih (.tok inner ((A0 ++ [freshState]) ++ [freshState]))
                  (by simp only [cMeasure]; omega)
                obtain ⟨A3, hr1, hfl1, hlen1⟩ := h1
                rw [hr1, obind]
                refine ⟨_, rfl, ?_, ?_⟩
                · exact FlagsEq.trans' (flagsEq_two_fresh A0) (FlagsEq.trans' hfl1
                    (FlagsEq.trans' (flagsEq_addEps _ _ _) (FlagsEq.trans' (flagsEq_addEps _ _ _)
                      (flagsEq_addEps _ _ _))))
                · simp only [addEps_length]
                  rw [len_two_fresh] at hlen1
                  omega
              · rw [if_neg h01]
                have h1 := ih (.rep inner minv ((A0 ++ [freshState]) ++ [freshState]) A0.length)
                  (by simp only [cMeasure]; omega)
                obtain ⟨A3, ce2, hr1, hfl1, hlen1, hle1, hlt1⟩ :=
                  h1 (by rw [len_two_fresh]; omega)
                rw [hr1, obind]
                rw [len_two_fresh] at hlen1
                match maxv with
                | none =>
                  dsimp only
                  have h2 := ih (.tok inner A3) (by simp only [cMeasure]; omega)
                  obtain ⟨A4, hr2, hfl2, hlen2⟩ := h2
                  rw [hr2, obind]
                  refine ⟨_, rfl, ?_, ?_⟩
                  · exact FlagsEq.trans' (flagsEq_two_fresh A0) (FlagsEq.trans' hfl1
                      (FlagsEq.trans' hfl2 (FlagsEq.trans' (flagsEq_addEps _ _ _)
                        (FlagsEq.trans' (flagsEq_addEps _ _ _) (FlagsEq.trans'
                          (flagsEq_addEps _ _ _) (flagsEq_addEps _ _ _))))))
                  · simp only [addEps_length]
                    omega
                | some maxn =>
                  dsimp only
                  have hM2 : (match (some maxn : Option Nat) with
                      | some n => n + 1 | none => 1) = maxn + 1 := rfl
                  rw [hM2] at hm
                  have h2 := ih (.repOpt inner (maxn - minv) A3 ce2)
                    (by simp only [cMeasure]; omega)
                  obtain ⟨A4, ce3, hr2, hfl2, hlen2, hle2, hlt2⟩ := h2 hlt1
                  rw [hr2, obind]
                  refine ⟨_, rfl, ?_, ?_⟩
                  · exact FlagsEq.trans' (flagsEq_two_fresh A0) (FlagsEq.trans' hfl1
                      (FlagsEq.trans' hfl2 (flagsEq_addEps _ _ _)))
                  · simp only [addEps_length]
                    omega
    | .toks ts A0 =>
      simp only [cMeasure] at hm
      match ts with
      | [] =>
        simp only [compileStep, createState, List.length_append, List.length_singleton]
        refine ⟨_, A0.length + 1, rfl, ?_, ?_, ?_⟩
        · exact FlagsEq.trans' (flagsEq_two_fresh A0) (flagsEq_addEps _ _ _)
        · simp
        · rw [addEps_length, len_two_fresh]
          simp
      | t :: ts2 =>
        simp only [tokenListSize] at hm
        simp only [compileStep]
        have h1 := ih (.tok t A0) (by simp only [cMeasure]; omega)
        obtain ⟨A1, hr1, hfl1, hlen1⟩ := h1
        rw [hr1, obind]
        have h2 := ih (.chain ts2 A1 A0.length (A0.length + 1))
          (by simp only [cMeasure]; omega)
        obtain ⟨A2, e2, hr2, hfl2, hlen2, hlt2, hlt3⟩ := h2 (by omega) (by omega)
        rw [hr2]
        exact ⟨A2, e2, rfl, FlagsEq.trans' hfl1 hfl2, by omega, hlt3⟩
    | .chain ts A0 s0 e0 =>
      simp only [cMeasure] at hm
      intro hse he
      match ts with
      | [] =>
        simp only [compileStep]
        exact ⟨A0, e0, rfl, FlagsEq.rfl' A0, le_refl _, hse, he⟩
      | t :: ts2 =>
        simp only [tokenListSize] at hm
        simp only [compileStep]
        have h1 := ih (.tok t A0) (by simp only [cMeasure]; omega)
        obtain ⟨A1, hr1, hfl1, hlen1⟩ := h1
        rw [hr1, obind]
        have h2 := ih (.chain ts2 (addEpsilonTransition A1 e0 A0.length) s0 (A0.length + 1))
          (by simp only [cMeasure]; omega)
        obtain ⟨A2, e2, hr2, hfl2, hlen2, hlt2, hlt3⟩ := h2 (by omega)
          (by rw [addEps_length]; omega)
        rw [hr2]
        refine ⟨A2, e2, rfl, ?_, ?_, hlt2, hlt3⟩
        · exact FlagsEq.trans' hfl1 (FlagsEq.trans' (flagsEq_addEps _ _ _) hfl2)
        · rw [addEps_length] at hlen2
          omega
    | .rep inner k A0 ce =>
      simp only [cMeasure] at hm
      intro hce
      match k with
      | 0 =>
        simp only [compileStep]
        exact ⟨A0, ce, rfl, FlagsEq.rfl' A0, le_refl _, le_refl _, hce⟩
      | k2 + 1 =>
        simp only [compileStep]
        have h1 := ih (.tok inner A0) (by simp only [cMeasure]; omega)
        obtain ⟨A1, hr1, hfl1, hlen1⟩ := h1
        rw [hr1, obind]
        have h2 := ih (.rep inner k2 (addEpsilonTransition A1 ce A0.length) (A0.length + 1))
          (by simp only [cMeasure]; omega)
        obtain ⟨A2, ce2, hr2, hfl2, hlen2, hle2, hlt2⟩ := h2 (by rw [addEps_length]; omega)
        rw [hr2]
        refine ⟨A2, ce2, rfl, ?_, ?_, by omega, hlt2⟩
        · exact FlagsEq.trans' hfl1 (FlagsEq.trans' (flagsEq_addEps _ _ _) hfl2)
        · rw [addEps_length] at hlen2
          omega
    | .repOpt inner k A0 ce =>
      simp only [cMeasure] at hm
      intro hce
      match k with
      | 0 =>
        simp only [compileStep]
        exact ⟨A0, ce, rfl, FlagsEq.rfl' A0, le_refl _, le_refl _, hce⟩
      | k2 + 1 =>
        simp only [compileStep, createState, List.length_append, List.length_singleton]
        have h1 := ih (.tok inner A0) (by simp only [cMeasure]; omega)
        obtain ⟨A1, hr1, hfl1, hlen1⟩ := h1
        rw [hr1, obind]
        have h2 := ih (.repOpt inner k2
          (addEpsilonTransition (addEpsilonTransition
            (addEpsilonTransition A1 ce A0.length ++ [freshState])
            ce (addEpsilonTransition A1 ce A0.length).length)
            (A0.length + 1) (addEpsilonTransition A1 ce A0.length).length)
          (addEpsilonTransition A1 ce A0.length).length)
          (by simp only [cMeasure]; omega)
        obtain ⟨A2, ce2, hr2, hfl2, hlen2, hle2, hlt2⟩ := h2
          (by simp only [addEps_length, List.length_append, List.length_singleton]; omega)
        rw [hr2]
        refine ⟨A2, ce2, rfl, ?_, ?_, ?_, hlt2⟩
        · exact FlagsEq.trans' hfl1 (FlagsEq.trans' (flagsEq_addEps _ _ _)
            (FlagsEq.trans' (flagsEq_append_fresh _) (FlagsEq.trans' (flagsEq_addEps _ _ _)
              (FlagsEq.trans' (flagsEq_addEps _ _ _) hfl2))))
        · simp only [addEps_length, List.length_append, List.length_singleton] at hlen2
          omega
        · simp only [addEps_length] at hle2
          omega

theorem cMeasure_toks_le_compileFuel (ts : List Token) :
    cMeasure (.toks ts []) ≤ compileFuel ts := by
  simp only [cMeasure, compileFuel]
  nlinarith [sq_nonneg (tokenListSize ts)]

/-- `buildNfa` with the fuel `match` supplies always succeeds; the start id is
0, and after finalization exactly one state carries each flag. -/
theorem buildNfa_flags (ts : List Token) :
    ∃ A s, buildNfa (compileFuel ts) ts = some (A, s) ∧ s = 0 ∧
      ∃ e, e ≠ s ∧ e < A.length ∧ s < A.length ∧
        (∀ i, (getState A i).isStart = true ↔ i = s) ∧
        (∀ i, (getState A i).isTerminal = true ↔ i = e) := by
  have hspec := compileStep_spec (compileFuel ts) (.toks ts [])
    (cMeasure_toks_le_compileFuel ts)
  obtain ⟨A1, e, hr, hfl, hlt1, hlt2⟩ := hspec
  simp only [List.length_nil] at hr hlt1
  have hflags : ∀ i, (getState A1 i).isStart = false ∧ (getState A1 i).isTerminal = false := by
    intro i
    have h := hfl i
    rw [getState_out (by simp : ([] : Arena).length ≤ i)] at h
    exact ⟨h.1, h.2⟩
  unfold buildNfa tokensToNfa
  rw [hr, obind]
  refine ⟨_, 0, rfl, rfl, e, by omega, ?_, ?_, ?_, ?_⟩
  · unfold setTerminalFlag setStartFlag
    simp only [List.length_set]
    exact hlt2
  · unfold setTerminalFlag setStartFlag
    simp only [List.length_set]
    omega
  · intro i
    unfold setTerminalFlag setStartFlag
    rw [getState_set]
    split_ifs with hie
    · obtain ⟨heq, -⟩ := hie
      subst heq
      dsimp only
      rw [getState_set]
      split_ifs with h0
      · exact absurd h0.1 (by omega)
      · rw [(hflags e).1]
        simp only [Bool.false_eq_true, false_iff]
        omega
    · rw [getState_set]
      split_ifs with h0
      · obtain ⟨heq, -⟩ := h0
        subst heq
        simp
      · rw [(hflags i).1]
        simp only [Bool.false_eq_true, false_iff]
        intro h
        exact h0 ⟨h.symm, by omega⟩
  · intro i
    unfold setTerminalFlag setStartFlag
    rw [getState_set]
    split_ifs with hie
    · obtain ⟨heq, -⟩ := hie
      subst heq
      simp
    · rw [getState_set]
      split_ifs with h0
      · obtain ⟨heq, -⟩ := h0
        subst heq
        dsimp only
        rw [(hflags 0).2]
        simp only [Bool.false_eq_true, false_iff]
        omega
      · rw [(hflags i).2]
        simp only [Bool.false_eq_true, false_iff]
        simp only [List.length_set] at hie
        intro h
        exact hie ⟨h.symm, by omega⟩

theorem bool_eq_of_iff {a b : Bool} (h : (a = true) ↔ (b = true)) : a = b := by
  cases a <;> cases b <;> simp_all

/-! ## The claims -/

/-- Claim C1: `simulateNfaIterative(startState, input)` returns true iff a
path from the start state to a terminal state consumes exactly the whole
input, character transitions consuming one character each and epsilon
transitions none (`Accepts` is that path semantics); no prefix or substring
match is accepted.  Proved for every arena, hence in particular for every
compiled NFA. -/
theorem c1_simulate_anchored_acceptance (A : Arena) (startState : Nat)
    (input : List Char) :
    simulateNfaIterative A startState input = true ↔ Accepts A startState input :=
  simulateNfaIterative_correct A startState input

/-- Claim C2: compilation is total with the fuel `match` supplies and never
errors; every `tokenToNfa` fragment has exactly one entry state (the first
allocated id) and one exit state (the second), compilation sets no flags
(`FlagsEq`), and after `buildNfa` finalization exactly the outer entry state
has `isStart` and exactly the outer exit state has `isTerminal`. -/
theorem c2_compiler_total_thompson (ts : List Token) (t : Token) (A0 : Arena) :
    (∃ A s, buildNfa (compileFuel ts) ts = some (A, s) ∧ s = 0 ∧
      ∃ e, e ≠ s ∧ e < A.length ∧ s < A.length ∧
        (∀ i, (getState A i).isStart = true ↔ i = s) ∧
        (∀ i, (getState A i).isTerminal = true ↔ i = e)) ∧
    (∃ A', tokenToNfa (2 * tokenSize t) t A0 = some (A', A0.length, A0.length + 1) ∧
      FlagsEq A0 A' ∧ A0.length + 2 ≤ A'.length) :=
  ⟨buildNfa_flags ts, compileStep_spec (2 * tokenSize t) (.tok t A0) (le_refl _)⟩

/-- Claim C2 witness at a concrete token list and token. -/
theorem c2_witness :
    (∃ A s, buildNfa (compileFuel [Token.LITERAL 'a']) [Token.LITERAL 'a'] = some (A, s) ∧
      s = 0 ∧ ∃ e, e ≠ s ∧ e < A.length ∧ s < A.length ∧
        (∀ i, (getState A i).isStart = true ↔ i = s) ∧
        (∀ i, (getState A i).isTerminal = true ↔ i = e)) ∧
    (∃ A', tokenToNfa (2 * tokenSize (Token.LITERAL 'b')) (Token.LITERAL 'b') [] =
      some (A', 0, 1) ∧ FlagsEq [] A' ∧ 2 ≤ A'.length) :=
  c2_compiler_total_thompson [Token.LITERAL 'a'] (Token.LITERAL 'b') []

/-- Claim C3: a counted quantifier on an atom yields exactly the claimed
`REPEAT` bounds — `{m}` gives `(m, m)`, `{m,}` gives `(m, ∞)`, `{m,n}` with
`m ≤ n` gives `(m, n)`, `{,n}` gives `(0, n)` — and `{m,n}` with `n < m`
is an `InvalidQuantifierRange` error instead of a token. -/
theorem c3_quantifier_bounds (full : List Char) (fuel : Nat) (c : Char)
    (ds1 ds2 ds3 rest : List Char) (pos : Nat) (stop : List Char)
    (hns : notSpecial c) (hstop : c ∉ stop)
    (h1 : ds1 ≠ []) (hd1 : ∀ d ∈ ds1, d.isDigit)
    (h2 : ds2 ≠ []) (hd2 : ∀ d ∈ ds2, d.isDigit)
    (h3 : ds3 ≠ []) (hd3 : ∀ d ∈ ds3, d.isDigit)
    (hle : numVal ds1 ≤ numVal ds2) (hlt : numVal ds3 < numVal ds1) :
    parseFactor full (fuel + 2) (c :: '\x7b' :: (ds1 ++ '\x7d' :: rest)) pos stop =
      .ok (some (.REPEAT (numVal ds1) (some (numVal ds1)) (.LITERAL c)), rest,
        pos + 1 + 1 + ds1.length + 1) ∧
    parseFactor full (fuel + 2) (c :: '\x7b' :: (ds1 ++ ',' :: '\x7d' :: rest)) pos stop =
      .ok (some (.REPEAT (numVal ds1) none (.LITERAL c)), rest,
        pos + 1 + 1 + ds1.length + 1 + 1) ∧
    parseFactor full (fuel + 2)
        (c :: '\x7b' :: (ds1 ++ ',' :: (ds2 ++ '\x7d' :: rest))) pos stop =
      .ok (some (.REPEAT (numVal ds1) (some (numVal ds2)) (.LITERAL c)), rest,
        pos + 1 + 1 + ds1.length + 1 + ds2.length + 1) ∧
    parseFactor full (fuel + 2) (c :: '\x7b' :: ',' :: (ds2 ++ '\x7d' :: rest)) pos stop =
      .ok (some (.REPEAT 0 (some (numVal ds2)) (.LITERAL c)), rest,
        pos + 1 + 1 + 1 + ds2.length + 1) ∧
    parseFactor full (fuel + 2)
        (c :: '\x7b' :: (ds1 ++ ',' :: (ds3 ++ '\x7d' :: rest))) pos stop =
      .error (reportError .InvalidQuantifierRange
        "Invalid quantifier range: min > max" full (pos + 1)) := by
  unfold parseFactor
  refine ⟨?_, ?_, ?_, ?_, ?_⟩
  · rw [factor_brace_exact full fuel c ds1 rest pos stop hns hstop h1 hd1]
    rfl
  · rw [factor_brace_min full fuel c ds1 rest pos stop hns hstop h1 hd1]
    rfl
  · rw [factor_brace_min_max full fuel c ds1 ds2 rest pos stop hns hstop h1 hd1 h2 hd2 hle]
    rfl
  · rw [factor_brace_max full fuel c ds2 rest pos stop hns hstop h2 hd2]
    rfl
  · rw [factor_brace_invalid_range full fuel c ds1 ds3 rest pos stop hns hstop h1 hd1
      h3 hd3 hlt]
    rfl

/-- Claim C3 witness: `a{2}`, `a{2,}`, `a{2,3}`, `a{,3}`, `a{2,1}`. -/
theorem c3_witness :
    parseFactor [] 2 ['a', '\x7b', '2', '\x7d'] 0 [] =
      .ok (some (.REPEAT 2 (some 2) (.LITERAL 'a')), [], 4) ∧
    parseFactor [] 2 ['a', '\x7b', '2', ',', '1', '\x7d'] 0 [] =
      .error (reportError .InvalidQuantifierRange
        "Invalid quantifier range: min > max" [] 1) := by
  have h := c3_quantifier_bounds [] 0 'a' ['2'] ['3'] ['1'] [] 0 []
    (by refine ⟨?_, ?_, ?_, ?_, ?_, ?_, ?_, ?_⟩ <;> decide) (List.not_mem_nil _)
    (by decide) (by decide) (by decide) (by decide) (by decide) (by decide)
    (by decide) (by decide)
  exact ⟨h.1, h.2.2.2.2⟩

/-- Claim C4: an accepted character class scans left to right per `classSpec`
(a three-character `X-Y` window with `Y ≠ ']'` contributes the inclusive
code-point range and advances by three, any other character contributes
itself), the resulting `BRACKET` token holds the scan deduplicated (each
character at most once, membership preserved), and range expansion contains
exactly the claimed code points. -/
theorem c4_char_class (full : List Char) (fuel : Nat) (cs rest : List Char) (pos : Nat)
    (stop : List Char) (L : List Char) (lo hi c : Char)
    (hstop : '[' ∉ stop) (hni : ']' ∉ cs) (hL : classSpec cs = some L) (hne : L ≠ [])
    (hhi : hi.toNat < 55296) :
    parseAtom full (fuel + 1) ('[' :: (cs ++ ']' :: rest)) pos stop =
      .ok (some (.BRACKET (dedupFirst L)), rest, pos + 1 + cs.length + 1) ∧
    (dedupFirst L).Nodup ∧ (∀ x, x ∈ dedupFirst L ↔ x ∈ L) ∧
    (c ∈ rangeChars lo hi ↔ lo.toNat ≤ c.toNat ∧ c.toNat ≤ hi.toNat) := by
  refine ⟨?_, dedupFirst_nodup L, fun x => mem_dedupFirst, mem_rangeChars hhi⟩
  unfold parseAtom
  rw [atom_bracket full fuel cs rest pos stop L hstop hni hL hne]
  rfl

/-- Claim C4 witness: the class `[a-ca]`. -/
theorem c4_witness :
    parseAtom [] 1 ['[', 'a', '-', 'c', 'a', ']'] 0 [] =
      .ok (some (.BRACKET ['a', 'b', 'c']), [], 6) ∧
    ('b' ∈ rangeChars 'a' 'c' ↔ 'a'.toNat ≤ 'b'.toNat ∧ 'b'.toNat ≤ 'c'.toNat) := by
  have h := c4_char_class [] 0 ['a', '-', 'c', 'a'] [] 0 [] ['a', 'b', 'c', 'a'] 'a' 'c' 'b'
    (List.not_mem_nil _) (by decide) rfl (by decide) (by decide)
  exact ⟨h.1, h.2.2.2⟩

/-- Claim C5: alternation is associative and commutative for acceptance: for
every input, `match` on `(a|b)|c`, `a|(b|c)` and `c|b|a` agree. -/
theorem c5_alternation_assoc_comm (x : List Char) :
    matchRun ['(', 'a', '|', 'b', ')', '|', 'c'] x =
      matchRun ['a', '|', '(', 'b', '|', 'c', ')'] x ∧
    matchRun ['a', '|', '(', 'b', '|', 'c', ')'] x =
      matchRun ['c', '|', 'b', '|', 'a'] x := by
  rw [matchRun_eq_sim parse_c5p1 build_c5T1 x, matchRun_eq_sim parse_c5p2 build_c5T2 x,
    matchRun_eq_sim parse_c5p3 build_c5T3 x]
  exact ⟨bool_eq_of_iff ((lang_or1 x).trans (lang_or2 x).symm),
    bool_eq_of_iff ((lang_or2 x).trans (lang_or3 x).symm)⟩

/-- Claim C6: Kleene star is idempotent under grouping for acceptance: for
every input, `match` on `(a*)*` and on `a*` agree. -/
theorem c6_star_idempotent (x : List Char) :
    matchRun ['(', 'a', '*', ')', '*'] x = matchRun ['a', '*'] x := by
  rw [matchRun_eq_sim parse_c6p1 build_c6T1 x, matchRun_eq_sim parse_c6p2 build_c6T2 x]
  exact bool_eq_of_iff ((lang_star1 x).trans (lang_star2 x).symm)

/-- Claim C7: `epsilonClosure` terminates on its worklist (it is a total
function) and returns exactly the smallest superset of `S` closed under
epsilon edges: it contains `S`, it is closed, and it is contained in every
closed superset of `S`. -/
theorem c7_epsilon_closure_least (A : Arena) (S : List Nat) :
    (∀ s ∈ S, s ∈ epsilonClosure A S) ∧
    (∀ x ∈ epsilonClosure A S, ∀ t ∈ epsOf A x, t ∈ epsilonClosure A S) ∧
    (∀ T : Set Nat, (∀ s ∈ S, s ∈ T) →
      (∀ x ∈ T, ∀ t ∈ epsOf A x, t ∈ T) →
      ∀ x ∈ epsilonClosure A S, x ∈ T) :=
  epsilonClosure_spec A S

/-- Claim C7 witness: the closure of the `a*` automaton start state contains
the seed and is epsilon-closed, on an arena with an epsilon cycle. -/
theorem c7_witness :
    0 ∈ epsilonClosure a6A1 [0] ∧ 1 ∈ epsilonClosure a6A1 [0] := by
  have h := c7_epsilon_closure_least a6A1 [0]
  refine ⟨h.1 0 (by decide), ?_⟩
  exact h.2.1 0 (h.1 0 (by decide)) 1 (by decide)

/-- Claim C8: a bar with an empty operand — leading bar, trailing bar, two
adjacent bars, `(|…)`, `(a|)` — fails the parse with an
`EmptyAlternationOperand` error. -/
theorem c8_empty_alternation (a : Char) (rest : List Char) (hns : notSpecial a) :
    (∃ e, parse ('|' :: rest) = .error e ∧ e.kind = .EmptyAlternationOperand) ∧
    (∃ e, parse [a, '|'] = .error e ∧ e.kind = .EmptyAlternationOperand) ∧
    (∃ e, parse (a :: '|' :: '|' :: rest) = .error e ∧
      e.kind = .EmptyAlternationOperand) ∧
    (∃ e, parse ('(' :: '|' :: rest) = .error e ∧ e.kind = .EmptyAlternationOperand) ∧
    (∃ e, parse ['(', a, '|', ')'] = .error e ∧ e.kind = .EmptyAlternationOperand) :=
  ⟨⟨_, parse_err_leading_bar rest, rfl⟩, ⟨_, parse_err_trailing_bar a hns, rfl⟩,
   ⟨_, parse_err_double_bar a rest hns, rfl⟩,
   ⟨_, parse_err_group_leading_bar rest, rfl⟩,
   ⟨_, parse_err_group_trailing_bar a hns, rfl⟩⟩

/-- Claim C8 witness: the five shapes at `a` and empty tails. -/
theorem c8_witness :
    ∃ e, parse ['a', '|'] = .error e ∧ e.kind = .EmptyAlternationOperand :=
  (c8_empty_alternation 'a' []
    (by refine ⟨?_, ?_, ?_, ?_, ?_, ?_, ?_, ?_⟩ <;> decide)).2.1

/-- Claim C9: every parse error is a structured value whose position points
into the pattern with the snippet `reportError` derives from that position
(kind and message are the other two fields of the structure), and `match`
returns false on it without producing an NFA. -/
theorem c9_error_structured (p : List Char) (e : ParseError) (input : List Char)
    (h : parse p = .error e) :
    e.pos ≤ p.length ∧ e.snippet = mkSnippet p e.pos ∧ matchRun p input = false := by
  obtain ⟨h1, h2⟩ := parse_error_wf h
  refine ⟨h1, h2, ?_⟩
  unfold matchRun
  rw [h]

/-- Claim C9 witness: the unterminated group `(`. -/
theorem c9_witness :
    (reportError .UnterminatedGroup "Unterminated group" ['('] 0).pos ≤ ['('].length ∧
    (reportError .UnterminatedGroup "Unterminated group" ['('] 0).snippet =
      mkSnippet ['('] (reportError .UnterminatedGroup "Unterminated group" ['('] 0).pos ∧
    matchRun ['('] ['x'] = false :=
  c9_error_structured ['('] _ ['x'] rfl

/-- Claim C10 (corrected): the recursive checker and the iterative simulator
agree on every input that does not contain the `'$'` end-of-text sentinel
character; the unconditional claim is false, see `c10_counterexample`:
`check` reads a literal `'$'` in the input as end of text. -/
theorem c10_check_agrees_simulate (A : Arena) (s : Nat) (w : List Char)
    (hd : endOfText ∉ w) : checkRun A s w = simulateNfaIterative A s w :=
  bool_eq_of_iff ((checkRun_correct A s w hd).trans
    (simulateNfaIterative_correct A s w).symm)

/-- Claim C10 witness: agreement on the sentinel-free input `a`. -/
theorem c10_witness : checkRun c10Arena 0 ['a'] = simulateNfaIterative c10Arena 0 ['a'] :=
  c10_check_agrees_simulate c10Arena 0 ['a'] (by decide)

/-- Claim C10 counterexample: on the compiled NFA of the pattern `a` and the
input `a$`, the backtracking checker accepts (it treats the literal `'$'` in
the input as end of text) while the subset simulator rejects. -/
theorem c10_counterexample :
    parse ['a'] = .ok [.LITERAL 'a'] ∧
    buildNfa (compileFuel [.LITERAL 'a']) [.LITERAL 'a'] = some (c10Arena, 0) ∧
    checkRun c10Arena 0 ['a', '$'] = true ∧
    simulateNfaIterative c10Arena 0 ['a', '$'] = false := by
  refine ⟨rfl, rfl, ?_, ?_⟩ <;> decide

end RegexEngine

